import Mathlib

/-!
Shallow embedding of the json-typedef-go library (package jtd):
the schema data model and form classifier, the schema well-formedness
checker (schema.go), and the instance validator (validate.go).

Conventions of the embedding:
* Go maps are modelled as association lists; the list order is the (fixed)
  iteration order of the run.  Go `map[k]v` lookup on a missing key yields
  the zero value, which is modelled explicitly at each use site.
* Go `nil` slices/maps/pointers are `Option.none`; a present value is `some`.
* Decoded JSON numbers (Go float64 produced by encoding/json) are modelled
  as rationals; `math.Modf` producing a zero fractional part corresponds to
  the rational having denominator 1, in which case the integer part is the
  number itself.
* The two mutable path stacks are stored top-first (Go appends at the end
  of a slice); error snapshots reverse them back into Go order.
* The validator can follow `ref` cycles forever, so it takes a fuel
  argument; `none` means the fuel ran out (the Go program is still
  running).  Fuel is consumed once per recursive call of `validate`.
* `time.Parse(time.RFC3339, s)` succeeding is modelled by an arbitrary
  predicate `tsOk : String → Bool` supplied as a parameter; no claim here
  depends on which strings are valid RFC 3339 timestamps.
-/

namespace Jtd

/-- A decoded JSON value (Go interface values produced by encoding/json:
nil, bool, float64, string, []interface, map[string]interface). -/
inductive JsonVal where
  | null : JsonVal
  | bool (b : Bool) : JsonVal
  | num (q : Rat) : JsonVal
  | str (s : String) : JsonVal
  | arr (xs : List JsonVal) : JsonVal
  | obj (kvs : List (String × JsonVal)) : JsonVal

/-- `instance == nil` in Go (the decoded JSON null). -/
def JsonVal.isNull : JsonVal → Bool
  | .null => true
  | _ => false

/-- The Schema struct of schema.go.  Fields in source order. -/
inductive Schema where
  | mk
    (definitions : Option (List (String × Schema)))
    (metadata : Option (List (String × JsonVal)))
    (nullable : Bool)
    (ref : Option String)
    (type : String)
    (enum : Option (List String))
    (elements : Option Schema)
    (properties : Option (List (String × Schema)))
    (optionalProperties : Option (List (String × Schema)))
    (additionalProperties : Bool)
    (values : Option Schema)
    (discriminator : String)
    (mapping : Option (List (String × Schema)))

def Schema.definitions : Schema → Option (List (String × Schema))
  | .mk d _ _ _ _ _ _ _ _ _ _ _ _ => d

def Schema.metadata : Schema → Option (List (String × JsonVal))
  | .mk _ m _ _ _ _ _ _ _ _ _ _ _ => m

def Schema.nullable : Schema → Bool
  | .mk _ _ n _ _ _ _ _ _ _ _ _ _ => n

def Schema.ref : Schema → Option String
  | .mk _ _ _ r _ _ _ _ _ _ _ _ _ => r

def Schema.type : Schema → String
  | .mk _ _ _ _ t _ _ _ _ _ _ _ _ => t

def Schema.enum : Schema → Option (List String)
  | .mk _ _ _ _ _ e _ _ _ _ _ _ _ => e

def Schema.elements : Schema → Option Schema
  | .mk _ _ _ _ _ _ e _ _ _ _ _ _ => e

def Schema.properties : Schema → Option (List (String × Schema))
  | .mk _ _ _ _ _ _ _ p _ _ _ _ _ => p

def Schema.optionalProperties : Schema → Option (List (String × Schema))
  | .mk _ _ _ _ _ _ _ _ p _ _ _ _ => p

def Schema.additionalProperties : Schema → Bool
  | .mk _ _ _ _ _ _ _ _ _ a _ _ _ => a

def Schema.values : Schema → Option Schema
  | .mk _ _ _ _ _ _ _ _ _ _ v _ _ => v

def Schema.discriminator : Schema → String
  | .mk _ _ _ _ _ _ _ _ _ _ _ d _ => d

def Schema.mapping : Schema → Option (List (String × Schema))
  | .mk _ _ _ _ _ _ _ _ _ _ _ _ m => m

/-- The Go zero value `Schema{}` (what a map lookup on a missing key
yields). -/
def Schema.zeroValue : Schema :=
  .mk none none false none "" none none none none false none "" none

/-- The eight JSON Typedef schema forms (Form in schema.go). -/
inductive Form where
  | empty
  | ref
  | type
  | enum
  | elements
  | properties
  | values
  | discriminator
deriving DecidableEq

/-- Schema.Form() from schema.go: first matching keyword wins. -/
def Schema.form (s : Schema) : Form :=
  if s.ref.isSome then .ref
  else if s.type ≠ "" then .type
  else if s.enum.isSome then .enum
  else if s.elements.isSome then .elements
  else if s.properties.isSome ∨ s.optionalProperties.isSome then .properties
  else if s.values.isSome then .values
  else if s.mapping.isSome then .discriminator
  else .empty

/-- First-match lookup in an association list (Go map indexing, comma-ok
form: `v, ok := m[k]`). -/
def lookupKey {α : Type} : List (String × α) → String → Option α
  | [], _ => none
  | (k, v) :: rest, key => if k = key then some v else lookupKey rest key

/-- Go `_, ok := m[k]` presence test. -/
def hasKey {α : Type} (l : List (String × α)) (k : String) : Bool :=
  (lookupKey l k).isSome

/-- The closed set of checker errors declared in schema.go. -/
inductive SchemaErr where
  | invalidForm
  | nonRootDefinition
  | noSuchDefinition
  | invalidType
  | emptyEnum
  | repeatedEnumValue
  | sharedProperty
  | nonPropertiesMapping
  | mappingRepeatedDiscriminator
  | nullableMapping
deriving DecidableEq

/-- The table `validForms` of schema.go: the 13 admissible keyword
signatures, in source order. -/
def validForms : List (List Bool) :=
  [ [false, false, false, false, false, false, false, false, false, false],
    [true, false, false, false, false, false, false, false, false, false],
    [false, true, false, false, false, false, false, false, false, false],
    [false, false, true, false, false, false, false, false, false, false],
    [false, false, false, true, false, false, false, false, false, false],
    [false, false, false, false, true, false, false, false, false, false],
    [false, false, false, false, false, true, false, false, false, false],
    [false, false, false, false, true, true, false, false, false, false],
    [false, false, false, false, true, false, true, false, false, false],
    [false, false, false, false, false, true, true, false, false, false],
    [false, false, false, false, true, true, true, false, false, false],
    [false, false, false, false, false, false, false, true, false, false],
    [false, false, false, false, false, false, false, false, true, true] ]

/-- The `formSignature` vector built at the top of ValidateWithRoot. -/
def formSignature (s : Schema) : List Bool :=
  [ s.ref.isSome, s.type != "", s.enum.isSome, s.elements.isSome,
    s.properties.isSome, s.optionalProperties.isSome, s.additionalProperties,
    s.values.isSome, s.discriminator != "", s.mapping.isSome ]

/-- Go's fail-fast sequencing: `if err := a; err != nil { return err }`. -/
def seqE (a : Option SchemaErr) (b : Unit → Option SchemaErr) : Option SchemaErr :=
  match a with
  | some e => some e
  | none => b ()

/-- The eleven valid values of the `type` keyword (validTypes in
ValidateWithRoot). -/
def validTypes : List String :=
  ["boolean", "float32", "float64", "int8", "uint8", "int16", "uint16",
   "int32", "uint32", "string", "timestamp"]

/-- Ref-resolution step of ValidateWithRoot (step: `if s.Ref != nil ...`). -/
def refCheck (root : Schema) (r : Option String) : Option SchemaErr :=
  match r with
  | none => none
  | some name =>
    match root.definitions with
    | none => some .noSuchDefinition
    | some l => if hasKey l name then none else some .noSuchDefinition

/-- Type-domain step of ValidateWithRoot (`if s.Type != "" ...`). -/
def typeCheck (ty : String) : Option SchemaErr :=
  if ty = "" then none
  else if validTypes.contains ty then none
  else some .invalidType

/-- Does the list contain a repeated element (the dedupe-map loop of
ValidateWithRoot)? -/
def hasDup : List String → Bool
  | [] => false
  | x :: xs => xs.contains x || hasDup xs

/-- Enum step of ValidateWithRoot (`if s.Enum != nil ...`). -/
def enumCheck (en : Option (List String)) : Option SchemaErr :=
  match en with
  | none => none
  | some l =>
    if l.length = 0 then some .emptyEnum
    else if hasDup l then some .repeatedEnumValue
    else none

lemma sizeOf_lt_of_definitions {s : Schema} {l : List (String × Schema)}
    (h : s.definitions = some l) : sizeOf l < sizeOf s := by
  cases s with
  | mk d md n r t e el p op a v di m =>
    simp only [Schema.definitions] at h
    subst h
    simp
    try omega

lemma sizeOf_lt_of_elements {s : Schema} {e : Schema}
    (h : s.elements = some e) : sizeOf e < sizeOf s := by
  cases s with
  | mk d md n r t en el p op a v di m =>
    simp only [Schema.elements] at h
    subst h
    simp
    try omega

lemma sizeOf_lt_of_properties {s : Schema} {l : List (String × Schema)}
    (h : s.properties = some l) : sizeOf l < sizeOf s := by
  cases s with
  | mk d md n r t en el p op a v di m =>
    simp only [Schema.properties] at h
    subst h
    simp
    try omega

lemma sizeOf_lt_of_optionalProperties {s : Schema} {l : List (String × Schema)}
    (h : s.optionalProperties = some l) : sizeOf l < sizeOf s := by
  cases s with
  | mk d md n r t en el p op a v di m =>
    simp only [Schema.optionalProperties] at h
    subst h
    simp
    try omega

lemma sizeOf_lt_of_values {s : Schema} {v : Schema}
    (h : s.values = some v) : sizeOf v < sizeOf s := by
  cases s with
  | mk d md n r t en el p op a vv di m =>
    simp only [Schema.values] at h
    subst h
    simp
    try omega

lemma sizeOf_lt_of_mapping {s : Schema} {l : List (String × Schema)}
    (h : s.mapping = some l) : sizeOf l < sizeOf s := by
  cases s with
  | mk d md n r t en el p op a v di m =>
    simp only [Schema.mapping] at h
    subst h
    simp
    try omega

mutual

/-- Schema.ValidateWithRoot of schema.go, checks in source order. -/
def validateWithRoot (isRoot : Bool) (root : Schema) (s : Schema) : Option SchemaErr :=
  if validForms.contains (formSignature s) = false then some .invalidForm
  else if s.definitions.isSome && !isRoot then some .nonRootDefinition
  else
    seqE (match h : s.definitions with
          | some l => checkList root l
          | none => none) (fun _ =>
    seqE (refCheck root s.ref) (fun _ =>
    seqE (typeCheck s.type) (fun _ =>
    seqE (enumCheck s.enum) (fun _ =>
    seqE (match h : s.elements with
          | some e => validateWithRoot false root e
          | none => none) (fun _ =>
    seqE (match h : s.properties with
          | some l => checkProps root s.optionalProperties l
          | none => none) (fun _ =>
    seqE (match h : s.optionalProperties with
          | some l => checkList root l
          | none => none) (fun _ =>
    seqE (match h : s.values with
          | some v => validateWithRoot false root v
          | none => none) (fun _ =>
    (match h : s.mapping with
     | some l => checkMapping root s.discriminator l
     | none => none)))))))))
termination_by sizeOf s
decreasing_by
  all_goals simp_wf
  all_goals
    first
      | exact sizeOf_lt_of_definitions (by assumption)
      | exact sizeOf_lt_of_elements (by assumption)
      | exact sizeOf_lt_of_properties (by assumption)
      | exact sizeOf_lt_of_optionalProperties (by assumption)
      | exact sizeOf_lt_of_values (by assumption)
      | exact sizeOf_lt_of_mapping (by assumption)
      | omega
      | (simp; omega)


/-- The plain recursive sweeps of ValidateWithRoot over definitions and
optionalProperties values. -/
def checkList (root : Schema) : List (String × Schema) → Option SchemaErr
  | [] => none
  | (_, p) :: rest =>
    seqE (validateWithRoot false root p) (fun _ => checkList root rest)
termination_by l => sizeOf l
decreasing_by
  all_goals simp_wf
  all_goals
    first
      | exact sizeOf_lt_of_definitions (by assumption)
      | exact sizeOf_lt_of_elements (by assumption)
      | exact sizeOf_lt_of_properties (by assumption)
      | exact sizeOf_lt_of_optionalProperties (by assumption)
      | exact sizeOf_lt_of_values (by assumption)
      | exact sizeOf_lt_of_mapping (by assumption)
      | omega
      | (simp; omega)


/-- The properties loop of ValidateWithRoot: recurse into each value, then
reject keys shared with optionalProperties. -/
def checkProps (root : Schema) (opts : Option (List (String × Schema))) :
    List (String × Schema) → Option SchemaErr
  | [] => none
  | (k, p) :: rest =>
    seqE (validateWithRoot false root p) (fun _ =>
    seqE (match opts with
          | some l => if hasKey l k then some .sharedProperty else none
          | none => none) (fun _ =>
    checkProps root opts rest))
termination_by l => sizeOf l
decreasing_by
  all_goals simp_wf
  all_goals
    first
      | exact sizeOf_lt_of_definitions (by assumption)
      | exact sizeOf_lt_of_elements (by assumption)
      | exact sizeOf_lt_of_properties (by assumption)
      | exact sizeOf_lt_of_optionalProperties (by assumption)
      | exact sizeOf_lt_of_values (by assumption)
      | exact sizeOf_lt_of_mapping (by assumption)
      | omega
      | (simp; omega)


/-- The mapping loop of ValidateWithRoot: recurse into each branch, then
the three discriminator constraints, in source order. -/
def checkMapping (root : Schema) (disc : String) :
    List (String × Schema) → Option SchemaErr
  | [] => none
  | (_, m) :: rest =>
    seqE (validateWithRoot false root m) (fun _ =>
    seqE (if m.form ≠ Form.properties then some .nonPropertiesMapping else none) (fun _ =>
    seqE (if hasKey (m.properties.getD []) disc then some .mappingRepeatedDiscriminator
          else none) (fun _ =>
    seqE (if hasKey (m.optionalProperties.getD []) disc then some .mappingRepeatedDiscriminator
          else none) (fun _ =>
    seqE (if m.nullable then some .nullableMapping else none) (fun _ =>
    checkMapping root disc rest)))))
termination_by l => sizeOf l
decreasing_by
  all_goals simp_wf
  all_goals
    first
      | exact sizeOf_lt_of_definitions (by assumption)
      | exact sizeOf_lt_of_elements (by assumption)
      | exact sizeOf_lt_of_properties (by assumption)
      | exact sizeOf_lt_of_optionalProperties (by assumption)
      | exact sizeOf_lt_of_values (by assumption)
      | exact sizeOf_lt_of_mapping (by assumption)
      | omega
      | (simp; omega)


end

/-- Schema.Validate of schema.go: the checker run on a root schema. -/
def Schema.check (s : Schema) : Option SchemaErr :=
  validateWithRoot true s s

/-- ValidateError of validate.go: one standard error indicator. -/
structure ValidateError where
  instancePath : List String
  schemaPath : List String
deriving DecidableEq

/-- The two error values `validate` can return: the public
ErrMaxDepthExceeded and the internal errMaxErrorsReached sentinel. -/
inductive VErr where
  | maxDepthExceeded
  | maxErrorsReached
deriving DecidableEq

/-- ValidateSettings of validate.go (Go int fields). -/
structure ValidateSettings where
  maxDepth : Int
  maxErrors : Int
deriving DecidableEq

/-- validateState of validate.go.  Both token stacks are stored top-first
(the reverse of the Go slices, which append at the end). -/
structure VState where
  errors : List ValidateError
  instanceTokens : List String
  schemaTokens : List (List String)
  root : Schema
  settings : ValidateSettings

/-- The value of `validate`: the state as left behind, plus the returned
Go error (`none` = nil). -/
abbrev VRes := VState × Option VErr

/-- Go's propagation pattern `if err := f(...); err != nil { return err }`,
lifted over fuel exhaustion. -/
def andThen (r : Option VRes) (k : VState → Option VRes) : Option VRes :=
  match r with
  | none => none
  | some (st, some e) => some (st, some e)
  | some (st, none) => k st

def pushInstanceToken (tk : String) (st : VState) : VState :=
  { st with instanceTokens := tk :: st.instanceTokens }

def popInstanceToken (st : VState) : VState :=
  { st with instanceTokens := st.instanceTokens.tail }

/-- Append a token to the top frame of a frame stack. -/
def pushTok (tk : String) : List (List String) → List (List String)
  | [] => []
  | f :: rest => (tk :: f) :: rest

/-- Drop the newest token of the top frame of a frame stack. -/
def popTok : List (List String) → List (List String)
  | [] => []
  | f :: rest => f.tail :: rest

/-- Appends a token to the top schema frame (vs.SchemaTokens[len-1]). -/
def pushSchemaToken (tk : String) (st : VState) : VState :=
  { st with schemaTokens := pushTok tk st.schemaTokens }

def popSchemaToken (st : VState) : VState :=
  { st with schemaTokens := popTok st.schemaTokens }

/-- Pushes a fresh schema frame (the append in the FormRef case; the frame
is given top-first). -/
def pushSchemaFrame (fr : List String) (st : VState) : VState :=
  { st with schemaTokens := fr :: st.schemaTokens }

def popSchemaFrame (st : VState) : VState :=
  { st with schemaTokens := st.schemaTokens.tail }

/-- The indicator snapshot taken by pushError: both stacks copied back in
Go order. -/
def snapErr (st : VState) : ValidateError :=
  { instancePath := st.instanceTokens.reverse
    schemaPath := (st.schemaTokens.headD []).reverse }

/-- pushError of validate.go: snapshot both paths, append the indicator,
and return the circuit-breaker sentinel when the error count has just
reached MaxErrors. -/
def pushError (st : VState) : VRes :=
  let st1 : VState := { st with errors := st.errors ++ [snapErr st] }
  if (st1.errors.length : Int) = st1.settings.maxErrors then
    (st1, some .maxErrorsReached)
  else
    (st1, none)

/-- `state.Root.Definitions[*schema.Ref]`: Go map lookup returning the zero
value on a nil map or a missing key. -/
def lookupDefinition (defs : Option (List (String × Schema))) (k : String) : Schema :=
  match defs with
  | none => Schema.zeroValue
  | some l => (lookupKey l k).getD Schema.zeroValue

/-- validateInt of validate.go.  `math.Modf` has zero fractional part
exactly when the rational is an integer (denominator 1), and then the
integer part equals the number itself; a nonzero fractional part already
fails the `f != 0.0` disjunct. -/
def validateInt (inst : JsonVal) (lo hi : Rat) (st : VState) : VRes :=
  match inst with
  | .num n => if n.den ≠ 1 ∨ n < lo ∨ n > hi then pushError st else (st, none)
  | _ => pushError st

/-- The inner `switch schema.Type` of the FormType case.  A Type value
outside the eleven named ones matches no case and checks nothing. -/
def typeSwitch (tsOk : String → Bool) (ty : String) (inst : JsonVal) (st : VState) : VRes :=
  match ty with
  | "boolean" =>
    match inst with
    | .bool _ => (st, none)
    | _ => pushError st
  | "float32" =>
    match inst with
    | .num _ => (st, none)
    | _ => pushError st
  | "float64" =>
    match inst with
    | .num _ => (st, none)
    | _ => pushError st
  | "int8" => validateInt inst (-128) 127 st
  | "uint8" => validateInt inst 0 255 st
  | "int16" => validateInt inst (-32768) 32767 st
  | "uint16" => validateInt inst 0 65535 st
  | "int32" => validateInt inst (-2147483648) 2147483647 st
  | "uint32" => validateInt inst 0 4294967295 st
  | "string" =>
    match inst with
    | .str _ => (st, none)
    | _ => pushError st
  | "timestamp" =>
    match inst with
    | .str s => if tsOk s then (st, none) else pushError st
    | _ => pushError st
  | _ => (st, none)

/-- The FormType case: push "type", run the switch, pop on success. -/
def validateTypeStep (tsOk : String → Bool) (ty : String) (inst : JsonVal)
    (st : VState) : Option VRes :=
  let st := pushSchemaToken "type" st
  andThen (some (typeSwitch tsOk ty inst st)) (fun st => some (popSchemaToken st, none))

/-- The membership loop of the FormEnum case. -/
def enumHit (vals : List String) (inst : JsonVal) (st : VState) : VRes :=
  match inst with
  | .str s => if vals.contains s then (st, none) else pushError st
  | _ => pushError st

/-- The FormEnum case: push "enum", test membership, pop on success. -/
def validateEnumStep (vals : List String) (inst : JsonVal) (st : VState) : Option VRes :=
  let st := pushSchemaToken "enum" st
  andThen (some (enumHit vals inst st)) (fun st => some (popSchemaToken st, none))

/-- The `for i, subInstance := range arr` loop of the FormElements case. -/
def elemsLoop (f : JsonVal → VState → Option VRes) :
    Nat → List JsonVal → VState → Option VRes
  | _, [], st => some (st, none)
  | i, x :: xs, st =>
    let st := pushInstanceToken (toString i) st
    andThen (f x st) (fun st => elemsLoop f (i + 1) xs (popInstanceToken st))

/-- The FormElements case. -/
def validateElementsStep (f : JsonVal → VState → Option VRes) (inst : JsonVal)
    (st : VState) : Option VRes :=
  let st := pushSchemaToken "elements" st
  andThen
    (match inst with
     | .arr xs => elemsLoop f 0 xs st
     | _ => some (pushError st))
    (fun st => some (popSchemaToken st, none))

/-- The two declared-property loops of the FormProperties case
(required = true for Properties, false for OptionalProperties). -/
def propsLoop (f : Schema → JsonVal → VState → Option VRes)
    (obj : List (String × JsonVal)) (required : Bool) :
    List (String × Schema) → VState → Option VRes
  | [], st => some (st, none)
  | (key, sub) :: rest, st =>
    let st := pushSchemaToken key st
    andThen
      (match lookupKey obj key with
       | some subInst =>
         let st := pushInstanceToken key st
         andThen (f sub subInst st) (fun st => some (popInstanceToken st, none))
       | none => if required then some (pushError st) else some (st, none))
      (fun st => propsLoop f obj required rest (popSchemaToken st))

/-- The extra-keys sweep (`for key := range obj`) of the FormProperties
case. -/
def extraLoop (props opts : Option (List (String × Schema)))
    (parentTag : Option String) :
    List (String × JsonVal) → VState → Option VRes
  | [], st => some (st, none)
  | (key, _) :: rest, st =>
    if parentTag = some key then extraLoop props opts parentTag rest st
    else
      let requiredOk := hasKey (props.getD []) key
      let optionalOk := hasKey (opts.getD []) key
      if !requiredOk && !optionalOk then
        let st := pushInstanceToken key st
        andThen (some (pushError st))
          (fun st => extraLoop props opts parentTag rest (popInstanceToken st))
      else extraLoop props opts parentTag rest st

/-- The FormProperties case. -/
def validatePropertiesStep (f : Schema → JsonVal → VState → Option VRes)
    (schema : Schema) (inst : JsonVal) (parentTag : Option String)
    (st : VState) : Option VRes :=
  match inst with
  | .obj kvs =>
    let st := pushSchemaToken "properties" st
    andThen (propsLoop f kvs true (schema.properties.getD []) st) (fun st =>
      let st := popSchemaToken st
      let st := pushSchemaToken "optionalProperties" st
      andThen (propsLoop f kvs false (schema.optionalProperties.getD []) st) (fun st =>
        let st := popSchemaToken st
        if !schema.additionalProperties then
          extraLoop schema.properties schema.optionalProperties parentTag kvs st
        else some (st, none)))
  | _ =>
    let st :=
      if schema.properties.isSome then pushSchemaToken "properties" st
      else pushSchemaToken "optionalProperties" st
    andThen (some (pushError st)) (fun st => some (popSchemaToken st, none))

/-- The `for key, subInstance := range obj` loop of the FormValues case. -/
def valuesLoop (f : JsonVal → VState → Option VRes) :
    List (String × JsonVal) → VState → Option VRes
  | [], st => some (st, none)
  | (key, x) :: rest, st =>
    let st := pushInstanceToken key st
    andThen (f x st) (fun st => valuesLoop f rest (popInstanceToken st))

/-- The FormValues case. -/
def validateValuesStep (f : JsonVal → VState → Option VRes) (inst : JsonVal)
    (st : VState) : Option VRes :=
  let st := pushSchemaToken "values" st
  andThen
    (match inst with
     | .obj kvs => valuesLoop f kvs st
     | _ => some (pushError st))
    (fun st => some (popSchemaToken st, none))

/-- The FormDiscriminator case.  `f` is the recursive call; it receives the
branch schema, the whole instance and the parent tag. -/
def validateDiscriminatorStep (f : Schema → JsonVal → Option String → VState → Option VRes)
    (schema : Schema) (inst : JsonVal) (st : VState) : Option VRes :=
  match inst with
  | .obj kvs =>
    match lookupKey kvs schema.discriminator with
    | some tag =>
      match tag with
      | .str tagStr =>
        match lookupKey (schema.mapping.getD []) tagStr with
        | some branch =>
          let st := pushSchemaToken "mapping" st
          let st := pushSchemaToken tagStr st
          andThen (f branch inst (some schema.discriminator) st)
            (fun st => some (popSchemaToken (popSchemaToken st), none))
        | none =>
          let st := pushSchemaToken "mapping" st
          let st := pushInstanceToken schema.discriminator st
          andThen (some (pushError st))
            (fun st => some (popSchemaToken (popInstanceToken st), none))
      | _ =>
        let st := pushSchemaToken "discriminator" st
        let st := pushInstanceToken schema.discriminator st
        andThen (some (pushError st))
          (fun st => some (popSchemaToken (popInstanceToken st), none))
    | none =>
      let st := pushSchemaToken "discriminator" st
      andThen (some (pushError st)) (fun st => some (popSchemaToken st, none))
  | _ =>
    let st := pushSchemaToken "discriminator" st
    andThen (some (pushError st)) (fun st => some (popSchemaToken st, none))

/-- The FormRef case: depth check against the frame count, push a fresh
frame, recurse into the referenced definition, pop the frame. -/
def validateRefStep (f : Schema → JsonVal → Option String → VState → Option VRes)
    (schema : Schema) (inst : JsonVal) (st : VState) : Option VRes :=
  if (st.schemaTokens.length : Int) = st.settings.maxDepth then
    some (st, some .maxDepthExceeded)
  else
    let refName := schema.ref.getD ""
    let st := pushSchemaFrame [refName, "definitions"] st
    andThen (f (lookupDefinition st.root.definitions refName) inst none st)
      (fun st => some (popSchemaFrame st, none))

/-- validate of validate.go, with fuel; `none` means the fuel ran out. -/
def validate (tsOk : String → Bool) :
    Nat → Schema → JsonVal → Option String → VState → Option VRes
  | 0, _, _, _, _ => none
  | n + 1, schema, inst, parentTag, st =>
    if schema.nullable && inst.isNull then some (st, none)
    else
      match schema.form with
      | .empty => some (st, none)
      | .ref =>
        validateRefStep (fun s i pt st => validate tsOk n s i pt st) schema inst st
      | .type => validateTypeStep tsOk schema.type inst st
      | .enum => validateEnumStep (schema.enum.getD []) inst st
      | .elements =>
        validateElementsStep
          (fun i st => validate tsOk n (schema.elements.getD Schema.zeroValue) i none st)
          inst st
      | .properties =>
        validatePropertiesStep (fun s i st => validate tsOk n s i none st)
          schema inst parentTag st
      | .values =>
        validateValuesStep
          (fun i st => validate tsOk n (schema.values.getD Schema.zeroValue) i none st)
          inst st
      | .discriminator =>
        validateDiscriminatorStep (fun s i pt st => validate tsOk n s i pt st)
          schema inst st

/-- The initial validateState built by ValidateWithSettings. -/
def initState (settings : ValidateSettings) (schema : Schema) : VState :=
  { errors := []
    instanceTokens := []
    schemaTokens := [[]]
    root := schema
    settings := settings }

/-- ValidateWithSettings of validate.go.  The outer `Option` is fuel
exhaustion; the result pairs the returned slice (`none` = Go nil slice)
with the returned error. -/
def ValidateWithSettings (tsOk : String → Bool) (fuel : Nat)
    (settings : ValidateSettings) (schema : Schema) (inst : JsonVal) :
    Option (Option (List ValidateError) × Option VErr) :=
  match validate tsOk fuel schema inst none (initState settings schema) with
  | none => none
  | some (st, e) =>
    match e with
    | some er =>
      if er = .maxErrorsReached then some (some st.errors, none)
      else some (none, some er)
    | none => some (some st.errors, none)

/-- Validate of validate.go: fold the options over zeroed settings, then
delegate. -/
def Validate (tsOk : String → Bool) (fuel : Nat) (schema : Schema)
    (inst : JsonVal) (opts : List (ValidateSettings → ValidateSettings)) :
    Option (Option (List ValidateError) × Option VErr) :=
  let settings := opts.foldl (fun s o => o s) { maxDepth := 0, maxErrors := 0 }
  ValidateWithSettings tsOk fuel settings schema inst

/-- WithMaxDepth of validate.go. -/
def WithMaxDepth (n : Int) : ValidateSettings → ValidateSettings :=
  fun s => { s with maxDepth := n }

/-- WithMaxErrors of validate.go. -/
def WithMaxErrors (n : Int) : ValidateSettings → ValidateSettings :=
  fun s => { s with maxErrors := n }

/-! ### Basic facts about the state operations -/

@[simp] lemma pushInstanceToken_errors (tk : String) (st : VState) :
    (pushInstanceToken tk st).errors = st.errors := rfl

@[simp] lemma pushInstanceToken_root (tk : String) (st : VState) :
    (pushInstanceToken tk st).root = st.root := rfl

@[simp] lemma pushInstanceToken_settings (tk : String) (st : VState) :
    (pushInstanceToken tk st).settings = st.settings := rfl

@[simp] lemma pushInstanceToken_schemaTokens (tk : String) (st : VState) :
    (pushInstanceToken tk st).schemaTokens = st.schemaTokens := rfl

@[simp] lemma pushInstanceToken_instanceTokens (tk : String) (st : VState) :
    (pushInstanceToken tk st).instanceTokens = tk :: st.instanceTokens := rfl

@[simp] lemma popInstanceToken_errors (st : VState) :
    (popInstanceToken st).errors = st.errors := rfl

@[simp] lemma popInstanceToken_root (st : VState) :
    (popInstanceToken st).root = st.root := rfl

@[simp] lemma popInstanceToken_settings (st : VState) :
    (popInstanceToken st).settings = st.settings := rfl

@[simp] lemma popInstanceToken_schemaTokens (st : VState) :
    (popInstanceToken st).schemaTokens = st.schemaTokens := rfl

@[simp] lemma popInstanceToken_instanceTokens (st : VState) :
    (popInstanceToken st).instanceTokens = st.instanceTokens.tail := rfl

@[simp] lemma pop_push_instanceToken (tk : String) (st : VState) :
    popInstanceToken (pushInstanceToken tk st) = st := rfl

@[simp] lemma pushTok_length (tk : String) (l : List (List String)) :
    (pushTok tk l).length = l.length := by
  cases l <;> simp [pushTok]

@[simp] lemma popTok_length (l : List (List String)) :
    (popTok l).length = l.length := by
  cases l <;> simp [popTok]

@[simp] lemma popTok_pushTok (tk : String) (l : List (List String)) :
    popTok (pushTok tk l) = l := by
  cases l <;> simp [pushTok, popTok]

@[simp] lemma pushSchemaToken_errors (tk : String) (st : VState) :
    (pushSchemaToken tk st).errors = st.errors := rfl

@[simp] lemma pushSchemaToken_root (tk : String) (st : VState) :
    (pushSchemaToken tk st).root = st.root := rfl

@[simp] lemma pushSchemaToken_settings (tk : String) (st : VState) :
    (pushSchemaToken tk st).settings = st.settings := rfl

@[simp] lemma pushSchemaToken_instanceTokens (tk : String) (st : VState) :
    (pushSchemaToken tk st).instanceTokens = st.instanceTokens := rfl

@[simp] lemma pushSchemaToken_schemaTokens (tk : String) (st : VState) :
    (pushSchemaToken tk st).schemaTokens = pushTok tk st.schemaTokens := rfl

@[simp] lemma popSchemaToken_errors (st : VState) :
    (popSchemaToken st).errors = st.errors := rfl

@[simp] lemma popSchemaToken_root (st : VState) :
    (popSchemaToken st).root = st.root := rfl

@[simp] lemma popSchemaToken_settings (st : VState) :
    (popSchemaToken st).settings = st.settings := rfl

@[simp] lemma popSchemaToken_instanceTokens (st : VState) :
    (popSchemaToken st).instanceTokens = st.instanceTokens := rfl

@[simp] lemma popSchemaToken_schemaTokens (st : VState) :
    (popSchemaToken st).schemaTokens = popTok st.schemaTokens := rfl

@[simp] lemma pop_push_schemaToken (tk : String) (st : VState) :
    popSchemaToken (pushSchemaToken tk st) = st := by
  unfold pushSchemaToken popSchemaToken
  simp

@[simp] lemma pushSchemaFrame_errors (fr : List String) (st : VState) :
    (pushSchemaFrame fr st).errors = st.errors := rfl

@[simp] lemma pushSchemaFrame_root (fr : List String) (st : VState) :
    (pushSchemaFrame fr st).root = st.root := rfl

@[simp] lemma pushSchemaFrame_settings (fr : List String) (st : VState) :
    (pushSchemaFrame fr st).settings = st.settings := rfl

@[simp] lemma pushSchemaFrame_instanceTokens (fr : List String) (st : VState) :
    (pushSchemaFrame fr st).instanceTokens = st.instanceTokens := rfl

@[simp] lemma pushSchemaFrame_schemaTokens (fr : List String) (st : VState) :
    (pushSchemaFrame fr st).schemaTokens = fr :: st.schemaTokens := rfl

@[simp] lemma popSchemaFrame_errors (st : VState) :
    (popSchemaFrame st).errors = st.errors := rfl

@[simp] lemma popSchemaFrame_root (st : VState) :
    (popSchemaFrame st).root = st.root := rfl

@[simp] lemma popSchemaFrame_settings (st : VState) :
    (popSchemaFrame st).settings = st.settings := rfl

@[simp] lemma popSchemaFrame_instanceTokens (st : VState) :
    (popSchemaFrame st).instanceTokens = st.instanceTokens := rfl

@[simp] lemma pop_push_schemaFrame (fr : List String) (st : VState) :
    popSchemaFrame (pushSchemaFrame fr st) = st := rfl

lemma pushError_fst (st : VState) :
    (pushError st).1 = { st with errors := st.errors ++ [snapErr st] } := by
  simp only [pushError]
  split <;> rfl

@[simp] lemma pushError_fst_errors (st : VState) :
    (pushError st).1.errors = st.errors ++ [snapErr st] := by
  rw [pushError_fst]

@[simp] lemma pushError_fst_root (st : VState) :
    (pushError st).1.root = st.root := by rw [pushError_fst]

@[simp] lemma pushError_fst_settings (st : VState) :
    (pushError st).1.settings = st.settings := by rw [pushError_fst]

@[simp] lemma pushError_fst_instanceTokens (st : VState) :
    (pushError st).1.instanceTokens = st.instanceTokens := by rw [pushError_fst]

@[simp] lemma pushError_fst_schemaTokens (st : VState) :
    (pushError st).1.schemaTokens = st.schemaTokens := by rw [pushError_fst]

lemma pushError_snd (st : VState) :
    (pushError st).2 = if (st.errors.length + 1 : Int) = st.settings.maxErrors
      then some .maxErrorsReached else none := by
  simp only [pushError, List.length_append, List.length_singleton, Nat.cast_add, Nat.cast_one]
  split <;> simp_all

/-! ### The preservation invariant

On any outcome, `validate` leaves root and settings alone, only appends to
the error list, and never drops below the entry frame count; on a nil
return both token stacks are exactly restored. -/

structure StOk (st st1 : VState) (e : Option VErr) : Prop where
  root_eq : st1.root = st.root
  settings_eq : st1.settings = st.settings
  errors_mono : ∃ tl, st1.errors = st.errors ++ tl
  frames_le : st.schemaTokens.length ≤ st1.schemaTokens.length
  on_success : e = none →
    st1.instanceTokens = st.instanceTokens ∧ st1.schemaTokens = st.schemaTokens

/-- A function on validator states that satisfies the invariant on every
input it completes on. -/
def Pres (g : VState → Option VRes) : Prop :=
  ∀ st st1 e, g st = some (st1, e) → StOk st st1 e

lemma stOk_rfl (st : VState) (e : Option VErr) : StOk st st e :=
  ⟨rfl, rfl, ⟨[], by simp⟩, le_refl _, fun _ => ⟨rfl, rfl⟩⟩

lemma StOk.trans {st st1 st2 : VState} {e : Option VErr}
    (h1 : StOk st st1 none) (h2 : StOk st1 st2 e) : StOk st st2 e := by
  obtain ⟨r1, s1, ⟨t1, e1⟩, f1, k1⟩ := h1
  obtain ⟨r2, s2, ⟨t2, e2⟩, f2, k2⟩ := h2
  refine ⟨r2.trans r1, s2.trans s1, ⟨t1 ++ t2, ?_⟩, f1.trans f2, ?_⟩
  · rw [e2, e1, List.append_assoc]
  · intro he
    obtain ⟨i2, j2⟩ := k2 he
    obtain ⟨i1, j1⟩ := k1 rfl
    exact ⟨i2.trans i1, j2.trans j1⟩

lemma pushError_stOk (st : VState) : StOk st (pushError st).1 (pushError st).2 :=
  ⟨by simp, by simp, ⟨[snapErr st], by simp⟩, by simp, fun _ => by simp⟩

/-- Case analysis of the propagation combinator. -/
lemma andThen_some {r : Option VRes} {k : VState → Option VRes} {st1 : VState}
    {e : Option VErr} (h : andThen r k = some (st1, e)) :
    (∃ e2, r = some (st1, some e2) ∧ e = some e2) ∨
    (∃ stm, r = some (stm, none) ∧ k stm = some (st1, e)) := by
  cases r with
  | none => simp [andThen] at h
  | some p =>
    obtain ⟨stm, e2⟩ := p
    cases e2 with
    | none => exact Or.inr ⟨stm, Eq.refl _, h⟩
    | some e3 =>
      simp only [andThen, Option.some.injEq, Prod.mk.injEq] at h
      exact Or.inl ⟨e3, by rw [h.1], h.2.symm⟩

/-- Adapt the invariant across the instance-token bracket
push / run / pop. -/
lemma stOk_instBracket {tk : String} {st st2 : VState} {e : Option VErr}
    (h : StOk (pushInstanceToken tk st) st2 e) :
    StOk st (if e = none then popInstanceToken st2 else st2) e := by
  obtain ⟨r, s, ⟨t, he⟩, fl, k⟩ := h
  cases e with
  | none =>
    obtain ⟨ki, ks⟩ := k (Eq.refl _)
    refine ⟨by simpa using r, by simpa using s, ⟨t, by simpa using he⟩,
      by simpa using fl, fun _ => ?_⟩
    constructor
    · simp [ki]
    · simpa using ks
  | some e3 =>
    exact ⟨by simpa using r, by simpa using s, ⟨t, by simpa using he⟩,
      by simpa using fl, fun hc => by cases hc⟩

/-- Adapt the invariant across the schema-token bracket push / run / pop. -/
lemma stOk_schemaBracket {tk : String} {st st2 : VState} {e : Option VErr}
    (h : StOk (pushSchemaToken tk st) st2 e) :
    StOk st (if e = none then popSchemaToken st2 else st2) e := by
  obtain ⟨r, s, ⟨t, he⟩, fl, k⟩ := h
  cases e with
  | none =>
    obtain ⟨ki, ks⟩ := k (Eq.refl _)
    refine ⟨by simpa using r, by simpa using s, ⟨t, by simpa using he⟩,
      by simpa using fl, fun _ => ?_⟩
    constructor
    · simpa using ki
    · simp [ks]
  | some e3 =>
    exact ⟨by simpa using r, by simpa using s, ⟨t, by simpa using he⟩,
      by simpa using fl, fun hc => by cases hc⟩

lemma pres_validateInt (inst : JsonVal) (lo hi : Rat) :
    ∀ st, StOk st (validateInt inst lo hi st).1 (validateInt inst lo hi st).2 := by
  intro st
  cases inst with
  | num q =>
    show StOk st (if q.den ≠ 1 ∨ q < lo ∨ q > hi then pushError st else (st, none)).1
      (if q.den ≠ 1 ∨ q < lo ∨ q > hi then pushError st else (st, none)).2
    split
    · exact pushError_stOk st
    · exact stOk_rfl st none
  | null => exact pushError_stOk st
  | bool b => exact pushError_stOk st
  | str s => exact pushError_stOk st
  | arr xs => exact pushError_stOk st
  | obj kvs => exact pushError_stOk st

lemma stOk_iteOk {c : Prop} [Decidable c] {st : VState} :
    StOk st (if c then (st, none) else pushError st).1
      (if c then (st, none) else pushError st).2 := by
  split
  · exact stOk_rfl st none
  · exact pushError_stOk st

lemma pres_typeSwitch (tsOk : String → Bool) (ty : String) (inst : JsonVal) :
    ∀ st, StOk st (typeSwitch tsOk ty inst st).1 (typeSwitch tsOk ty inst st).2 := by
  intro st
  unfold typeSwitch
  split <;>
    first
      | exact pres_validateInt _ _ _ st
      | (cases inst <;>
          first
            | exact pushError_stOk st
            | exact stOk_rfl st none
            | exact stOk_iteOk)
      | exact stOk_rfl st none

lemma pres_validateTypeStep (tsOk : String → Bool) (ty : String) (inst : JsonVal) :
    Pres (validateTypeStep tsOk ty inst) := by
  intro st st1 e h
  unfold validateTypeStep at h
  rcases andThen_some h with ⟨e2, hr, hee⟩ | ⟨stm, hr, hk⟩
  · have hs := pres_typeSwitch tsOk ty inst (pushSchemaToken "type" st)
    rw [show typeSwitch tsOk ty inst (pushSchemaToken "type" st) =
        (st1, some e2) from Option.some.inj hr] at hs
    have h2 := stOk_schemaBracket hs
    rw [hee]
    simpa using h2
  · have hs := pres_typeSwitch tsOk ty inst (pushSchemaToken "type" st)
    rw [show typeSwitch tsOk ty inst (pushSchemaToken "type" st) =
        (stm, none) from Option.some.inj hr] at hs
    have h2 := stOk_schemaBracket hs
    simp only [if_pos] at h2
    obtain ⟨h3, h4⟩ := Prod.mk.injEq _ _ _ _ ▸ Option.some.inj hk
    rw [← h3, ← h4]
    simpa using h2

lemma pres_enumHit (vals : List String) (inst : JsonVal) :
    ∀ st, StOk st (enumHit vals inst st).1 (enumHit vals inst st).2 := by
  intro st
  cases inst with
  | str s =>
    show StOk st (if vals.contains s then (st, none) else pushError st).1
      (if vals.contains s then (st, none) else pushError st).2
    split
    · exact stOk_rfl st none
    · exact pushError_stOk st
  | null => exact pushError_stOk st
  | bool b => exact pushError_stOk st
  | num q => exact pushError_stOk st
  | arr xs => exact pushError_stOk st
  | obj kvs => exact pushError_stOk st

lemma pres_validateEnumStep (vals : List String) (inst : JsonVal) :
    Pres (validateEnumStep vals inst) := by
  intro st st1 e h
  unfold validateEnumStep at h
  rcases andThen_some h with ⟨e2, hr, hee⟩ | ⟨stm, hr, hk⟩
  · have hs := pres_enumHit vals inst (pushSchemaToken "enum" st)
    rw [show enumHit vals inst (pushSchemaToken "enum" st) =
        (st1, some e2) from Option.some.inj hr] at hs
    have h2 := stOk_schemaBracket hs
    rw [hee]
    simpa using h2
  · have hs := pres_enumHit vals inst (pushSchemaToken "enum" st)
    rw [show enumHit vals inst (pushSchemaToken "enum" st) =
        (stm, none) from Option.some.inj hr] at hs
    have h2 := stOk_schemaBracket hs
    simp only [if_pos] at h2
    obtain ⟨h3, h4⟩ := Prod.mk.injEq _ _ _ _ ▸ Option.some.inj hk
    rw [← h3, ← h4]
    simpa using h2

lemma pres_elemsLoop {f : JsonVal → VState → Option VRes}
    (hf : ∀ x, Pres (f x)) :
    ∀ (xs : List JsonVal) (i : Nat), Pres (fun st => elemsLoop f i xs st) := by
  intro xs
  induction xs with
  | nil =>
    intro i st st1 e h
    simp only [elemsLoop, Option.some.injEq, Prod.mk.injEq] at h
    rw [← h.1, ← h.2]
    exact stOk_rfl st none
  | cons x rest ih =>
    intro i st st1 e h
    simp only [elemsLoop] at h
    rcases andThen_some h with ⟨e2, hr, hee⟩ | ⟨stm, hr, hk⟩
    · have h2 := stOk_instBracket (hf x _ st1 (some e2) hr)
      rw [hee]
      simpa using h2
    · have h2 := stOk_instBracket (hf x _ stm none hr)
      simp only [if_pos] at h2
      exact StOk.trans h2 (ih (i + 1) (popInstanceToken stm) st1 e hk)

/-- Adapt the invariant on an error outcome to a state below the pushed
wrappers. -/
lemma StOk.adaptError {stP st stE : VState} {e2 : VErr}
    (hroot : stP.root = st.root) (hset : stP.settings = st.settings)
    (herr : stP.errors = st.errors)
    (hfr : st.schemaTokens.length ≤ stP.schemaTokens.length)
    (h : StOk stP stE (some e2)) : StOk st stE (some e2) := by
  obtain ⟨r, s, ⟨t, he⟩, fl, _⟩ := h
  exact ⟨r.trans hroot, s.trans hset, ⟨t, by rw [he, herr]⟩, hfr.trans fl,
    fun hc => by cases hc⟩

/-- The pushError bracket with a single schema token. -/
lemma pres_errSchemaBracket (tk : String) :
    Pres (fun st => andThen (some (pushError (pushSchemaToken tk st)))
      (fun st2 => some (popSchemaToken st2, none))) := by
  intro st st1 e h
  rcases andThen_some h with ⟨e2, hr, hee⟩ | ⟨stm, hr, hk⟩
  · have hp := pushError_stOk (pushSchemaToken tk st)
    rw [Option.some.inj hr] at hp
    rw [hee]
    exact StOk.adaptError (by simp) (by simp) (by simp) (by simp) hp
  · have hp := pushError_stOk (pushSchemaToken tk st)
    rw [Option.some.inj hr] at hp
    have hp2 : StOk (pushSchemaToken tk st) stm none := hp
    obtain ⟨h5, h6⟩ := Prod.mk.injEq _ _ _ _ ▸ Option.some.inj hk
    rw [← h5, ← h6]
    obtain ⟨r, s, ⟨t, he⟩, fl, k⟩ := hp2
    obtain ⟨ki, ks⟩ := k (Eq.refl _)
    refine ⟨by simpa using r, by simpa using s, ⟨t, by simpa using he⟩,
      by simpa using fl, fun _ => ?_⟩
    constructor
    · simpa using ki
    · simp [ks]

/-- The pushError bracket with a schema token and an instance token. -/
lemma pres_errInstSchemaBracket (tk itk : String) :
    Pres (fun st => andThen (some (pushError (pushInstanceToken itk (pushSchemaToken tk st))))
      (fun st2 => some (popSchemaToken (popInstanceToken st2), none))) := by
  intro st st1 e h
  rcases andThen_some h with ⟨e2, hr, hee⟩ | ⟨stm, hr, hk⟩
  · have hp := pushError_stOk (pushInstanceToken itk (pushSchemaToken tk st))
    rw [Option.some.inj hr] at hp
    rw [hee]
    exact StOk.adaptError (by simp) (by simp) (by simp) (by simp) hp
  · have hp := pushError_stOk (pushInstanceToken itk (pushSchemaToken tk st))
    rw [Option.some.inj hr] at hp
    have hp2 : StOk (pushInstanceToken itk (pushSchemaToken tk st)) stm none := hp
    obtain ⟨h5, h6⟩ := Prod.mk.injEq _ _ _ _ ▸ Option.some.inj hk
    rw [← h5, ← h6]
    obtain ⟨r, s, ⟨t, he⟩, fl, k⟩ := hp2
    obtain ⟨ki, ks⟩ := k (Eq.refl _)
    refine ⟨by simpa using r, by simpa using s, ⟨t, by simpa using he⟩,
      by simpa using fl, fun _ => ?_⟩
    constructor
    · simp [ki]
    · simp [ks]

/-- One declared-property iteration body. -/
lemma pres_propStep {f : Schema → JsonVal → VState → Option VRes}
    (hf : ∀ s x, Pres (f s x)) (obj : List (String × JsonVal)) (key : String)
    (sub : Schema) (required : Bool) :
    Pres (fun st =>
      match lookupKey obj key with
      | some subInst =>
        andThen (f sub subInst (pushInstanceToken key st))
          (fun st2 => some (popInstanceToken st2, none))
      | none => if required then some (pushError st) else some (st, none)) := by
  intro st st1 e h
  cases hin : lookupKey obj key with
  | some subInst =>
    rw [hin] at h
    rcases andThen_some h with ⟨e2, hr, hee⟩ | ⟨stm, hr, hk⟩
    · have h2 := stOk_instBracket (hf sub subInst _ st1 (some e2) hr)
      rw [hee]
      simpa using h2
    · have h2 := stOk_instBracket (hf sub subInst _ stm none hr)
      simp only [if_pos] at h2
      obtain ⟨h3, h4⟩ := Prod.mk.injEq _ _ _ _ ▸ Option.some.inj hk
      rw [← h3, ← h4]
      exact h2
  | none =>
    rw [hin] at h
    cases required with
    | true =>
      have h2 : some (pushError st) = some (st1, e) := h
      have hp := pushError_stOk st
      rw [Option.some.inj h2] at hp
      exact hp
    | false =>
      have h2 : some (st, none) = some (st1, e) := h
      obtain ⟨h3, h4⟩ := Prod.mk.injEq _ _ _ _ ▸ Option.some.inj h2
      rw [← h3, ← h4]
      exact stOk_rfl st none

lemma pres_propsLoop {f : Schema → JsonVal → VState → Option VRes}
    (hf : ∀ s x, Pres (f s x)) (obj : List (String × JsonVal)) (required : Bool) :
    ∀ l, Pres (fun st => propsLoop f obj required l st) := by
  intro l
  induction l with
  | nil =>
    intro st st1 e h
    simp only [propsLoop, Option.some.injEq, Prod.mk.injEq] at h
    rw [← h.1, ← h.2]
    exact stOk_rfl st none
  | cons kv rest ih =>
    obtain ⟨key, sub⟩ := kv
    intro st st1 e h
    simp only [propsLoop] at h
    rcases andThen_some h with ⟨e2, hr, hee⟩ | ⟨stm, hr, hk⟩
    · have h2 := stOk_schemaBracket (pres_propStep hf obj key sub required _ st1 (some e2) hr)
      rw [hee]
      simpa using h2
    · have h2 := stOk_schemaBracket (pres_propStep hf obj key sub required _ stm none hr)
      simp only [if_pos] at h2
      exact StOk.trans h2 (ih (popSchemaToken stm) st1 e hk)

lemma pres_extraLoop (props opts : Option (List (String × Schema)))
    (parentTag : Option String) :
    ∀ l, Pres (fun st => extraLoop props opts parentTag l st) := by
  intro l
  induction l with
  | nil =>
    intro st st1 e h
    simp only [extraLoop, Option.some.injEq, Prod.mk.injEq] at h
    rw [← h.1, ← h.2]
    exact stOk_rfl st none
  | cons kv rest ih =>
    obtain ⟨key, v⟩ := kv
    intro st st1 e h
    simp only [extraLoop] at h
    by_cases hpt : parentTag = some key
    · rw [if_pos hpt] at h
      exact ih st st1 e h
    · rw [if_neg hpt] at h
      by_cases hko : (!hasKey (props.getD []) key && !hasKey (opts.getD []) key) = true
      · rw [if_pos hko] at h
        rcases andThen_some h with ⟨e2, hr, hee⟩ | ⟨stm, hr, hk⟩
        · have hp := pushError_stOk (pushInstanceToken key st)
          rw [Option.some.inj hr] at hp
          rw [hee]
          exact StOk.adaptError (by simp) (by simp) (by simp) (by simp) hp
        · have hp := pushError_stOk (pushInstanceToken key st)
          rw [Option.some.inj hr] at hp
          have hp2 : StOk (pushInstanceToken key st) stm none := hp
          have h2 : StOk st (popInstanceToken stm) none := by
            simpa using stOk_instBracket hp2
          exact StOk.trans h2 (ih (popInstanceToken stm) st1 e hk)
      · rw [if_neg hko] at h
        exact ih st st1 e h

lemma pres_valuesLoop {f : JsonVal → VState → Option VRes}
    (hf : ∀ x, Pres (f x)) :
    ∀ l, Pres (fun st => valuesLoop f l st) := by
  intro l
  induction l with
  | nil =>
    intro st st1 e h
    simp only [valuesLoop, Option.some.injEq, Prod.mk.injEq] at h
    rw [← h.1, ← h.2]
    exact stOk_rfl st none
  | cons kv rest ih =>
    obtain ⟨key, x⟩ := kv
    intro st st1 e h
    simp only [valuesLoop] at h
    rcases andThen_some h with ⟨e2, hr, hee⟩ | ⟨stm, hr, hk⟩
    · have h2 := stOk_instBracket (hf x _ st1 (some e2) hr)
      rw [hee]
      simpa using h2
    · have h2 := stOk_instBracket (hf x _ stm none hr)
      simp only [if_pos] at h2
      exact StOk.trans h2 (ih (popInstanceToken stm) st1 e hk)

lemma pres_validateValuesStep {f : JsonVal → VState → Option VRes}
    (hf : ∀ x, Pres (f x)) (inst : JsonVal) :
    Pres (validateValuesStep f inst) := by
  intro st st1 e h
  unfold validateValuesStep at h
  cases inst with
  | obj kvs =>
    rcases andThen_some h with ⟨e2, hr, hee⟩ | ⟨stm, hr, hk⟩
    · have h2 := stOk_schemaBracket
        (pres_valuesLoop hf kvs (pushSchemaToken "values" st) st1 (some e2) hr)
      rw [hee]
      simpa using h2
    · have h2 := stOk_schemaBracket
        (pres_valuesLoop hf kvs (pushSchemaToken "values" st) stm none hr)
      simp only [if_pos] at h2
      obtain ⟨h3, h4⟩ := Prod.mk.injEq _ _ _ _ ▸ Option.some.inj hk
      rw [← h3, ← h4]
      simpa using h2
  | null => exact pres_errSchemaBracket _ st st1 e h
  | bool b => exact pres_errSchemaBracket _ st st1 e h
  | num q => exact pres_errSchemaBracket _ st st1 e h
  | str s => exact pres_errSchemaBracket _ st st1 e h
  | arr xs => exact pres_errSchemaBracket _ st st1 e h

lemma pres_validateElementsStep2 {f : JsonVal → VState → Option VRes}
    (hf : ∀ x, Pres (f x)) (inst : JsonVal) :
    Pres (validateElementsStep f inst) := by
  intro st st1 e h
  unfold validateElementsStep at h
  cases inst with
  | arr xs =>
    rcases andThen_some h with ⟨e2, hr, hee⟩ | ⟨stm, hr, hk⟩
    · have h2 := stOk_schemaBracket
        (pres_elemsLoop hf xs 0 (pushSchemaToken "elements" st) st1 (some e2) hr)
      rw [hee]
      simpa using h2
    · have h2 := stOk_schemaBracket
        (pres_elemsLoop hf xs 0 (pushSchemaToken "elements" st) stm none hr)
      simp only [if_pos] at h2
      obtain ⟨h3, h4⟩ := Prod.mk.injEq _ _ _ _ ▸ Option.some.inj hk
      rw [← h3, ← h4]
      simpa using h2
  | null => exact pres_errSchemaBracket _ st st1 e h
  | bool b => exact pres_errSchemaBracket _ st st1 e h
  | num q => exact pres_errSchemaBracket _ st st1 e h
  | str s => exact pres_errSchemaBracket _ st st1 e h
  | obj kvs => exact pres_errSchemaBracket _ st st1 e h

lemma pres_validatePropertiesStep {f : Schema → JsonVal → VState → Option VRes}
    (hf : ∀ s x, Pres (f s x)) (schema : Schema) (inst : JsonVal)
    (parentTag : Option String) :
    Pres (validatePropertiesStep f schema inst parentTag) := by
  intro st st1 e h
  unfold validatePropertiesStep at h
  cases inst with
  | obj kvs =>
    rcases andThen_some h with ⟨e2, hr, hee⟩ | ⟨stm, hr, hk⟩
    · have h2 := stOk_schemaBracket
        (pres_propsLoop hf kvs true (schema.properties.getD [])
          (pushSchemaToken "properties" st) st1 (some e2) hr)
      rw [hee]
      simpa using h2
    · have hA := stOk_schemaBracket
        (pres_propsLoop hf kvs true (schema.properties.getD [])
          (pushSchemaToken "properties" st) stm none hr)
      simp only [if_pos] at hA
      rcases andThen_some hk with ⟨e2, hr2, hee2⟩ | ⟨stn, hr2, hk2⟩
      · have h2 := stOk_schemaBracket
          (pres_propsLoop hf kvs false (schema.optionalProperties.getD [])
            (pushSchemaToken "optionalProperties" (popSchemaToken stm)) st1 (some e2) hr2)
        rw [hee2]
        exact StOk.trans hA (by simpa using h2)
      · have hB := stOk_schemaBracket
          (pres_propsLoop hf kvs false (schema.optionalProperties.getD [])
            (pushSchemaToken "optionalProperties" (popSchemaToken stm)) stn none hr2)
        simp only [if_pos] at hB
        by_cases haddl : (!schema.additionalProperties) = true
        · rw [if_pos haddl] at hk2
          have hC := pres_extraLoop schema.properties schema.optionalProperties
            parentTag kvs (popSchemaToken stn) st1 e hk2
          exact StOk.trans hA (StOk.trans hB hC)
        · rw [if_neg haddl] at hk2
          obtain ⟨h3, h4⟩ := Prod.mk.injEq _ _ _ _ ▸ Option.some.inj hk2
          rw [← h3, ← h4]
          exact StOk.trans hA hB
  | null =>
    by_cases hp : schema.properties.isSome
    · rw [if_pos hp] at h
      exact pres_errSchemaBracket _ st st1 e h
    · rw [if_neg hp] at h
      exact pres_errSchemaBracket _ st st1 e h
  | bool b =>
    by_cases hp : schema.properties.isSome
    · rw [if_pos hp] at h
      exact pres_errSchemaBracket _ st st1 e h
    · rw [if_neg hp] at h
      exact pres_errSchemaBracket _ st st1 e h
  | num q =>
    by_cases hp : schema.properties.isSome
    · rw [if_pos hp] at h
      exact pres_errSchemaBracket _ st st1 e h
    · rw [if_neg hp] at h
      exact pres_errSchemaBracket _ st st1 e h
  | str s =>
    by_cases hp : schema.properties.isSome
    · rw [if_pos hp] at h
      exact pres_errSchemaBracket _ st st1 e h
    · rw [if_neg hp] at h
      exact pres_errSchemaBracket _ st st1 e h
  | arr xs =>
    by_cases hp : schema.properties.isSome
    · rw [if_pos hp] at h
      exact pres_errSchemaBracket _ st st1 e h
    · rw [if_neg hp] at h
      exact pres_errSchemaBracket _ st st1 e h

lemma pres_validateDiscriminatorStep {f : Schema → JsonVal → Option String → VState → Option VRes}
    (hf : ∀ s i pt, Pres (f s i pt)) (schema : Schema) (inst : JsonVal) :
    Pres (validateDiscriminatorStep f schema inst) := by
  intro st st1 e h
  cases inst with
  | obj kvs =>
    cases htag : lookupKey kvs schema.discriminator with
    | some tag =>
      cases tag with
      | str tagStr =>
        cases hbr : lookupKey (schema.mapping.getD []) tagStr with
        | some branch =>
          simp only [validateDiscriminatorStep, htag, hbr] at h
          rcases andThen_some h with ⟨e2, hr, hee⟩ | ⟨stm, hr, hk⟩
          · have h2 := hf branch (JsonVal.obj kvs) (some schema.discriminator) _ st1 (some e2) hr
            rw [hee]
            exact StOk.adaptError (by simp) (by simp) (by simp) (by simp) h2
          · have h2 := hf branch (JsonVal.obj kvs) (some schema.discriminator) _ stm none hr
            obtain ⟨h3, h4⟩ := Prod.mk.injEq _ _ _ _ ▸ Option.some.inj hk
            rw [← h3, ← h4]
            obtain ⟨r, s, ⟨t, he⟩, fl, k⟩ := h2
            obtain ⟨ki, ks⟩ := k (Eq.refl _)
            refine ⟨by simpa using r, by simpa using s, ⟨t, by simpa using he⟩,
              by simpa using fl, fun _ => ?_⟩
            constructor
            · simpa using ki
            · simp [ks]
        | none =>
          simp only [validateDiscriminatorStep, htag, hbr] at h
          exact pres_errInstSchemaBracket _ _ st st1 e h
      | null =>
        simp only [validateDiscriminatorStep, htag] at h
        exact pres_errInstSchemaBracket _ _ st st1 e h
      | bool b =>
        simp only [validateDiscriminatorStep, htag] at h
        exact pres_errInstSchemaBracket _ _ st st1 e h
      | num q =>
        simp only [validateDiscriminatorStep, htag] at h
        exact pres_errInstSchemaBracket _ _ st st1 e h
      | arr xs =>
        simp only [validateDiscriminatorStep, htag] at h
        exact pres_errInstSchemaBracket _ _ st st1 e h
      | obj kvs2 =>
        simp only [validateDiscriminatorStep, htag] at h
        exact pres_errInstSchemaBracket _ _ st st1 e h
    | none =>
      simp only [validateDiscriminatorStep, htag] at h
      exact pres_errSchemaBracket _ st st1 e h
  | null => exact pres_errSchemaBracket _ st st1 e h
  | bool b => exact pres_errSchemaBracket _ st st1 e h
  | num q => exact pres_errSchemaBracket _ st st1 e h
  | str s => exact pres_errSchemaBracket _ st st1 e h
  | arr xs => exact pres_errSchemaBracket _ st st1 e h

lemma pres_validateRefStep {f : Schema → JsonVal → Option String → VState → Option VRes}
    (hf : ∀ s i pt, Pres (f s i pt)) (schema : Schema) (inst : JsonVal) :
    Pres (validateRefStep f schema inst) := by
  intro st st1 e h
  unfold validateRefStep at h
  by_cases hd : (st.schemaTokens.length : Int) = st.settings.maxDepth
  · rw [if_pos hd] at h
    simp only [Option.some.injEq, Prod.mk.injEq] at h
    rw [← h.1, ← h.2]
    exact stOk_rfl st _
  · rw [if_neg hd] at h
    rcases andThen_some h with ⟨e2, hr, hee⟩ | ⟨stm, hr, hk⟩
    · have h2 := hf _ inst none _ st1 (some e2) hr
      rw [hee]
      refine StOk.adaptError (by simp) (by simp) (by simp) ?_ h2
      simp
    · have h2 := hf _ inst none _ stm none hr
      obtain ⟨h3, h4⟩ := Prod.mk.injEq _ _ _ _ ▸ Option.some.inj hk
      rw [← h3, ← h4]
      obtain ⟨r, s, ⟨t, he⟩, fl, k⟩ := h2
      obtain ⟨ki, ks⟩ := k (Eq.refl _)
      refine ⟨by simpa using r, by simpa using s, ⟨t, by simpa using he⟩, ?_, fun _ => ?_⟩
      · simp [popSchemaFrame, ks]
      constructor
      · simpa using ki
      · simp [popSchemaFrame, ks]

/-- The master preservation lemma for validate. -/
lemma validate_pres (tsOk : String → Bool) :
    ∀ fuel s i pt, Pres (validate tsOk fuel s i pt) := by
  intro fuel
  induction fuel with
  | zero =>
    intro s i pt st st1 e h
    simp [validate] at h
  | succ n ih =>
    intro s i pt st st1 e h
    simp only [validate] at h
    by_cases hnull : (s.nullable && i.isNull) = true
    · rw [if_pos hnull] at h
      simp only [Option.some.injEq, Prod.mk.injEq] at h
      rw [← h.1, ← h.2]
      exact stOk_rfl st none
    · rw [if_neg hnull] at h
      cases hform : s.form with
      | empty =>
        simp only [hform, Option.some.injEq, Prod.mk.injEq] at h
        rw [← h.1, ← h.2]
        exact stOk_rfl st none
      | ref =>
        simp only [hform] at h
        exact pres_validateRefStep (fun a b c => ih a b c) s i st st1 e h
      | type =>
        simp only [hform] at h
        exact pres_validateTypeStep tsOk s.type i st st1 e h
      | enum =>
        simp only [hform] at h
        exact pres_validateEnumStep (s.enum.getD []) i st st1 e h
      | elements =>
        simp only [hform] at h
        exact pres_validateElementsStep2
          (fun x => ih (s.elements.getD Schema.zeroValue) x none) i st st1 e h
      | properties =>
        simp only [hform] at h
        exact pres_validatePropertiesStep (fun a b => ih a b none) s i pt st st1 e h
      | values =>
        simp only [hform] at h
        exact pres_validateValuesStep
          (fun x => ih (s.values.getD Schema.zeroValue) x none) i st st1 e h
      | discriminator =>
        simp only [hform] at h
        exact pres_validateDiscriminatorStep (fun a b c => ih a b c) s i st st1 e h

/-! ### With MaxDepth disabled (zero), the depth error is unreachable -/

/-- Functions that never return the depth error from a state with at least
one schema frame and MaxDepth zero. -/
def NoMde (g : VState → Option VRes) : Prop :=
  ∀ st st1 e, 0 < st.schemaTokens.length → st.settings.maxDepth = 0 →
    g st = some (st1, e) → e ≠ some VErr.maxDepthExceeded

lemma pushError_snd_ne_mde (st : VState) :
    (pushError st).2 ≠ some VErr.maxDepthExceeded := by
  rw [pushError_snd]
  split <;> simp

lemma validateInt_snd_ne_mde (i : JsonVal) (lo hi : Rat) (st : VState) :
    (validateInt i lo hi st).2 ≠ some VErr.maxDepthExceeded := by
  cases i with
  | num q =>
    show (if q.den ≠ 1 ∨ q < lo ∨ q > hi then pushError st else (st, none)).2 ≠
      some VErr.maxDepthExceeded
    split
    · exact pushError_snd_ne_mde st
    · simp
  | null => exact pushError_snd_ne_mde st
  | bool b => exact pushError_snd_ne_mde st
  | str s => exact pushError_snd_ne_mde st
  | arr xs => exact pushError_snd_ne_mde st
  | obj kvs => exact pushError_snd_ne_mde st

lemma ite_snd_ne_mde {c : Prop} [Decidable c] (st : VState) :
    (if c then (st, none) else pushError st).2 ≠ some VErr.maxDepthExceeded := by
  split
  · simp
  · exact pushError_snd_ne_mde st

lemma typeSwitch_snd_ne_mde (tsOk : String → Bool) (ty : String) (i : JsonVal)
    (st : VState) : (typeSwitch tsOk ty i st).2 ≠ some VErr.maxDepthExceeded := by
  unfold typeSwitch
  split <;>
    first
      | exact validateInt_snd_ne_mde _ _ _ st
      | (cases i <;>
          first
            | exact pushError_snd_ne_mde st
            | exact ite_snd_ne_mde st
            | simp)
      | simp

lemma enumHit_snd_ne_mde (vals : List String) (i : JsonVal) (st : VState) :
    (enumHit vals i st).2 ≠ some VErr.maxDepthExceeded := by
  cases i with
  | str s =>
    show (if vals.contains s then (st, none) else pushError st).2 ≠
      some VErr.maxDepthExceeded
    split
    · simp
    · exact pushError_snd_ne_mde st
  | null => exact pushError_snd_ne_mde st
  | bool b => exact pushError_snd_ne_mde st
  | num q => exact pushError_snd_ne_mde st
  | arr xs => exact pushError_snd_ne_mde st
  | obj kvs => exact pushError_snd_ne_mde st

lemma noMde_validateTypeStep (tsOk : String → Bool) (ty : String) (i : JsonVal) :
    NoMde (validateTypeStep tsOk ty i) := by
  intro st st1 e hl hm h
  unfold validateTypeStep at h
  rcases andThen_some h with ⟨e2, hr, hee⟩ | ⟨stm, hr, hk⟩
  · have hx := typeSwitch_snd_ne_mde tsOk ty i (pushSchemaToken "type" st)
    rw [Option.some.inj hr] at hx
    rw [hee]
    exact hx
  · obtain ⟨h3, h4⟩ := Prod.mk.injEq _ _ _ _ ▸ Option.some.inj hk
    rw [← h4]
    simp

lemma noMde_validateEnumStep (vals : List String) (i : JsonVal) :
    NoMde (validateEnumStep vals i) := by
  intro st st1 e hl hm h
  unfold validateEnumStep at h
  rcases andThen_some h with ⟨e2, hr, hee⟩ | ⟨stm, hr, hk⟩
  · have hx := enumHit_snd_ne_mde vals i (pushSchemaToken "enum" st)
    rw [Option.some.inj hr] at hx
    rw [hee]
    exact hx
  · obtain ⟨h3, h4⟩ := Prod.mk.injEq _ _ _ _ ▸ Option.some.inj hk
    rw [← h4]
    simp

lemma noMde_errSchemaBracket (tk : String) :
    NoMde (fun st => andThen (some (pushError (pushSchemaToken tk st)))
      (fun st2 => some (popSchemaToken st2, none))) := by
  intro st st1 e hl hm h
  rcases andThen_some h with ⟨e2, hr, hee⟩ | ⟨stm, hr, hk⟩
  · have hx := pushError_snd_ne_mde (pushSchemaToken tk st)
    rw [Option.some.inj hr] at hx
    rw [hee]
    exact hx
  · obtain ⟨h3, h4⟩ := Prod.mk.injEq _ _ _ _ ▸ Option.some.inj hk
    rw [← h4]
    simp

lemma noMde_errInstSchemaBracket (tk itk : String) :
    NoMde (fun st => andThen (some (pushError (pushInstanceToken itk (pushSchemaToken tk st))))
      (fun st2 => some (popSchemaToken (popInstanceToken st2), none))) := by
  intro st st1 e hl hm h
  rcases andThen_some h with ⟨e2, hr, hee⟩ | ⟨stm, hr, hk⟩
  · have hx := pushError_snd_ne_mde (pushInstanceToken itk (pushSchemaToken tk st))
    rw [Option.some.inj hr] at hx
    rw [hee]
    exact hx
  · obtain ⟨h3, h4⟩ := Prod.mk.injEq _ _ _ _ ▸ Option.some.inj hk
    rw [← h4]
    simp

lemma noMde_elemsLoop {f : JsonVal → VState → Option VRes}
    (hp : ∀ x, Pres (f x)) (hm : ∀ x, NoMde (f x)) :
    ∀ xs i, NoMde (fun st => elemsLoop f i xs st) := by
  intro xs
  induction xs with
  | nil =>
    intro i st st1 e hl hmd h
    simp only [elemsLoop, Option.some.injEq, Prod.mk.injEq] at h
    rw [← h.2]
    simp
  | cons x rest ih =>
    intro i st st1 e hl hmd h
    simp only [elemsLoop] at h
    rcases andThen_some h with ⟨e2, hr, hee⟩ | ⟨stm, hr, hk⟩
    · have hx := hm x _ st1 (some e2) (by simpa using hl) (by simpa using hmd) hr
      rw [hee]
      exact hx
    · have hps := hp x _ stm none hr
      have hts := hps.on_success (Eq.refl _)
      refine ih (i + 1) (popInstanceToken stm) st1 e ?_ ?_ hk
      · simp only [popInstanceToken_schemaTokens, hts.2]
        simpa using hl
      · rw [popInstanceToken_settings, hps.settings_eq]
        simpa using hmd

lemma noMde_valuesLoop {f : JsonVal → VState → Option VRes}
    (hp : ∀ x, Pres (f x)) (hm : ∀ x, NoMde (f x)) :
    ∀ l, NoMde (fun st => valuesLoop f l st) := by
  intro l
  induction l with
  | nil =>
    intro st st1 e hl hmd h
    simp only [valuesLoop, Option.some.injEq, Prod.mk.injEq] at h
    rw [← h.2]
    simp
  | cons kv rest ih =>
    obtain ⟨key, x⟩ := kv
    intro st st1 e hl hmd h
    simp only [valuesLoop] at h
    rcases andThen_some h with ⟨e2, hr, hee⟩ | ⟨stm, hr, hk⟩
    · have hx := hm x _ st1 (some e2) (by simpa using hl) (by simpa using hmd) hr
      rw [hee]
      exact hx
    · have hps := hp x _ stm none hr
      have hts := hps.on_success (Eq.refl _)
      refine ih (popInstanceToken stm) st1 e ?_ ?_ hk
      · simp only [popInstanceToken_schemaTokens, hts.2]
        simpa using hl
      · rw [popInstanceToken_settings, hps.settings_eq]
        simpa using hmd

lemma noMde_propStep {f : Schema → JsonVal → VState → Option VRes}
    (hp : ∀ s x, Pres (f s x)) (hm : ∀ s x, NoMde (f s x))
    (obj : List (String × JsonVal)) (key : String) (sub : Schema) (required : Bool) :
    NoMde (fun st =>
      match lookupKey obj key with
      | some subInst =>
        andThen (f sub subInst (pushInstanceToken key st))
          (fun st2 => some (popInstanceToken st2, none))
      | none => if required then some (pushError st) else some (st, none)) := by
  intro st st1 e hl hmd h
  cases hin : lookupKey obj key with
  | some subInst =>
    rw [hin] at h
    rcases andThen_some h with ⟨e2, hr, hee⟩ | ⟨stm, hr, hk⟩
    · have hx := hm sub subInst _ st1 (some e2) (by simpa using hl) (by simpa using hmd) hr
      rw [hee]
      exact hx
    · obtain ⟨h3, h4⟩ := Prod.mk.injEq _ _ _ _ ▸ Option.some.inj hk
      rw [← h4]
      simp
  | none =>
    rw [hin] at h
    cases required with
    | true =>
      have h2 : some (pushError st) = some (st1, e) := h
      have hx := pushError_snd_ne_mde st
      rw [Option.some.inj h2] at hx
      exact hx
    | false =>
      have h2 : some (st, none) = some (st1, e) := h
      obtain ⟨h3, h4⟩ := Prod.mk.injEq _ _ _ _ ▸ Option.some.inj h2
      rw [← h4]
      simp

lemma noMde_propsLoop {f : Schema → JsonVal → VState → Option VRes}
    (hp : ∀ s x, Pres (f s x)) (hm : ∀ s x, NoMde (f s x))
    (obj : List (String × JsonVal)) (required : Bool) :
    ∀ l, NoMde (fun st => propsLoop f obj required l st) := by
  intro l
  induction l with
  | nil =>
    intro st st1 e hl hmd h
    simp only [propsLoop, Option.some.injEq, Prod.mk.injEq] at h
    rw [← h.2]
    simp
  | cons kv rest ih =>
    obtain ⟨key, sub⟩ := kv
    intro st st1 e hl hmd h
    simp only [propsLoop] at h
    rcases andThen_some h with ⟨e2, hr, hee⟩ | ⟨stm, hr, hk⟩
    · have hx := noMde_propStep hp hm obj key sub required _ st1 (some e2)
        (by simpa using hl) (by simpa using hmd) hr
      rw [hee]
      exact hx
    · have hps := pres_propStep hp obj key sub required _ stm none hr
      have hts := hps.on_success (Eq.refl _)
      refine ih (popSchemaToken stm) st1 e ?_ ?_ hk
      · simp only [popSchemaToken_schemaTokens, hts.2]
        simpa using hl
      · rw [popSchemaToken_settings, hps.settings_eq]
        simpa using hmd

lemma noMde_extraLoop (props opts : Option (List (String × Schema)))
    (parentTag : Option String) :
    ∀ l, NoMde (fun st => extraLoop props opts parentTag l st) := by
  intro l
  induction l with
  | nil =>
    intro st st1 e hl hmd h
    simp only [extraLoop, Option.some.injEq, Prod.mk.injEq] at h
    rw [← h.2]
    simp
  | cons kv rest ih =>
    obtain ⟨key, v⟩ := kv
    intro st st1 e hl hmd h
    simp only [extraLoop] at h
    by_cases hpt : parentTag = some key
    · rw [if_pos hpt] at h
      exact ih st st1 e hl hmd h
    · rw [if_neg hpt] at h
      by_cases hko : (!hasKey (props.getD []) key && !hasKey (opts.getD []) key) = true
      · rw [if_pos hko] at h
        rcases andThen_some h with ⟨e2, hr, hee⟩ | ⟨stm, hr, hk⟩
        · have hx := pushError_snd_ne_mde (pushInstanceToken key st)
          rw [Option.some.inj hr] at hx
          rw [hee]
          exact hx
        · have hp := pushError_stOk (pushInstanceToken key st)
          rw [Option.some.inj hr] at hp
          have hp2 : StOk (pushInstanceToken key st) stm none := hp
          have hts := hp2.on_success (Eq.refl _)
          refine ih (popInstanceToken stm) st1 e ?_ ?_ hk
          · simp only [popInstanceToken_schemaTokens, hts.2]
            simpa using hl
          · rw [popInstanceToken_settings, hp2.settings_eq]
            simpa using hmd
      · rw [if_neg hko] at h
        exact ih st st1 e hl hmd h

lemma noMde_validateElementsStep {f : JsonVal → VState → Option VRes}
    (hp : ∀ x, Pres (f x)) (hm : ∀ x, NoMde (f x)) (inst : JsonVal) :
    NoMde (validateElementsStep f inst) := by
  intro st st1 e hl hmd h
  unfold validateElementsStep at h
  cases inst with
  | arr xs =>
    rcases andThen_some h with ⟨e2, hr, hee⟩ | ⟨stm, hr, hk⟩
    · have hx := noMde_elemsLoop hp hm xs 0 (pushSchemaToken "elements" st) st1 (some e2)
        (by simpa using hl) (by simpa using hmd) hr
      rw [hee]
      exact hx
    · obtain ⟨h3, h4⟩ := Prod.mk.injEq _ _ _ _ ▸ Option.some.inj hk
      rw [← h4]
      simp
  | null => exact noMde_errSchemaBracket _ st st1 e hl hmd h
  | bool b => exact noMde_errSchemaBracket _ st st1 e hl hmd h
  | num q => exact noMde_errSchemaBracket _ st st1 e hl hmd h
  | str s => exact noMde_errSchemaBracket _ st st1 e hl hmd h
  | obj kvs => exact noMde_errSchemaBracket _ st st1 e hl hmd h

lemma noMde_validateValuesStep {f : JsonVal → VState → Option VRes}
    (hp : ∀ x, Pres (f x)) (hm : ∀ x, NoMde (f x)) (inst : JsonVal) :
    NoMde (validateValuesStep f inst) := by
  intro st st1 e hl hmd h
  unfold validateValuesStep at h
  cases inst with
  | obj kvs =>
    rcases andThen_some h with ⟨e2, hr, hee⟩ | ⟨stm, hr, hk⟩
    · have hx := noMde_valuesLoop hp hm kvs (pushSchemaToken "values" st) st1 (some e2)
        (by simpa using hl) (by simpa using hmd) hr
      rw [hee]
      exact hx
    · obtain ⟨h3, h4⟩ := Prod.mk.injEq _ _ _ _ ▸ Option.some.inj hk
      rw [← h4]
      simp
  | null => exact noMde_errSchemaBracket _ st st1 e hl hmd h
  | bool b => exact noMde_errSchemaBracket _ st st1 e hl hmd h
  | num q => exact noMde_errSchemaBracket _ st st1 e hl hmd h
  | str s => exact noMde_errSchemaBracket _ st st1 e hl hmd h
  | arr xs => exact noMde_errSchemaBracket _ st st1 e hl hmd h

lemma noMde_validatePropertiesStep {f : Schema → JsonVal → VState → Option VRes}
    (hp : ∀ s x, Pres (f s x)) (hm : ∀ s x, NoMde (f s x)) (schema : Schema)
    (inst : JsonVal) (parentTag : Option String) :
    NoMde (validatePropertiesStep f schema inst parentTag) := by
  intro st st1 e hl hmd h
  unfold validatePropertiesStep at h
  cases inst with
  | obj kvs =>
    rcases andThen_some h with ⟨e2, hr, hee⟩ | ⟨stm, hr, hk⟩
    · have hx := noMde_propsLoop hp hm kvs true (schema.properties.getD [])
        (pushSchemaToken "properties" st) st1 (some e2)
        (by simpa using hl) (by simpa using hmd) hr
      rw [hee]
      exact hx
    · have hA := pres_propsLoop hp kvs true (schema.properties.getD [])
        (pushSchemaToken "properties" st) stm none hr
      have htsA := hA.on_success (Eq.refl _)
      have hlen2 : 0 < (pushSchemaToken "optionalProperties" (popSchemaToken stm)).schemaTokens.length := by
        simp only [pushSchemaToken_schemaTokens, pushTok_length,
          popSchemaToken_schemaTokens, popTok_length, htsA.2]
        simpa using hl
      have hmd2 : (pushSchemaToken "optionalProperties" (popSchemaToken stm)).settings.maxDepth = 0 := by
        rw [pushSchemaToken_settings, popSchemaToken_settings, hA.settings_eq]
        simpa using hmd
      rcases andThen_some hk with ⟨e2, hr2, hee2⟩ | ⟨stn, hr2, hk2⟩
      · have hx := noMde_propsLoop hp hm kvs false (schema.optionalProperties.getD [])
          _ st1 (some e2) hlen2 hmd2 hr2
        rw [hee2]
        exact hx
      · have hB := pres_propsLoop hp kvs false (schema.optionalProperties.getD [])
          _ stn none hr2
        have htsB := hB.on_success (Eq.refl _)
        have hlen3 : 0 < (popSchemaToken stn).schemaTokens.length := by
          simp only [popSchemaToken_schemaTokens, popTok_length, htsB.2]
          simpa using hlen2
        have hmd3 : (popSchemaToken stn).settings.maxDepth = 0 := by
          rw [popSchemaToken_settings, hB.settings_eq]
          exact hmd2
        by_cases haddl : (!schema.additionalProperties) = true
        · rw [if_pos haddl] at hk2
          exact noMde_extraLoop schema.properties schema.optionalProperties
            parentTag kvs (popSchemaToken stn) st1 e hlen3 hmd3 hk2
        · rw [if_neg haddl] at hk2
          obtain ⟨h3, h4⟩ := Prod.mk.injEq _ _ _ _ ▸ Option.some.inj hk2
          rw [← h4]
          simp
  | null =>
    by_cases hps : schema.properties.isSome
    · rw [if_pos hps] at h
      exact noMde_errSchemaBracket _ st st1 e hl hmd h
    · rw [if_neg hps] at h
      exact noMde_errSchemaBracket _ st st1 e hl hmd h
  | bool b =>
    by_cases hps : schema.properties.isSome
    · rw [if_pos hps] at h
      exact noMde_errSchemaBracket _ st st1 e hl hmd h
    · rw [if_neg hps] at h
      exact noMde_errSchemaBracket _ st st1 e hl hmd h
  | num q =>
    by_cases hps : schema.properties.isSome
    · rw [if_pos hps] at h
      exact noMde_errSchemaBracket _ st st1 e hl hmd h
    · rw [if_neg hps] at h
      exact noMde_errSchemaBracket _ st st1 e hl hmd h
  | str s =>
    by_cases hps : schema.properties.isSome
    · rw [if_pos hps] at h
      exact noMde_errSchemaBracket _ st st1 e hl hmd h
    · rw [if_neg hps] at h
      exact noMde_errSchemaBracket _ st st1 e hl hmd h
  | arr xs =>
    by_cases hps : schema.properties.isSome
    · rw [if_pos hps] at h
      exact noMde_errSchemaBracket _ st st1 e hl hmd h
    · rw [if_neg hps] at h
      exact noMde_errSchemaBracket _ st st1 e hl hmd h

lemma noMde_validateDiscriminatorStep {f : Schema → JsonVal → Option String → VState → Option VRes}
    (hm : ∀ s i pt, NoMde (f s i pt)) (schema : Schema) (inst : JsonVal) :
    NoMde (validateDiscriminatorStep f schema inst) := by
  intro st st1 e hl hmd h
  cases inst with
  | obj kvs =>
    cases htag : lookupKey kvs schema.discriminator with
    | some tag =>
      cases tag with
      | str tagStr =>
        cases hbr : lookupKey (schema.mapping.getD []) tagStr with
        | some branch =>
          simp only [validateDiscriminatorStep, htag, hbr] at h
          rcases andThen_some h with ⟨e2, hr, hee⟩ | ⟨stm, hr, hk⟩
          · have hx := hm branch (JsonVal.obj kvs) (some schema.discriminator)
              _ st1 (some e2) (by simpa using hl) (by simpa using hmd) hr
            rw [hee]
            exact hx
          · obtain ⟨h3, h4⟩ := Prod.mk.injEq _ _ _ _ ▸ Option.some.inj hk
            rw [← h4]
            simp
        | none =>
          simp only [validateDiscriminatorStep, htag, hbr] at h
          exact noMde_errInstSchemaBracket _ _ st st1 e hl hmd h
      | null =>
        simp only [validateDiscriminatorStep, htag] at h
        exact noMde_errInstSchemaBracket _ _ st st1 e hl hmd h
      | bool b =>
        simp only [validateDiscriminatorStep, htag] at h
        exact noMde_errInstSchemaBracket _ _ st st1 e hl hmd h
      | num q =>
        simp only [validateDiscriminatorStep, htag] at h
        exact noMde_errInstSchemaBracket _ _ st st1 e hl hmd h
      | arr xs =>
        simp only [validateDiscriminatorStep, htag] at h
        exact noMde_errInstSchemaBracket _ _ st st1 e hl hmd h
      | obj kvs2 =>
        simp only [validateDiscriminatorStep, htag] at h
        exact noMde_errInstSchemaBracket _ _ st st1 e hl hmd h
    | none =>
      simp only [validateDiscriminatorStep, htag] at h
      exact noMde_errSchemaBracket _ st st1 e hl hmd h
  | null => exact noMde_errSchemaBracket _ st st1 e hl hmd h
  | bool b => exact noMde_errSchemaBracket _ st st1 e hl hmd h
  | num q => exact noMde_errSchemaBracket _ st st1 e hl hmd h
  | str s => exact noMde_errSchemaBracket _ st st1 e hl hmd h
  | arr xs => exact noMde_errSchemaBracket _ st st1 e hl hmd h

lemma noMde_validateRefStep {f : Schema → JsonVal → Option String → VState → Option VRes}
    (hm : ∀ s i pt, NoMde (f s i pt)) (schema : Schema) (inst : JsonVal) :
    NoMde (validateRefStep f schema inst) := by
  intro st st1 e hl hmd h
  unfold validateRefStep at h
  have hne : ¬ ((st.schemaTokens.length : Int) = st.settings.maxDepth) := by
    rw [hmd]
    intro hc
    omega
  rw [if_neg hne] at h
  rcases andThen_some h with ⟨e2, hr, hee⟩ | ⟨stm, hr, hk⟩
  · have hx := hm _ inst none _ st1 (some e2) (by simp) (by simpa using hmd) hr
    rw [hee]
    exact hx
  · obtain ⟨h3, h4⟩ := Prod.mk.injEq _ _ _ _ ▸ Option.some.inj hk
    rw [← h4]
    simp

/-- With MaxDepth zero, validate never produces the depth error. -/
lemma validate_noMde (tsOk : String → Bool) :
    ∀ fuel s i pt, NoMde (validate tsOk fuel s i pt) := by
  intro fuel
  induction fuel with
  | zero =>
    intro s i pt st st1 e hl hmd h
    simp [validate] at h
  | succ n ih =>
    intro s i pt st st1 e hl hmd h
    simp only [validate] at h
    by_cases hnull : (s.nullable && i.isNull) = true
    · rw [if_pos hnull] at h
      simp only [Option.some.injEq, Prod.mk.injEq] at h
      rw [← h.2]
      simp
    · rw [if_neg hnull] at h
      cases hform : s.form with
      | empty =>
        simp only [hform, Option.some.injEq, Prod.mk.injEq] at h
        rw [← h.2]
        simp
      | ref =>
        simp only [hform] at h
        exact noMde_validateRefStep (fun a b c => ih a b c) s i st st1 e hl hmd h
      | type =>
        simp only [hform] at h
        exact noMde_validateTypeStep tsOk s.type i st st1 e hl hmd h
      | enum =>
        simp only [hform] at h
        exact noMde_validateEnumStep (s.enum.getD []) i st st1 e hl hmd h
      | elements =>
        simp only [hform] at h
        exact noMde_validateElementsStep
          (fun x => validate_pres tsOk n (s.elements.getD Schema.zeroValue) x none)
          (fun x => ih (s.elements.getD Schema.zeroValue) x none) i st st1 e hl hmd h
      | properties =>
        simp only [hform] at h
        exact noMde_validatePropertiesStep
          (fun a b => validate_pres tsOk n a b none)
          (fun a b => ih a b none) s i pt st st1 e hl hmd h
      | values =>
        simp only [hform] at h
        exact noMde_validateValuesStep
          (fun x => validate_pres tsOk n (s.values.getD Schema.zeroValue) x none)
          (fun x => ih (s.values.getD Schema.zeroValue) x none) i st st1 e hl hmd h
      | discriminator =>
        simp only [hform] at h
        exact noMde_validateDiscriminatorStep (fun a b c => ih a b c) s i st st1 e hl hmd h

/-! ### The MaxErrors bound

Starting strictly below a positive MaxErrors, validate either stays
strictly below it (and does not return the circuit breaker), or stops with
exactly MaxErrors errors and the circuit breaker. -/

def ErrB (g : VState → Option VRes) : Prop :=
  ∀ st st1 e, (st.errors.length : Int) < st.settings.maxErrors →
    g st = some (st1, e) →
    ((st1.errors.length : Int) < st.settings.maxErrors ∧ e ≠ some VErr.maxErrorsReached) ∨
    ((st1.errors.length : Int) = st.settings.maxErrors ∧ e = some VErr.maxErrorsReached)

lemma errB_pushError (st : VState)
    (h : (st.errors.length : Int) < st.settings.maxErrors) :
    (((pushError st).1.errors.length : Int) < st.settings.maxErrors ∧
      (pushError st).2 ≠ some VErr.maxErrorsReached) ∨
    (((pushError st).1.errors.length : Int) = st.settings.maxErrors ∧
      (pushError st).2 = some VErr.maxErrorsReached) := by
  rw [pushError_fst, pushError_snd]
  by_cases hc : (st.errors.length + 1 : Int) = st.settings.maxErrors
  · right
    constructor
    · simpa using hc
    · rw [if_pos hc]
  · left
    constructor
    · simp only [List.length_append, List.length_singleton, Nat.cast_add, Nat.cast_one]
      omega
    · rw [if_neg hc]
      simp

/-- A result equal to (st, none) or produced by plain propagation keeps the
bound; this is the trivial direction used for identity outcomes. -/
lemma errB_of_id {st : VState} (h : (st.errors.length : Int) < st.settings.maxErrors) :
    ((st.errors.length : Int) < st.settings.maxErrors ∧
      (none : Option VErr) ≠ some VErr.maxErrorsReached) := ⟨h, by simp⟩

lemma ite_cases_vres {c : Prop} [Decidable c] (st : VState) :
    (if c then (st, none) else pushError st) = ((st, none) : VRes) ∨
    (if c then (st, none) else pushError st) = pushError st := by
  split
  · exact Or.inl (Eq.refl _)
  · exact Or.inr (Eq.refl _)

/-- validateInt either accepts (leaving the state alone) or pushes one
error. -/
lemma validateInt_cases (i : JsonVal) (lo hi : Rat) (st : VState) :
    validateInt i lo hi st = (st, none) ∨ validateInt i lo hi st = pushError st := by
  cases i with
  | num q =>
    by_cases hc : q.den ≠ 1 ∨ q < lo ∨ q > hi
    · right
      show (if q.den ≠ 1 ∨ q < lo ∨ q > hi then pushError st else (st, none)) = pushError st
      rw [if_pos hc]
    · left
      show (if q.den ≠ 1 ∨ q < lo ∨ q > hi then pushError st else (st, none)) = (st, none)
      rw [if_neg hc]
  | null => exact Or.inr (Eq.refl _)
  | bool b => exact Or.inr (Eq.refl _)
  | str s => exact Or.inr (Eq.refl _)
  | arr xs => exact Or.inr (Eq.refl _)
  | obj kvs => exact Or.inr (Eq.refl _)

/-- The type switch either accepts (leaving the state alone) or pushes one
error. -/
lemma typeSwitch_cases (tsOk : String → Bool) (ty : String) (i : JsonVal) (st : VState) :
    typeSwitch tsOk ty i st = (st, none) ∨ typeSwitch tsOk ty i st = pushError st := by
  unfold typeSwitch
  split <;>
    first
      | exact validateInt_cases _ _ _ st
      | (cases i <;>
          first
            | exact Or.inr (Eq.refl _)
            | exact Or.inl (Eq.refl _)
            | exact ite_cases_vres st)
      | exact Or.inl (Eq.refl _)

/-- The enum membership test either accepts or pushes one error. -/
lemma enumHit_cases (vals : List String) (i : JsonVal) (st : VState) :
    enumHit vals i st = (st, none) ∨ enumHit vals i st = pushError st := by
  cases i with
  | str s =>
    show (if vals.contains s then (st, none) else pushError st) = _ ∨
      (if vals.contains s then (st, none) else pushError st) = _
    exact ite_cases_vres st
  | null => exact Or.inr (Eq.refl _)
  | bool b => exact Or.inr (Eq.refl _)
  | num q => exact Or.inr (Eq.refl _)
  | arr xs => exact Or.inr (Eq.refl _)
  | obj kvs => exact Or.inr (Eq.refl _)

lemma errB_typeSwitch (tsOk : String → Bool) (ty : String) (i : JsonVal) :
    ErrB (fun st => some (typeSwitch tsOk ty i st)) := by
  intro st st1 e hlt h
  have hsub : typeSwitch tsOk ty i st = (st1, e) := Option.some.inj h
  rcases typeSwitch_cases tsOk ty i st with hcase | hcase
  · rw [hcase] at hsub
    obtain ⟨h3, h4⟩ := Prod.mk.injEq _ _ _ _ ▸ hsub
    rw [← h3, ← h4]
    exact Or.inl (errB_of_id hlt)
  · rw [hcase] at hsub
    have hx := errB_pushError st hlt
    rw [hsub] at hx
    exact hx

lemma errB_enumHit (vals : List String) (i : JsonVal) :
    ErrB (fun st => some (enumHit vals i st)) := by
  intro st st1 e hlt h
  have hsub : enumHit vals i st = (st1, e) := Option.some.inj h
  rcases enumHit_cases vals i st with hcase | hcase
  · rw [hcase] at hsub
    obtain ⟨h3, h4⟩ := Prod.mk.injEq _ _ _ _ ▸ hsub
    rw [← h3, ← h4]
    exact Or.inl (errB_of_id hlt)
  · rw [hcase] at hsub
    have hx := errB_pushError st hlt
    rw [hsub] at hx
    exact hx

lemma errB_validateTypeStep (tsOk : String → Bool) (ty : String) (i : JsonVal) :
    ErrB (validateTypeStep tsOk ty i) := by
  intro st st1 e hlt h
  unfold validateTypeStep at h
  rcases andThen_some h with ⟨e2, hr, hee⟩ | ⟨stm, hr, hk⟩
  · have hx := errB_typeSwitch tsOk ty i (pushSchemaToken "type" st) st1 (some e2)
      (by simpa using hlt) hr
    rw [hee]
    simpa using hx
  · have hx := errB_typeSwitch tsOk ty i (pushSchemaToken "type" st) stm none
      (by simpa using hlt) hr
    obtain ⟨h3, h4⟩ := Prod.mk.injEq _ _ _ _ ▸ Option.some.inj hk
    rw [← h3, ← h4]
    rcases hx with ⟨hx1, _⟩ | ⟨_, hx2⟩
    · exact Or.inl ⟨by simpa using hx1, by simp⟩
    · cases hx2

lemma errB_validateEnumStep (vals : List String) (i : JsonVal) :
    ErrB (validateEnumStep vals i) := by
  intro st st1 e hlt h
  unfold validateEnumStep at h
  rcases andThen_some h with ⟨e2, hr, hee⟩ | ⟨stm, hr, hk⟩
  · have hx := errB_enumHit vals i (pushSchemaToken "enum" st) st1 (some e2)
      (by simpa using hlt) hr
    rw [hee]
    simpa using hx
  · have hx := errB_enumHit vals i (pushSchemaToken "enum" st) stm none
      (by simpa using hlt) hr
    obtain ⟨h3, h4⟩ := Prod.mk.injEq _ _ _ _ ▸ Option.some.inj hk
    rw [← h3, ← h4]
    rcases hx with ⟨hx1, _⟩ | ⟨_, hx2⟩
    · exact Or.inl ⟨by simpa using hx1, by simp⟩
    · cases hx2

lemma errB_errSchemaBracket (tk : String) :
    ErrB (fun st => andThen (some (pushError (pushSchemaToken tk st)))
      (fun st2 => some (popSchemaToken st2, none))) := by
  intro st st1 e hlt h
  rcases andThen_some h with ⟨e2, hr, hee⟩ | ⟨stm, hr, hk⟩
  · have hx := errB_pushError (pushSchemaToken tk st) (by simpa using hlt)
    rw [Option.some.inj hr] at hx
    rw [hee]
    simpa using hx
  · have hx := errB_pushError (pushSchemaToken tk st) (by simpa using hlt)
    rw [Option.some.inj hr] at hx
    obtain ⟨h3, h4⟩ := Prod.mk.injEq _ _ _ _ ▸ Option.some.inj hk
    rw [← h3, ← h4]
    rcases hx with ⟨hx1, _⟩ | ⟨_, hx2⟩
    · exact Or.inl ⟨by simpa using hx1, by simp⟩
    · cases hx2

lemma errB_errInstSchemaBracket (tk itk : String) :
    ErrB (fun st => andThen (some (pushError (pushInstanceToken itk (pushSchemaToken tk st))))
      (fun st2 => some (popSchemaToken (popInstanceToken st2), none))) := by
  intro st st1 e hlt h
  rcases andThen_some h with ⟨e2, hr, hee⟩ | ⟨stm, hr, hk⟩
  · have hx := errB_pushError (pushInstanceToken itk (pushSchemaToken tk st))
      (by simpa using hlt)
    rw [Option.some.inj hr] at hx
    rw [hee]
    simpa using hx
  · have hx := errB_pushError (pushInstanceToken itk (pushSchemaToken tk st))
      (by simpa using hlt)
    rw [Option.some.inj hr] at hx
    obtain ⟨h3, h4⟩ := Prod.mk.injEq _ _ _ _ ▸ Option.some.inj hk
    rw [← h3, ← h4]
    rcases hx with ⟨hx1, _⟩ | ⟨_, hx2⟩
    · exact Or.inl ⟨by simpa using hx1, by simp⟩
    · cases hx2

lemma errB_elemsLoop {f : JsonVal → VState → Option VRes}
    (hp : ∀ x, Pres (f x)) (hb : ∀ x, ErrB (f x)) :
    ∀ xs i, ErrB (fun st => elemsLoop f i xs st) := by
  intro xs
  induction xs with
  | nil =>
    intro i st st1 e hlt h
    simp only [elemsLoop, Option.some.injEq, Prod.mk.injEq] at h
    rw [← h.1, ← h.2]
    exact Or.inl (errB_of_id hlt)
  | cons x rest ih =>
    intro i st st1 e hlt h
    simp only [elemsLoop] at h
    rcases andThen_some h with ⟨e2, hr, hee⟩ | ⟨stm, hr, hk⟩
    · have hx := hb x _ st1 (some e2) (by simpa using hlt) hr
      rw [hee]
      simpa using hx
    · rcases hb x _ stm none (by simpa using hlt) hr with ⟨hx1, _⟩ | ⟨_, hx2⟩
      · have hset := (hp x _ stm none hr).settings_eq
        have hx3 : ((popInstanceToken stm).errors.length : Int) <
            (popInstanceToken stm).settings.maxErrors := by
          rw [popInstanceToken_errors, popInstanceToken_settings, hset]
          simpa using hx1
        have := ih (i + 1) (popInstanceToken stm) st1 e hx3 hk
        rw [popInstanceToken_settings, hset] at this
        simpa using this
      · cases hx2

lemma errB_valuesLoop {f : JsonVal → VState → Option VRes}
    (hp : ∀ x, Pres (f x)) (hb : ∀ x, ErrB (f x)) :
    ∀ l, ErrB (fun st => valuesLoop f l st) := by
  intro l
  induction l with
  | nil =>
    intro st st1 e hlt h
    simp only [valuesLoop, Option.some.injEq, Prod.mk.injEq] at h
    rw [← h.1, ← h.2]
    exact Or.inl (errB_of_id hlt)
  | cons kv rest ih =>
    obtain ⟨key, x⟩ := kv
    intro st st1 e hlt h
    simp only [valuesLoop] at h
    rcases andThen_some h with ⟨e2, hr, hee⟩ | ⟨stm, hr, hk⟩
    · have hx := hb x _ st1 (some e2) (by simpa using hlt) hr
      rw [hee]
      simpa using hx
    · rcases hb x _ stm none (by simpa using hlt) hr with ⟨hx1, _⟩ | ⟨_, hx2⟩
      · have hset := (hp x _ stm none hr).settings_eq
        have hx3 : ((popInstanceToken stm).errors.length : Int) <
            (popInstanceToken stm).settings.maxErrors := by
          rw [popInstanceToken_errors, popInstanceToken_settings, hset]
          simpa using hx1
        have := ih (popInstanceToken stm) st1 e hx3 hk
        rw [popInstanceToken_settings, hset] at this
        simpa using this
      · cases hx2

lemma errB_propStep {f : Schema → JsonVal → VState → Option VRes}
    (hp : ∀ s x, Pres (f s x)) (hb : ∀ s x, ErrB (f s x))
    (obj : List (String × JsonVal)) (key : String) (sub : Schema) (required : Bool) :
    ErrB (fun st =>
      match lookupKey obj key with
      | some subInst =>
        andThen (f sub subInst (pushInstanceToken key st))
          (fun st2 => some (popInstanceToken st2, none))
      | none => if required then some (pushError st) else some (st, none)) := by
  intro st st1 e hlt h
  cases hin : lookupKey obj key with
  | some subInst =>
    rw [hin] at h
    rcases andThen_some h with ⟨e2, hr, hee⟩ | ⟨stm, hr, hk⟩
    · have hx := hb sub subInst _ st1 (some e2) (by simpa using hlt) hr
      rw [hee]
      simpa using hx
    · rcases hb sub subInst _ stm none (by simpa using hlt) hr with ⟨hx1, _⟩ | ⟨_, hx2⟩
      · obtain ⟨h3, h4⟩ := Prod.mk.injEq _ _ _ _ ▸ Option.some.inj hk
        rw [← h3, ← h4]
        exact Or.inl ⟨by simpa using hx1, by simp⟩
      · cases hx2
  | none =>
    rw [hin] at h
    cases required with
    | true =>
      have h2 : some (pushError st) = some (st1, e) := h
      have hx := errB_pushError st hlt
      rw [Option.some.inj h2] at hx
      exact hx
    | false =>
      have h2 : some (st, none) = some (st1, e) := h
      obtain ⟨h3, h4⟩ := Prod.mk.injEq _ _ _ _ ▸ Option.some.inj h2
      rw [← h3, ← h4]
      exact Or.inl (errB_of_id hlt)

lemma errB_propsLoop {f : Schema → JsonVal → VState → Option VRes}
    (hp : ∀ s x, Pres (f s x)) (hb : ∀ s x, ErrB (f s x))
    (obj : List (String × JsonVal)) (required : Bool) :
    ∀ l, ErrB (fun st => propsLoop f obj required l st) := by
  intro l
  induction l with
  | nil =>
    intro st st1 e hlt h
    simp only [propsLoop, Option.some.injEq, Prod.mk.injEq] at h
    rw [← h.1, ← h.2]
    exact Or.inl (errB_of_id hlt)
  | cons kv rest ih =>
    obtain ⟨key, sub⟩ := kv
    intro st st1 e hlt h
    simp only [propsLoop] at h
    rcases andThen_some h with ⟨e2, hr, hee⟩ | ⟨stm, hr, hk⟩
    · have hx := errB_propStep hp hb obj key sub required _ st1 (some e2)
        (by simpa using hlt) hr
      rw [hee]
      simpa using hx
    · rcases errB_propStep hp hb obj key sub required _ stm none
        (by simpa using hlt) hr with ⟨hx1, _⟩ | ⟨_, hx2⟩
      · have hset := (pres_propStep hp obj key sub required _ stm none hr).settings_eq
        have hx3 : ((popSchemaToken stm).errors.length : Int) <
            (popSchemaToken stm).settings.maxErrors := by
          rw [popSchemaToken_errors, popSchemaToken_settings, hset]
          simpa using hx1
        have := ih (popSchemaToken stm) st1 e hx3 hk
        rw [popSchemaToken_settings, hset] at this
        simpa using this
      · cases hx2

lemma errB_extraLoop (props opts : Option (List (String × Schema)))
    (parentTag : Option String) :
    ∀ l, ErrB (fun st => extraLoop props opts parentTag l st) := by
  intro l
  induction l with
  | nil =>
    intro st st1 e hlt h
    simp only [extraLoop, Option.some.injEq, Prod.mk.injEq] at h
    rw [← h.1, ← h.2]
    exact Or.inl (errB_of_id hlt)
  | cons kv rest ih =>
    obtain ⟨key, v⟩ := kv
    intro st st1 e hlt h
    simp only [extraLoop] at h
    by_cases hpt : parentTag = some key
    · rw [if_pos hpt] at h
      exact ih st st1 e hlt h
    · rw [if_neg hpt] at h
      by_cases hko : (!hasKey (props.getD []) key && !hasKey (opts.getD []) key) = true
      · rw [if_pos hko] at h
        rcases andThen_some h with ⟨e2, hr, hee⟩ | ⟨stm, hr, hk⟩
        · have hx := errB_pushError (pushInstanceToken key st) (by simpa using hlt)
          rw [Option.some.inj hr] at hx
          rw [hee]
          simpa using hx
        · have hx := errB_pushError (pushInstanceToken key st) (by simpa using hlt)
          rw [Option.some.inj hr] at hx
          rcases hx with ⟨hx1, _⟩ | ⟨_, hx2⟩
          · have hx3 : ((popInstanceToken stm).errors.length : Int) <
                (popInstanceToken stm).settings.maxErrors := by
              have hpe := pushError_stOk (pushInstanceToken key st)
              rw [Option.some.inj hr] at hpe
              have hpe2 : StOk (pushInstanceToken key st) stm none := hpe
              rw [popInstanceToken_errors, popInstanceToken_settings, hpe2.settings_eq]
              simpa using hx1
            have := ih (popInstanceToken stm) st1 e hx3 hk
            have hpe := pushError_stOk (pushInstanceToken key st)
            rw [Option.some.inj hr] at hpe
            have hpe2 : StOk (pushInstanceToken key st) stm none := hpe
            rw [popInstanceToken_settings, hpe2.settings_eq] at this
            simpa using this
          · cases hx2
      · rw [if_neg hko] at h
        exact ih st st1 e hlt h

lemma errB_validateElementsStep {f : JsonVal → VState → Option VRes}
    (hp : ∀ x, Pres (f x)) (hb : ∀ x, ErrB (f x)) (inst : JsonVal) :
    ErrB (validateElementsStep f inst) := by
  intro st st1 e hlt h
  unfold validateElementsStep at h
  cases inst with
  | arr xs =>
    rcases andThen_some h with ⟨e2, hr, hee⟩ | ⟨stm, hr, hk⟩
    · have hx := errB_elemsLoop hp hb xs 0 (pushSchemaToken "elements" st) st1 (some e2)
        (by simpa using hlt) hr
      rw [hee]
      simpa using hx
    · rcases errB_elemsLoop hp hb xs 0 (pushSchemaToken "elements" st) stm none
        (by simpa using hlt) hr with ⟨hx1, _⟩ | ⟨_, hx2⟩
      · obtain ⟨h3, h4⟩ := Prod.mk.injEq _ _ _ _ ▸ Option.some.inj hk
        rw [← h3, ← h4]
        exact Or.inl ⟨by simpa using hx1, by simp⟩
      · cases hx2
  | null => exact errB_errSchemaBracket _ st st1 e hlt h
  | bool b => exact errB_errSchemaBracket _ st st1 e hlt h
  | num q => exact errB_errSchemaBracket _ st st1 e hlt h
  | str s => exact errB_errSchemaBracket _ st st1 e hlt h
  | obj kvs => exact errB_errSchemaBracket _ st st1 e hlt h

lemma errB_validateValuesStep {f : JsonVal → VState → Option VRes}
    (hp : ∀ x, Pres (f x)) (hb : ∀ x, ErrB (f x)) (inst : JsonVal) :
    ErrB (validateValuesStep f inst) := by
  intro st st1 e hlt h
  unfold validateValuesStep at h
  cases inst with
  | obj kvs =>
    rcases andThen_some h with ⟨e2, hr, hee⟩ | ⟨stm, hr, hk⟩
    · have hx := errB_valuesLoop hp hb kvs (pushSchemaToken "values" st) st1 (some e2)
        (by simpa using hlt) hr
      rw [hee]
      simpa using hx
    · rcases errB_valuesLoop hp hb kvs (pushSchemaToken "values" st) stm none
        (by simpa using hlt) hr with ⟨hx1, _⟩ | ⟨_, hx2⟩
      · obtain ⟨h3, h4⟩ := Prod.mk.injEq _ _ _ _ ▸ Option.some.inj hk
        rw [← h3, ← h4]
        exact Or.inl ⟨by simpa using hx1, by simp⟩
      · cases hx2
  | null => exact errB_errSchemaBracket _ st st1 e hlt h
  | bool b => exact errB_errSchemaBracket _ st st1 e hlt h
  | num q => exact errB_errSchemaBracket _ st st1 e hlt h
  | str s => exact errB_errSchemaBracket _ st st1 e hlt h
  | arr xs => exact errB_errSchemaBracket _ st st1 e hlt h

lemma errB_validatePropertiesStep {f : Schema → JsonVal → VState → Option VRes}
    (hp : ∀ s x, Pres (f s x)) (hb : ∀ s x, ErrB (f s x)) (schema : Schema)
    (inst : JsonVal) (parentTag : Option String) :
    ErrB (validatePropertiesStep f schema inst parentTag) := by
  intro st st1 e hlt h
  unfold validatePropertiesStep at h
  cases inst with
  | obj kvs =>
    rcases andThen_some h with ⟨e2, hr, hee⟩ | ⟨stm, hr, hk⟩
    · have hx := errB_propsLoop hp hb kvs true (schema.properties.getD [])
        (pushSchemaToken "properties" st) st1 (some e2) (by simpa using hlt) hr
      rw [hee]
      simpa using hx
    · rcases errB_propsLoop hp hb kvs true (schema.properties.getD [])
        (pushSchemaToken "properties" st) stm none (by simpa using hlt) hr with
        ⟨hx1, _⟩ | ⟨_, hx2⟩
      swap
      · cases hx2
      have hsetA := (pres_propsLoop hp kvs true (schema.properties.getD [])
        (pushSchemaToken "properties" st) stm none hr).settings_eq
      have hlt2 : (((pushSchemaToken "optionalProperties" (popSchemaToken stm)).errors.length : Int)) <
          (pushSchemaToken "optionalProperties" (popSchemaToken stm)).settings.maxErrors := by
        simp only [pushSchemaToken_errors, pushSchemaToken_settings,
          popSchemaToken_errors, popSchemaToken_settings, hsetA]
        simpa using hx1
      rcases andThen_some hk with ⟨e2, hr2, hee2⟩ | ⟨stn, hr2, hk2⟩
      · have hx := errB_propsLoop hp hb kvs false (schema.optionalProperties.getD [])
          _ st1 (some e2) hlt2 hr2
        rw [hee2]
        simp only [pushSchemaToken_settings, popSchemaToken_settings, hsetA] at hx
        simpa using hx
      · rcases errB_propsLoop hp hb kvs false (schema.optionalProperties.getD [])
          _ stn none hlt2 hr2 with ⟨hx3, _⟩ | ⟨_, hx4⟩
        swap
        · cases hx4
        have hsetB := (pres_propsLoop hp kvs false (schema.optionalProperties.getD [])
          _ stn none hr2).settings_eq
        have hlt3 : (((popSchemaToken stn).errors.length : Int)) <
            (popSchemaToken stn).settings.maxErrors := by
          simp only [popSchemaToken_errors, popSchemaToken_settings, hsetB,
            pushSchemaToken_settings, hsetA]
          simp only [pushSchemaToken_settings, popSchemaToken_settings, hsetA] at hx3
          simpa using hx3
        by_cases haddl : (!schema.additionalProperties) = true
        · rw [if_pos haddl] at hk2
          have := errB_extraLoop schema.properties schema.optionalProperties
            parentTag kvs (popSchemaToken stn) st1 e hlt3 hk2
          rw [popSchemaToken_settings, hsetB, pushSchemaToken_settings,
            popSchemaToken_settings, hsetA] at this
          simpa using this
        · rw [if_neg haddl] at hk2
          obtain ⟨h3, h4⟩ := Prod.mk.injEq _ _ _ _ ▸ Option.some.inj hk2
          rw [← h3, ← h4]
          refine Or.inl ⟨?_, by simp⟩
          have := hlt3
          rw [popSchemaToken_errors, popSchemaToken_settings, hsetB,
            pushSchemaToken_settings, popSchemaToken_settings, hsetA] at this
          simpa using this
  | null =>
    by_cases hps : schema.properties.isSome
    · rw [if_pos hps] at h
      exact errB_errSchemaBracket _ st st1 e hlt h
    · rw [if_neg hps] at h
      exact errB_errSchemaBracket _ st st1 e hlt h
  | bool b =>
    by_cases hps : schema.properties.isSome
    · rw [if_pos hps] at h
      exact errB_errSchemaBracket _ st st1 e hlt h
    · rw [if_neg hps] at h
      exact errB_errSchemaBracket _ st st1 e hlt h
  | num q =>
    by_cases hps : schema.properties.isSome
    · rw [if_pos hps] at h
      exact errB_errSchemaBracket _ st st1 e hlt h
    · rw [if_neg hps] at h
      exact errB_errSchemaBracket _ st st1 e hlt h
  | str s =>
    by_cases hps : schema.properties.isSome
    · rw [if_pos hps] at h
      exact errB_errSchemaBracket _ st st1 e hlt h
    · rw [if_neg hps] at h
      exact errB_errSchemaBracket _ st st1 e hlt h
  | arr xs =>
    by_cases hps : schema.properties.isSome
    · rw [if_pos hps] at h
      exact errB_errSchemaBracket _ st st1 e hlt h
    · rw [if_neg hps] at h
      exact errB_errSchemaBracket _ st st1 e hlt h

lemma errB_validateDiscriminatorStep {f : Schema → JsonVal → Option String → VState → Option VRes}
    (hb : ∀ s i pt, ErrB (f s i pt)) (schema : Schema) (inst : JsonVal) :
    ErrB (validateDiscriminatorStep f schema inst) := by
  intro st st1 e hlt h
  cases inst with
  | obj kvs =>
    cases htag : lookupKey kvs schema.discriminator with
    | some tag =>
      cases tag with
      | str tagStr =>
        cases hbr : lookupKey (schema.mapping.getD []) tagStr with
        | some branch =>
          simp only [validateDiscriminatorStep, htag, hbr] at h
          rcases andThen_some h with ⟨e2, hr, hee⟩ | ⟨stm, hr, hk⟩
          · have hx := hb branch (JsonVal.obj kvs) (some schema.discriminator)
              _ st1 (some e2) (by simpa using hlt) hr
            rw [hee]
            simpa using hx
          · rcases hb branch (JsonVal.obj kvs) (some schema.discriminator)
              _ stm none (by simpa using hlt) hr with ⟨hx1, _⟩ | ⟨_, hx2⟩
            · obtain ⟨h3, h4⟩ := Prod.mk.injEq _ _ _ _ ▸ Option.some.inj hk
              rw [← h3, ← h4]
              exact Or.inl ⟨by simpa using hx1, by simp⟩
            · cases hx2
        | none =>
          simp only [validateDiscriminatorStep, htag, hbr] at h
          exact errB_errInstSchemaBracket _ _ st st1 e hlt h
      | null =>
        simp only [validateDiscriminatorStep, htag] at h
        exact errB_errInstSchemaBracket _ _ st st1 e hlt h
      | bool b =>
        simp only [validateDiscriminatorStep, htag] at h
        exact errB_errInstSchemaBracket _ _ st st1 e hlt h
      | num q =>
        simp only [validateDiscriminatorStep, htag] at h
        exact errB_errInstSchemaBracket _ _ st st1 e hlt h
      | arr xs =>
        simp only [validateDiscriminatorStep, htag] at h
        exact errB_errInstSchemaBracket _ _ st st1 e hlt h
      | obj kvs2 =>
        simp only [validateDiscriminatorStep, htag] at h
        exact errB_errInstSchemaBracket _ _ st st1 e hlt h
    | none =>
      simp only [validateDiscriminatorStep, htag] at h
      exact errB_errSchemaBracket _ st st1 e hlt h
  | null => exact errB_errSchemaBracket _ st st1 e hlt h
  | bool b => exact errB_errSchemaBracket _ st st1 e hlt h
  | num q => exact errB_errSchemaBracket _ st st1 e hlt h
  | str s => exact errB_errSchemaBracket _ st st1 e hlt h
  | arr xs => exact errB_errSchemaBracket _ st st1 e hlt h

lemma errB_validateRefStep {f : Schema → JsonVal → Option String → VState → Option VRes}
    (hb : ∀ s i pt, ErrB (f s i pt)) (schema : Schema) (inst : JsonVal) :
    ErrB (validateRefStep f schema inst) := by
  intro st st1 e hlt h
  unfold validateRefStep at h
  by_cases hd : (st.schemaTokens.length : Int) = st.settings.maxDepth
  · rw [if_pos hd] at h
    obtain ⟨h3, h4⟩ := Prod.mk.injEq _ _ _ _ ▸ Option.some.inj h
    rw [← h3, ← h4]
    exact Or.inl ⟨hlt, by simp⟩
  · rw [if_neg hd] at h
    rcases andThen_some h with ⟨e2, hr, hee⟩ | ⟨stm, hr, hk⟩
    · have hx := hb _ inst none _ st1 (some e2) (by simpa using hlt) hr
      rw [hee]
      simpa using hx
    · rcases hb _ inst none _ stm none (by simpa using hlt) hr with ⟨hx1, _⟩ | ⟨_, hx2⟩
      · obtain ⟨h3, h4⟩ := Prod.mk.injEq _ _ _ _ ▸ Option.some.inj hk
        rw [← h3, ← h4]
        exact Or.inl ⟨by simpa using hx1, by simp⟩
      · cases hx2

/-- The master MaxErrors bound for validate. -/
lemma validate_errB (tsOk : String → Bool) :
    ∀ fuel s i pt, ErrB (validate tsOk fuel s i pt) := by
  intro fuel
  induction fuel with
  | zero =>
    intro s i pt st st1 e hlt h
    simp [validate] at h
  | succ n ih =>
    intro s i pt st st1 e hlt h
    simp only [validate] at h
    by_cases hnull : (s.nullable && i.isNull) = true
    · rw [if_pos hnull] at h
      simp only [Option.some.injEq, Prod.mk.injEq] at h
      rw [← h.1, ← h.2]
      exact Or.inl (errB_of_id hlt)
    · rw [if_neg hnull] at h
      cases hform : s.form with
      | empty =>
        simp only [hform, Option.some.injEq, Prod.mk.injEq] at h
        rw [← h.1, ← h.2]
        exact Or.inl (errB_of_id hlt)
      | ref =>
        simp only [hform] at h
        exact errB_validateRefStep (fun a b c => ih a b c) s i st st1 e hlt h
      | type =>
        simp only [hform] at h
        exact errB_validateTypeStep tsOk s.type i st st1 e hlt h
      | enum =>
        simp only [hform] at h
        exact errB_validateEnumStep (s.enum.getD []) i st st1 e hlt h
      | elements =>
        simp only [hform] at h
        exact errB_validateElementsStep
          (fun x => validate_pres tsOk n (s.elements.getD Schema.zeroValue) x none)
          (fun x => ih (s.elements.getD Schema.zeroValue) x none) i st st1 e hlt h
      | properties =>
        simp only [hform] at h
        exact errB_validatePropertiesStep
          (fun a b => validate_pres tsOk n a b none)
          (fun a b => ih a b none) s i pt st st1 e hlt h
      | values =>
        simp only [hform] at h
        exact errB_validateValuesStep
          (fun x => validate_pres tsOk n (s.values.getD Schema.zeroValue) x none)
          (fun x => ih (s.values.getD Schema.zeroValue) x none) i st st1 e hlt h
      | discriminator =>
        simp only [hform] at h
        exact errB_validateDiscriminatorStep (fun a b c => ih a b c) s i st st1 e hlt h

/-! ### Relating a bounded-MaxErrors run to the unbounded run

`setME me st` is the same state with MaxErrors replaced by `me`.  `Sim g`
says: as long as the bounded run has not reached its limit, it computes the
same states as the unbounded run (with only the setting differing), and
when it reaches the limit it stops with exactly the first `me` errors of
the unbounded run. -/

def setME (me : Int) (st : VState) : VState :=
  { st with settings := { st.settings with maxErrors := me } }

@[simp] lemma setME_errors (me : Int) (st : VState) : (setME me st).errors = st.errors := rfl

@[simp] lemma setME_root (me : Int) (st : VState) : (setME me st).root = st.root := rfl

@[simp] lemma setME_instanceTokens (me : Int) (st : VState) :
    (setME me st).instanceTokens = st.instanceTokens := rfl

@[simp] lemma setME_schemaTokens (me : Int) (st : VState) :
    (setME me st).schemaTokens = st.schemaTokens := rfl

@[simp] lemma setME_maxDepth (me : Int) (st : VState) :
    (setME me st).settings.maxDepth = st.settings.maxDepth := rfl

@[simp] lemma setME_maxErrors (me : Int) (st : VState) :
    (setME me st).settings.maxErrors = me := rfl

@[simp] lemma snapErr_setME (me : Int) (st : VState) :
    snapErr (setME me st) = snapErr st := rfl

lemma setME_pushSchemaToken (tk : String) (me : Int) (st : VState) :
    pushSchemaToken tk (setME me st) = setME me (pushSchemaToken tk st) := rfl

lemma setME_popSchemaToken (me : Int) (st : VState) :
    popSchemaToken (setME me st) = setME me (popSchemaToken st) := rfl

lemma setME_pushInstanceToken (tk : String) (me : Int) (st : VState) :
    pushInstanceToken tk (setME me st) = setME me (pushInstanceToken tk st) := rfl

lemma setME_popInstanceToken (me : Int) (st : VState) :
    popInstanceToken (setME me st) = setME me (popInstanceToken st) := rfl

lemma setME_pushSchemaFrame (fr : List String) (me : Int) (st : VState) :
    pushSchemaFrame fr (setME me st) = setME me (pushSchemaFrame fr st) := rfl

lemma setME_popSchemaFrame (me : Int) (st : VState) :
    popSchemaFrame (setME me st) = setME me (popSchemaFrame st) := rfl

/-- A prefix of fixed length survives appending on the right. -/
lemma take_prefix_extend {l tl res : List ValidateError} {me : Int}
    (ht : res = l.take me.toNat) (hl : (res.length : Int) = me) :
    res = (l ++ tl).take me.toNat := by
  have h2 : me.toNat ≤ l.length := by
    rw [ht] at hl
    simp [List.length_take] at hl
    omega
  rw [List.take_append_of_le_length h2]
  exact ht

def Sim (g : VState → Option VRes) : Prop :=
  ∀ st me st1 e, st.settings.maxErrors = 0 → (st.errors.length : Int) < me →
    g st = some (st1, e) →
    ( (g (setME me st) = some (setME me st1, e) ∧ (st1.errors.length : Int) < me)
    ∨ (∃ stB, g (setME me st) = some (stB, some VErr.maxErrorsReached) ∧
        stB.errors = st1.errors.take me.toNat ∧ (stB.errors.length : Int) = me) )

def ErrMono (g : VState → Option VRes) : Prop :=
  ∀ st st1 e, g st = some (st1, e) → ∃ tl, st1.errors = st.errors ++ tl

def SetEq (g : VState → Option VRes) : Prop :=
  ∀ st st1, g st = some (st1, none) → st1.settings = st.settings

lemma errMono_of_pres {g : VState → Option VRes} (h : Pres g) : ErrMono g :=
  fun st st1 e hg => (h st st1 e hg).errors_mono

lemma setEq_of_pres {g : VState → Option VRes} (h : Pres g) : SetEq g :=
  fun st st1 hg => (h st st1 none hg).settings_eq

lemma sim_congr {g1 g2 : VState → Option VRes} (hgg : ∀ st, g1 st = g2 st)
    (h : Sim g2) : Sim g1 := by
  intro st me st1 e hz hlt h1
  rw [hgg st] at h1
  rcases h st me st1 e hz hlt h1 with ⟨hA, hB⟩ | ⟨stB, hA, hB, hC⟩
  · exact Or.inl ⟨by rw [hgg]; exact hA, hB⟩
  · exact Or.inr ⟨stB, by rw [hgg]; exact hA, hB, hC⟩

lemma sim_idRet : Sim (fun st => some (st, none)) := by
  intro st me st1 e hz hlt h
  obtain ⟨h1, h2⟩ := Prod.mk.injEq _ _ _ _ ▸ Option.some.inj h
  refine Or.inl ⟨?_, ?_⟩
  · rw [← h1, ← h2]
  · rw [← h1]
    exact hlt

lemma errMono_idRet : ErrMono (fun st => some (st, none)) := by
  intro st st1 e h
  obtain ⟨h1, h2⟩ := Prod.mk.injEq _ _ _ _ ▸ Option.some.inj h
  exact ⟨[], by rw [← h1]; simp⟩

/-- With MaxErrors zero the circuit breaker never fires. -/
lemma pushError_of_zero (st : VState) (hz : st.settings.maxErrors = 0) :
    pushError st = ({ st with errors := st.errors ++ [snapErr st] }, none) := by
  have hcond : ¬ (((st.errors ++ [snapErr st]).length : Int) = st.settings.maxErrors) := by
    rw [hz]
    simp only [List.length_append, List.length_singleton]
    omega
  simp only [pushError]
  rw [if_neg hcond]

/-- pushError on the bounded state: same state update, breaker exactly at
the limit. -/
lemma pushError_setME (me : Int) (st : VState) :
    pushError (setME me st) =
      (setME me { st with errors := st.errors ++ [snapErr st] },
        if (st.errors.length + 1 : Int) = me then some VErr.maxErrorsReached else none) := by
  simp only [pushError, snapErr_setME, setME_errors]
  have hcond : (((st.errors ++ [snapErr st]).length : Int) = (setME me st).settings.maxErrors) ↔
      ((st.errors.length + 1 : Int) = me) := by
    simp
  by_cases hc : (st.errors.length + 1 : Int) = me
  · rw [if_pos (hcond.mpr hc), if_pos hc]
    exact rfl
  · rw [if_neg (fun hx => hc (hcond.mp hx)), if_neg hc]
    exact rfl

lemma sim_pushErrorFn : Sim (fun st => some (pushError st)) := by
  intro st me st1 e hz hlt h
  have hsub : pushError st = (st1, e) := Option.some.inj h
  rw [pushError_of_zero st hz] at hsub
  obtain ⟨h1, h2⟩ := Prod.mk.injEq _ _ _ _ ▸ hsub
  by_cases hc : (st.errors.length + 1 : Int) = me
  · right
    refine ⟨setME me { st with errors := st.errors ++ [snapErr st] }, ?_, ?_, ?_⟩
    · show some (pushError (setME me st)) = _
      rw [pushError_setME, if_pos hc]
    · have hlen : me.toNat = (st.errors ++ [snapErr st]).length := by
        simp only [List.length_append, List.length_singleton]
        omega
      rw [← h1]
      show st.errors ++ [snapErr st] = (st.errors ++ [snapErr st]).take me.toNat
      rw [hlen, List.take_length]
    · show ((st.errors ++ [snapErr st]).length : Int) = me
      simp only [List.length_append, List.length_singleton]
      omega
  · left
    constructor
    · show some (pushError (setME me st)) = _
      rw [pushError_setME, if_neg hc, ← h1, ← h2]
    · rw [← h1]
      show ((st.errors ++ [snapErr st]).length : Int) < me
      simp only [List.length_append, List.length_singleton]
      omega

lemma errMono_pushErrorFn : ErrMono (fun st => some (pushError st)) := by
  intro st st1 e h
  have h1 : (pushError st).1 = st1 := by rw [Option.some.inj h]
  refine ⟨[snapErr st], ?_⟩
  rw [← h1, pushError_fst]

/-- Sequential composition preserves the simulation: wrappers `w`, `u`
must commute with the MaxErrors substitution and leave errors and settings
alone. -/
lemma sim_seq (m1 m2 : VState → Option VRes) (w u : VState → VState)
    (hm1 : Sim m1) (hs1 : SetEq m1) (hm2 : Sim m2) (he2 : ErrMono m2)
    (hwME : ∀ me st, w (setME me st) = setME me (w st))
    (huME : ∀ me st, u (setME me st) = setME me (u st))
    (hwE : ∀ st, (w st).errors = st.errors)
    (hwS : ∀ st, (w st).settings = st.settings)
    (huE : ∀ st, (u st).errors = st.errors)
    (huS : ∀ st, (u st).settings = st.settings) :
    Sim (fun st => andThen (m1 (w st)) (fun st2 => m2 (u st2))) := by
  intro st me st1 e hz hlt h
  rcases andThen_some h with ⟨e2, hr, hee⟩ | ⟨stm, hr, hk⟩
  · rcases hm1 (w st) me st1 (some e2) (by rw [hwS]; exact hz) (by rw [hwE]; exact hlt) hr with
      ⟨hb1, hb2⟩ | ⟨stB, hB, ht, hl⟩
    · left
      refine ⟨?_, hb2⟩
      show andThen (m1 (w (setME me st))) _ = _
      rw [hwME, hb1, hee]
      rfl
    · right
      refine ⟨stB, ?_, ht, hl⟩
      show andThen (m1 (w (setME me st))) _ = _
      rw [hwME, hB]
      rfl
  · rcases hm1 (w st) me stm none (by rw [hwS]; exact hz) (by rw [hwE]; exact hlt) hr with
      ⟨hb1, hb2⟩ | ⟨stB, hB, ht, hl⟩
    · have hset1 := hs1 (w st) stm hr
      rcases hm2 (u stm) me st1 e
          (by rw [huS, hset1, hwS]; exact hz)
          (by rw [huE]; exact hb2) hk with
        ⟨hc1, hc2⟩ | ⟨stB, hB2, ht2, hl2⟩
      · left
        refine ⟨?_, hc2⟩
        show andThen (m1 (w (setME me st))) _ = _
        rw [hwME, hb1]
        show m2 (u (setME me stm)) = _
        rw [huME]
        exact hc1
      · right
        refine ⟨stB, ?_, ht2, hl2⟩
        show andThen (m1 (w (setME me st))) _ = _
        rw [hwME, hb1]
        show m2 (u (setME me stm)) = _
        rw [huME]
        exact hB2
    · right
      obtain ⟨tl, htl⟩ := he2 (u stm) st1 e hk
      rw [huE] at htl
      refine ⟨stB, ?_, ?_, hl⟩
      · show andThen (m1 (w (setME me st))) _ = _
        rw [hwME, hB]
        rfl
      · rw [htl]
        exact take_prefix_extend ht hl

/-- Monotone error accumulation for a sequential composition. -/
lemma errMono_seq (m1 m2 : VState → Option VRes) (w u : VState → VState)
    (h1 : ErrMono m1) (h2 : ErrMono m2)
    (hwE : ∀ st, (w st).errors = st.errors)
    (huE : ∀ st, (u st).errors = st.errors) :
    ErrMono (fun st => andThen (m1 (w st)) (fun st2 => m2 (u st2))) := by
  intro st st1 e h
  rcases andThen_some h with ⟨e2, hr, hee⟩ | ⟨stm, hr, hk⟩
  · obtain ⟨tl, htl⟩ := h1 (w st) st1 (some e2) hr
    rw [hwE] at htl
    exact ⟨tl, htl⟩
  · obtain ⟨tl1, htl1⟩ := h1 (w st) stm none hr
    obtain ⟨tl2, htl2⟩ := h2 (u stm) st1 e hk
    rw [huE, htl1, hwE] at htl2
    exact ⟨tl1 ++ tl2, by rw [htl2, List.append_assoc]⟩

lemma ite_uniform {c : Prop} [Decidable c] (st st2 : VState) :
    ((if c then (st, none) else pushError st) = ((st, none) : VRes) ∧
      (if c then (st2, none) else pushError st2) = ((st2, none) : VRes)) ∨
    ((if c then (st, none) else pushError st) = pushError st ∧
      (if c then (st2, none) else pushError st2) = pushError st2) := by
  by_cases hc : c
  · exact Or.inl ⟨by rw [if_pos hc], by rw [if_pos hc]⟩
  · exact Or.inr ⟨by rw [if_neg hc], by rw [if_neg hc]⟩

/-- validateInt makes the same accept/reject choice at any two states. -/
lemma validateInt_uniform (i : JsonVal) (lo hi : Rat) (st st2 : VState) :
    (validateInt i lo hi st = (st, none) ∧ validateInt i lo hi st2 = (st2, none)) ∨
    (validateInt i lo hi st = pushError st ∧ validateInt i lo hi st2 = pushError st2) := by
  cases i with
  | num q =>
    by_cases hc : q.den ≠ 1 ∨ q < lo ∨ q > hi
    · refine Or.inr ⟨?_, ?_⟩
      · show (if q.den ≠ 1 ∨ q < lo ∨ q > hi then pushError st else (st, none)) = pushError st
        rw [if_pos hc]
      · show (if q.den ≠ 1 ∨ q < lo ∨ q > hi then pushError st2 else (st2, none)) = pushError st2
        rw [if_pos hc]
    · refine Or.inl ⟨?_, ?_⟩
      · show (if q.den ≠ 1 ∨ q < lo ∨ q > hi then pushError st else (st, none)) = (st, none)
        rw [if_neg hc]
      · show (if q.den ≠ 1 ∨ q < lo ∨ q > hi then pushError st2 else (st2, none)) = (st2, none)
        rw [if_neg hc]
  | null => exact Or.inr ⟨rfl, rfl⟩
  | bool b => exact Or.inr ⟨rfl, rfl⟩
  | str s => exact Or.inr ⟨rfl, rfl⟩
  | arr xs => exact Or.inr ⟨rfl, rfl⟩
  | obj kvs => exact Or.inr ⟨rfl, rfl⟩

/-- The type switch makes the same accept/reject choice at any two
states. -/
lemma typeSwitch_uniform (tsOk : String → Bool) (ty : String) (i : JsonVal)
    (st st2 : VState) :
    (typeSwitch tsOk ty i st = (st, none) ∧ typeSwitch tsOk ty i st2 = (st2, none)) ∨
    (typeSwitch tsOk ty i st = pushError st ∧ typeSwitch tsOk ty i st2 = pushError st2) := by
  unfold typeSwitch
  split <;>
    first
      | exact validateInt_uniform i _ _ st st2
      | exact Or.inl ⟨rfl, rfl⟩
      | (cases i <;>
          first
            | exact Or.inr ⟨rfl, rfl⟩
            | exact Or.inl ⟨rfl, rfl⟩
            | exact ite_uniform st st2)

/-- The enum test makes the same accept/reject choice at any two states. -/
lemma enumHit_uniform (vals : List String) (i : JsonVal) (st st2 : VState) :
    (enumHit vals i st = (st, none) ∧ enumHit vals i st2 = (st2, none)) ∨
    (enumHit vals i st = pushError st ∧ enumHit vals i st2 = pushError st2) := by
  cases i with
  | str s => exact ite_uniform st st2
  | null => exact Or.inr ⟨rfl, rfl⟩
  | bool b => exact Or.inr ⟨rfl, rfl⟩
  | num q => exact Or.inr ⟨rfl, rfl⟩
  | arr xs => exact Or.inr ⟨rfl, rfl⟩
  | obj kvs => exact Or.inr ⟨rfl, rfl⟩

lemma sim_typeSwitchFn (tsOk : String → Bool) (ty : String) (i : JsonVal) :
    Sim (fun st => some (typeSwitch tsOk ty i st)) := by
  intro st me st1 e hz hlt hraw
  have h : some (typeSwitch tsOk ty i st) = some (st1, e) := hraw
  rcases typeSwitch_uniform tsOk ty i st (setME me st) with ⟨hA, hB⟩ | ⟨hA, hB⟩
  · rw [hA] at h
    obtain ⟨h1, h2⟩ := Prod.mk.injEq _ _ _ _ ▸ Option.some.inj h
    refine Or.inl ⟨?_, ?_⟩
    · show some (typeSwitch tsOk ty i (setME me st)) = _
      rw [hB, ← h1, ← h2]
    · rw [← h1]
      exact hlt
  · rw [hA] at h
    rcases sim_pushErrorFn st me st1 e hz hlt h with ⟨hc1, hc2⟩ | ⟨stB, hc1, hc2, hc3⟩
    · refine Or.inl ⟨?_, hc2⟩
      show some (typeSwitch tsOk ty i (setME me st)) = _
      rw [hB]
      exact hc1
    · refine Or.inr ⟨stB, ?_, hc2, hc3⟩
      show some (typeSwitch tsOk ty i (setME me st)) = _
      rw [hB]
      exact hc1

lemma sim_enumHitFn (vals : List String) (i : JsonVal) :
    Sim (fun st => some (enumHit vals i st)) := by
  intro st me st1 e hz hlt hraw
  have h : some (enumHit vals i st) = some (st1, e) := hraw
  rcases enumHit_uniform vals i st (setME me st) with ⟨hA, hB⟩ | ⟨hA, hB⟩
  · rw [hA] at h
    obtain ⟨h1, h2⟩ := Prod.mk.injEq _ _ _ _ ▸ Option.some.inj h
    refine Or.inl ⟨?_, ?_⟩
    · show some (enumHit vals i (setME me st)) = _
      rw [hB, ← h1, ← h2]
    · rw [← h1]
      exact hlt
  · rw [hA] at h
    rcases sim_pushErrorFn st me st1 e hz hlt h with ⟨hc1, hc2⟩ | ⟨stB, hc1, hc2, hc3⟩
    · refine Or.inl ⟨?_, hc2⟩
      show some (enumHit vals i (setME me st)) = _
      rw [hB]
      exact hc1
    · refine Or.inr ⟨stB, ?_, hc2, hc3⟩
      show some (enumHit vals i (setME me st)) = _
      rw [hB]
      exact hc1

lemma setEq_pushErrorFn : SetEq (fun st => some (pushError st)) := by
  intro st st1 h
  have h1 : (pushError st).1 = st1 := by rw [Option.some.inj h]
  rw [← h1]
  simp

lemma setEq_typeSwitchFn (tsOk : String → Bool) (ty : String) (i : JsonVal) :
    SetEq (fun st => some (typeSwitch tsOk ty i st)) := by
  intro st st1 h
  have hx := pres_typeSwitch tsOk ty i st
  have h2 : typeSwitch tsOk ty i st = (st1, none) := Option.some.inj h
  rw [h2] at hx
  exact hx.settings_eq

lemma setEq_enumHitFn (vals : List String) (i : JsonVal) :
    SetEq (fun st => some (enumHit vals i st)) := by
  intro st st1 h
  have hx := pres_enumHit vals i st
  have h2 : enumHit vals i st = (st1, none) := Option.some.inj h
  rw [h2] at hx
  exact hx.settings_eq

/-- The bounded/unbounded simulation for the bracketed single-error
emitters. -/
lemma sim_errSchemaBracketS (tk : String) :
    Sim (fun st => andThen (some (pushError (pushSchemaToken tk st)))
      (fun st2 => some (popSchemaToken st2, none))) :=
  sim_seq (fun s => some (pushError s)) (fun s => some (s, none))
    (pushSchemaToken tk) popSchemaToken
    sim_pushErrorFn setEq_pushErrorFn sim_idRet errMono_idRet
    (fun me st => rfl) (fun me st => rfl)
    (fun st => rfl) (fun st => rfl) (fun st => rfl) (fun st => rfl)

lemma sim_errInstSchemaBracketS (tk itk : String) :
    Sim (fun st => andThen (some (pushError (pushInstanceToken itk (pushSchemaToken tk st))))
      (fun st2 => some (popSchemaToken (popInstanceToken st2), none))) :=
  sim_seq (fun s => some (pushError s)) (fun s => some (s, none))
    (fun st => pushInstanceToken itk (pushSchemaToken tk st))
    (fun st => popSchemaToken (popInstanceToken st))
    sim_pushErrorFn setEq_pushErrorFn sim_idRet errMono_idRet
    (fun me st => rfl) (fun me st => rfl)
    (fun st => rfl) (fun st => rfl) (fun st => rfl) (fun st => rfl)

lemma sim_propStep {f : Schema → JsonVal → VState → Option VRes}
    (hs : ∀ s x, Sim (f s x)) (hp : ∀ s x, Pres (f s x))
    (obj : List (String × JsonVal)) (key : String) (sub : Schema) (required : Bool) :
    Sim (fun st =>
      match lookupKey obj key with
      | some subInst =>
        andThen (f sub subInst (pushInstanceToken key st))
          (fun st2 => some (popInstanceToken st2, none))
      | none => if required then some (pushError st) else some (st, none)) := by
  cases hin : lookupKey obj key with
  | some subInst =>
    refine sim_congr (fun st => ?_)
      (sim_seq (f sub subInst) (fun s => some (s, none))
        (pushInstanceToken key) popInstanceToken
        (hs sub subInst) (setEq_of_pres (hp sub subInst)) sim_idRet errMono_idRet
        (fun me st => rfl) (fun me st => rfl)
        (fun st => rfl) (fun st => rfl) (fun st => rfl) (fun st => rfl))
    rfl
  | none =>
    cases required with
    | true =>
      exact sim_congr (fun st => by simp [hin]) sim_pushErrorFn
    | false =>
      exact sim_congr (fun st => by simp [hin]) sim_idRet

lemma sim_propsLoop {f : Schema → JsonVal → VState → Option VRes}
    (hs : ∀ s x, Sim (f s x)) (hp : ∀ s x, Pres (f s x))
    (obj : List (String × JsonVal)) (required : Bool) :
    ∀ l, Sim (fun st => propsLoop f obj required l st) := by
  intro l
  induction l with
  | nil => exact sim_congr (fun st => by simp only [propsLoop]) sim_idRet
  | cons kv rest ih =>
    obtain ⟨key, sub⟩ := kv
    exact sim_seq
      (fun st =>
        match lookupKey obj key with
        | some subInst =>
          andThen (f sub subInst (pushInstanceToken key st))
            (fun st2 => some (popInstanceToken st2, none))
        | none => if required then some (pushError st) else some (st, none))
      (fun st => propsLoop f obj required rest st)
      (pushSchemaToken key) popSchemaToken
      (sim_propStep hs hp obj key sub required)
      (setEq_of_pres (pres_propStep hp obj key sub required))
      ih (errMono_of_pres (pres_propsLoop hp obj required rest))
      (fun me st => rfl) (fun me st => rfl)
      (fun st => rfl) (fun st => rfl) (fun st => rfl) (fun st => rfl)

lemma sim_elemsLoop {f : JsonVal → VState → Option VRes}
    (hs : ∀ x, Sim (f x)) (hp : ∀ x, Pres (f x)) :
    ∀ (xs : List JsonVal) (i : Nat), Sim (fun st => elemsLoop f i xs st) := by
  intro xs
  induction xs with
  | nil =>
    intro i
    exact sim_congr (fun st => by simp only [elemsLoop]) sim_idRet
  | cons x rest ih =>
    intro i
    exact sim_seq (f x) (fun st => elemsLoop f (i + 1) rest st)
      (pushInstanceToken (toString i)) popInstanceToken
      (hs x) (setEq_of_pres (hp x))
      (ih (i + 1)) (errMono_of_pres (pres_elemsLoop hp rest (i + 1)))
      (fun me st => rfl) (fun me st => rfl)
      (fun st => rfl) (fun st => rfl) (fun st => rfl) (fun st => rfl)

lemma sim_valuesLoop {f : JsonVal → VState → Option VRes}
    (hs : ∀ x, Sim (f x)) (hp : ∀ x, Pres (f x)) :
    ∀ l, Sim (fun st => valuesLoop f l st) := by
  intro l
  induction l with
  | nil => exact sim_congr (fun st => by simp only [valuesLoop]) sim_idRet
  | cons kv rest ih =>
    obtain ⟨key, x⟩ := kv
    exact sim_seq (f x) (fun st => valuesLoop f rest st)
      (pushInstanceToken key) popInstanceToken
      (hs x) (setEq_of_pres (hp x))
      ih (errMono_of_pres (pres_valuesLoop hp rest))
      (fun me st => rfl) (fun me st => rfl)
      (fun st => rfl) (fun st => rfl) (fun st => rfl) (fun st => rfl)

lemma sim_extraLoop (props opts : Option (List (String × Schema)))
    (parentTag : Option String) :
    ∀ l, Sim (fun st => extraLoop props opts parentTag l st) := by
  intro l
  induction l with
  | nil => exact sim_congr (fun st => by simp only [extraLoop]) sim_idRet
  | cons kv rest ih =>
    obtain ⟨key, v⟩ := kv
    by_cases hpt : parentTag = some key
    · exact sim_congr (fun st => by simp only [extraLoop, if_pos hpt]) ih
    · by_cases hko : (!hasKey (props.getD []) key && !hasKey (opts.getD []) key) = true
      · refine sim_congr (fun st => ?_)
          (sim_seq (fun s => some (pushError s))
            (fun st => extraLoop props opts parentTag rest st)
            (pushInstanceToken key) popInstanceToken
            sim_pushErrorFn setEq_pushErrorFn
            ih (errMono_of_pres (pres_extraLoop props opts parentTag rest))
            (fun me st => rfl) (fun me st => rfl)
            (fun st => rfl) (fun st => rfl) (fun st => rfl) (fun st => rfl))
        simp only [extraLoop, if_neg hpt, if_pos hko]
        all_goals rfl
      · exact sim_congr (fun st => by simp only [extraLoop, if_neg hpt, if_neg hko]) ih

lemma sim_validateTypeStep (tsOk : String → Bool) (ty : String) (i : JsonVal) :
    Sim (validateTypeStep tsOk ty i) :=
  sim_seq (fun s => some (typeSwitch tsOk ty i s)) (fun s => some (s, none))
    (pushSchemaToken "type") popSchemaToken
    (sim_typeSwitchFn tsOk ty i) (setEq_typeSwitchFn tsOk ty i) sim_idRet errMono_idRet
    (fun me st => rfl) (fun me st => rfl)
    (fun st => rfl) (fun st => rfl) (fun st => rfl) (fun st => rfl)

lemma sim_validateEnumStep (vals : List String) (i : JsonVal) :
    Sim (validateEnumStep vals i) :=
  sim_seq (fun s => some (enumHit vals i s)) (fun s => some (s, none))
    (pushSchemaToken "enum") popSchemaToken
    (sim_enumHitFn vals i) (setEq_enumHitFn vals i) sim_idRet errMono_idRet
    (fun me st => rfl) (fun me st => rfl)
    (fun st => rfl) (fun st => rfl) (fun st => rfl) (fun st => rfl)

lemma sim_validateElementsStep {f : JsonVal → VState → Option VRes}
    (hs : ∀ x, Sim (f x)) (hp : ∀ x, Pres (f x)) (inst : JsonVal) :
    Sim (validateElementsStep f inst) := by
  cases inst with
  | arr xs =>
    exact sim_seq (fun st => elemsLoop f 0 xs st) (fun s => some (s, none))
      (pushSchemaToken "elements") popSchemaToken
      (sim_elemsLoop hs hp xs 0) (setEq_of_pres (pres_elemsLoop hp xs 0))
      sim_idRet errMono_idRet
      (fun me st => rfl) (fun me st => rfl)
      (fun st => rfl) (fun st => rfl) (fun st => rfl) (fun st => rfl)
  | null => exact sim_errSchemaBracketS "elements"
  | bool b => exact sim_errSchemaBracketS "elements"
  | num q => exact sim_errSchemaBracketS "elements"
  | str s => exact sim_errSchemaBracketS "elements"
  | obj kvs => exact sim_errSchemaBracketS "elements"

lemma sim_validateValuesStep {f : JsonVal → VState → Option VRes}
    (hs : ∀ x, Sim (f x)) (hp : ∀ x, Pres (f x)) (inst : JsonVal) :
    Sim (validateValuesStep f inst) := by
  cases inst with
  | obj kvs =>
    exact sim_seq (fun st => valuesLoop f kvs st) (fun s => some (s, none))
      (pushSchemaToken "values") popSchemaToken
      (sim_valuesLoop hs hp kvs) (setEq_of_pres (pres_valuesLoop hp kvs))
      sim_idRet errMono_idRet
      (fun me st => rfl) (fun me st => rfl)
      (fun st => rfl) (fun st => rfl) (fun st => rfl) (fun st => rfl)
  | null => exact sim_errSchemaBracketS "values"
  | bool b => exact sim_errSchemaBracketS "values"
  | num q => exact sim_errSchemaBracketS "values"
  | str s => exact sim_errSchemaBracketS "values"
  | arr xs => exact sim_errSchemaBracketS "values"

lemma sim_validatePropertiesStep {f : Schema → JsonVal → VState → Option VRes}
    (hs : ∀ s x, Sim (f s x)) (hp : ∀ s x, Pres (f s x)) (schema : Schema)
    (inst : JsonVal) (parentTag : Option String) :
    Sim (validatePropertiesStep f schema inst parentTag) := by
  cases inst with
  | obj kvs =>
    have innerSim : Sim (fun st3 =>
        if !schema.additionalProperties then
          extraLoop schema.properties schema.optionalProperties parentTag kvs st3
        else some (st3, none)) := by
      by_cases haddl : (!schema.additionalProperties) = true
      · exact sim_congr (fun st => by rw [if_pos haddl])
          (sim_extraLoop schema.properties schema.optionalProperties parentTag kvs)
      · exact sim_congr (fun st => by rw [if_neg haddl]) sim_idRet
    have innerMono : ErrMono (fun st3 =>
        if !schema.additionalProperties then
          extraLoop schema.properties schema.optionalProperties parentTag kvs st3
        else some (st3, none)) := by
      intro st st1 e h
      have h2 : (if (!schema.additionalProperties) = true then
          extraLoop schema.properties schema.optionalProperties parentTag kvs st
        else some (st, none)) = some (st1, e) := h
      by_cases haddl : (!schema.additionalProperties) = true
      · rw [if_pos haddl] at h2
        exact errMono_of_pres
          (pres_extraLoop schema.properties schema.optionalProperties parentTag kvs)
          st st1 e h2
      · rw [if_neg haddl] at h2
        exact errMono_idRet st st1 e h2
    have midSim : Sim (fun st3 =>
        andThen (propsLoop f kvs false (schema.optionalProperties.getD [])
          (pushSchemaToken "optionalProperties" st3))
          (fun st4 =>
            (fun st5 =>
              if !schema.additionalProperties then
                extraLoop schema.properties schema.optionalProperties parentTag kvs st5
              else some (st5, none)) (popSchemaToken st4))) :=
      sim_seq (fun st => propsLoop f kvs false (schema.optionalProperties.getD []) st)
        (fun st5 =>
          if !schema.additionalProperties then
            extraLoop schema.properties schema.optionalProperties parentTag kvs st5
          else some (st5, none))
        (pushSchemaToken "optionalProperties") popSchemaToken
        (sim_propsLoop hs hp kvs false (schema.optionalProperties.getD []))
        (setEq_of_pres (pres_propsLoop hp kvs false (schema.optionalProperties.getD [])))
        innerSim innerMono
        (fun me st => rfl) (fun me st => rfl)
        (fun st => rfl) (fun st => rfl) (fun st => rfl) (fun st => rfl)
    have midMono : ErrMono (fun st3 =>
        andThen (propsLoop f kvs false (schema.optionalProperties.getD [])
          (pushSchemaToken "optionalProperties" st3))
          (fun st4 =>
            (fun st5 =>
              if !schema.additionalProperties then
                extraLoop schema.properties schema.optionalProperties parentTag kvs st5
              else some (st5, none)) (popSchemaToken st4))) :=
      errMono_seq (fun st => propsLoop f kvs false (schema.optionalProperties.getD []) st)
        (fun st5 =>
          if !schema.additionalProperties then
            extraLoop schema.properties schema.optionalProperties parentTag kvs st5
          else some (st5, none))
        (pushSchemaToken "optionalProperties") popSchemaToken
        (errMono_of_pres (pres_propsLoop hp kvs false (schema.optionalProperties.getD [])))
        innerMono (fun st => rfl) (fun st => rfl)
    exact sim_seq (fun st => propsLoop f kvs true (schema.properties.getD []) st)
      (fun st3 =>
        andThen (propsLoop f kvs false (schema.optionalProperties.getD [])
          (pushSchemaToken "optionalProperties" st3))
          (fun st4 =>
            (fun st5 =>
              if !schema.additionalProperties then
                extraLoop schema.properties schema.optionalProperties parentTag kvs st5
              else some (st5, none)) (popSchemaToken st4)))
      (pushSchemaToken "properties") popSchemaToken
      (sim_propsLoop hs hp kvs true (schema.properties.getD []))
      (setEq_of_pres (pres_propsLoop hp kvs true (schema.properties.getD [])))
      midSim midMono
      (fun me st => rfl) (fun me st => rfl)
      (fun st => rfl) (fun st => rfl) (fun st => rfl) (fun st => rfl)
  | null =>
    by_cases hps : schema.properties.isSome
    · exact sim_congr (fun st => by simp only [validatePropertiesStep, if_pos hps])
        (sim_errSchemaBracketS "properties")
    · exact sim_congr (fun st => by simp only [validatePropertiesStep, if_neg hps])
        (sim_errSchemaBracketS "optionalProperties")
  | bool b =>
    by_cases hps : schema.properties.isSome
    · exact sim_congr (fun st => by simp only [validatePropertiesStep, if_pos hps])
        (sim_errSchemaBracketS "properties")
    · exact sim_congr (fun st => by simp only [validatePropertiesStep, if_neg hps])
        (sim_errSchemaBracketS "optionalProperties")
  | num q =>
    by_cases hps : schema.properties.isSome
    · exact sim_congr (fun st => by simp only [validatePropertiesStep, if_pos hps])
        (sim_errSchemaBracketS "properties")
    · exact sim_congr (fun st => by simp only [validatePropertiesStep, if_neg hps])
        (sim_errSchemaBracketS "optionalProperties")
  | str s =>
    by_cases hps : schema.properties.isSome
    · exact sim_congr (fun st => by simp only [validatePropertiesStep, if_pos hps])
        (sim_errSchemaBracketS "properties")
    · exact sim_congr (fun st => by simp only [validatePropertiesStep, if_neg hps])
        (sim_errSchemaBracketS "optionalProperties")
  | arr xs =>
    by_cases hps : schema.properties.isSome
    · exact sim_congr (fun st => by simp only [validatePropertiesStep, if_pos hps])
        (sim_errSchemaBracketS "properties")
    · exact sim_congr (fun st => by simp only [validatePropertiesStep, if_neg hps])
        (sim_errSchemaBracketS "optionalProperties")

lemma sim_validateDiscriminatorStep {f : Schema → JsonVal → Option String → VState → Option VRes}
    (hs : ∀ s i pt, Sim (f s i pt)) (hp : ∀ s i pt, Pres (f s i pt))
    (schema : Schema) (inst : JsonVal) :
    Sim (validateDiscriminatorStep f schema inst) := by
  cases inst with
  | obj kvs =>
    cases htag : lookupKey kvs schema.discriminator with
    | some tag =>
      cases tag with
      | str tagStr =>
        cases hbr : lookupKey (schema.mapping.getD []) tagStr with
        | some branch =>
          refine sim_congr (fun st => ?_)
            (sim_seq (f branch (JsonVal.obj kvs) (some schema.discriminator))
              (fun s => some (s, none))
              (fun st => pushSchemaToken tagStr (pushSchemaToken "mapping" st))
              (fun st => popSchemaToken (popSchemaToken st))
              (hs branch (JsonVal.obj kvs) (some schema.discriminator))
              (setEq_of_pres (hp branch (JsonVal.obj kvs) (some schema.discriminator)))
              sim_idRet errMono_idRet
              (fun me st => rfl) (fun me st => rfl)
              (fun st => rfl) (fun st => rfl) (fun st => rfl) (fun st => rfl))
          simp only [validateDiscriminatorStep, htag, hbr]
          all_goals rfl
        | none =>
          exact sim_congr
            (fun st => by simp only [validateDiscriminatorStep, htag, hbr])
            (sim_errInstSchemaBracketS "mapping" schema.discriminator)
      | null =>
        exact sim_congr (fun st => by simp only [validateDiscriminatorStep, htag])
          (sim_errInstSchemaBracketS "discriminator" schema.discriminator)
      | bool b =>
        exact sim_congr (fun st => by simp only [validateDiscriminatorStep, htag])
          (sim_errInstSchemaBracketS "discriminator" schema.discriminator)
      | num q =>
        exact sim_congr (fun st => by simp only [validateDiscriminatorStep, htag])
          (sim_errInstSchemaBracketS "discriminator" schema.discriminator)
      | arr xs =>
        exact sim_congr (fun st => by simp only [validateDiscriminatorStep, htag])
          (sim_errInstSchemaBracketS "discriminator" schema.discriminator)
      | obj kvs2 =>
        exact sim_congr (fun st => by simp only [validateDiscriminatorStep, htag])
          (sim_errInstSchemaBracketS "discriminator" schema.discriminator)
    | none =>
      exact sim_congr (fun st => by simp only [validateDiscriminatorStep, htag])
        (sim_errSchemaBracketS "discriminator")
  | null => exact sim_errSchemaBracketS "discriminator"
  | bool b => exact sim_errSchemaBracketS "discriminator"
  | num q => exact sim_errSchemaBracketS "discriminator"
  | str s => exact sim_errSchemaBracketS "discriminator"
  | arr xs => exact sim_errSchemaBracketS "discriminator"

/-- The master simulation: a bounded run reproduces the unbounded run until
it reaches the limit, then stops with exactly the first MaxErrors
indicators. -/
lemma validate_sim (tsOk : String → Bool) :
    ∀ fuel s i pt, Sim (validate tsOk fuel s i pt) := by
  intro fuel
  induction fuel with
  | zero =>
    intro s i pt st me st1 e hz hlt h
    simp [validate] at h
  | succ n ih =>
    intro s i pt st me st1 e hz hlt h
    simp only [validate] at h
    by_cases hnull : (s.nullable && i.isNull) = true
    · rw [if_pos hnull] at h
      obtain ⟨h1, h2⟩ := Prod.mk.injEq _ _ _ _ ▸ Option.some.inj h
      left
      refine ⟨?_, by rw [← h1]; exact hlt⟩
      show validate tsOk (n + 1) s i pt (setME me st) = _
      simp only [validate]
      rw [if_pos hnull, ← h1, ← h2]
    · rw [if_neg hnull] at h
      cases hform : s.form with
      | empty =>
        simp only [hform] at h
        obtain ⟨h1, h2⟩ := Prod.mk.injEq _ _ _ _ ▸ Option.some.inj h
        left
        refine ⟨?_, by rw [← h1]; exact hlt⟩
        show validate tsOk (n + 1) s i pt (setME me st) = _
        simp only [validate]
        rw [if_neg hnull]
        simp only [hform]
        rw [← h1, ← h2]
      | ref =>
        simp only [hform] at h
        unfold validateRefStep at h
        by_cases hd : (st.schemaTokens.length : Int) = st.settings.maxDepth
        · rw [if_pos hd] at h
          obtain ⟨h1, h2⟩ := Prod.mk.injEq _ _ _ _ ▸ Option.some.inj h
          left
          refine ⟨?_, by rw [← h1]; exact hlt⟩
          show validate tsOk (n + 1) s i pt (setME me st) = _
          simp only [validate]
          rw [if_neg hnull]
          simp only [hform]
          unfold validateRefStep
          rw [if_pos (show ((setME me st).schemaTokens.length : Int) =
            (setME me st).settings.maxDepth by simpa using hd)]
          rw [← h1, ← h2]
        · rw [if_neg hd] at h
          have hseq : Sim (fun st2 => andThen
              (validate tsOk n (lookupDefinition st.root.definitions (s.ref.getD "")) i none
                (pushSchemaFrame [s.ref.getD "", "definitions"] st2))
              (fun st3 => some (popSchemaFrame st3, none))) :=
            sim_seq
              (validate tsOk n (lookupDefinition st.root.definitions (s.ref.getD "")) i none)
              (fun st3 => some (st3, none))
              (pushSchemaFrame [s.ref.getD "", "definitions"]) popSchemaFrame
              (ih (lookupDefinition st.root.definitions (s.ref.getD "")) i none)
              (setEq_of_pres (validate_pres tsOk n
                (lookupDefinition st.root.definitions (s.ref.getD "")) i none))
              sim_idRet errMono_idRet
              (fun me st => rfl) (fun me st => rfl)
              (fun st => rfl) (fun st => rfl) (fun st => rfl) (fun st => rfl)
          have hh : (fun st2 => andThen
              (validate tsOk n (lookupDefinition st.root.definitions (s.ref.getD "")) i none
                (pushSchemaFrame [s.ref.getD "", "definitions"] st2))
              (fun st3 => some (popSchemaFrame st3, none))) st = some (st1, e) := h
          rcases hseq st me st1 e hz hlt hh with ⟨hA, hB⟩ | ⟨stB, hA, hB, hC⟩
          · left
            refine ⟨?_, hB⟩
            show validate tsOk (n + 1) s i pt (setME me st) = _
            simp only [validate]
            rw [if_neg hnull]
            simp only [hform]
            unfold validateRefStep
            rw [if_neg (show ¬ (((setME me st).schemaTokens.length : Int) =
              (setME me st).settings.maxDepth) by simpa using hd)]
            exact hA
          · right
            refine ⟨stB, ?_, hB, hC⟩
            show validate tsOk (n + 1) s i pt (setME me st) = _
            simp only [validate]
            rw [if_neg hnull]
            simp only [hform]
            unfold validateRefStep
            rw [if_neg (show ¬ (((setME me st).schemaTokens.length : Int) =
              (setME me st).settings.maxDepth) by simpa using hd)]
            exact hA
      | type =>
        simp only [hform] at h
        rcases sim_validateTypeStep tsOk s.type i st me st1 e hz hlt h with
          ⟨hA, hB⟩ | ⟨stB, hA, hB, hC⟩
        · left
          refine ⟨?_, hB⟩
          show validate tsOk (n + 1) s i pt (setME me st) = _
          simp only [validate]
          rw [if_neg hnull]
          simp only [hform]
          exact hA
        · right
          refine ⟨stB, ?_, hB, hC⟩
          show validate tsOk (n + 1) s i pt (setME me st) = _
          simp only [validate]
          rw [if_neg hnull]
          simp only [hform]
          exact hA
      | enum =>
        simp only [hform] at h
        rcases sim_validateEnumStep (s.enum.getD []) i st me st1 e hz hlt h with
          ⟨hA, hB⟩ | ⟨stB, hA, hB, hC⟩
        · left
          refine ⟨?_, hB⟩
          show validate tsOk (n + 1) s i pt (setME me st) = _
          simp only [validate]
          rw [if_neg hnull]
          simp only [hform]
          exact hA
        · right
          refine ⟨stB, ?_, hB, hC⟩
          show validate tsOk (n + 1) s i pt (setME me st) = _
          simp only [validate]
          rw [if_neg hnull]
          simp only [hform]
          exact hA
      | elements =>
        simp only [hform] at h
        rcases sim_validateElementsStep
            (fun x => ih (s.elements.getD Schema.zeroValue) x none)
            (fun x => validate_pres tsOk n (s.elements.getD Schema.zeroValue) x none)
            i st me st1 e hz hlt h with
          ⟨hA, hB⟩ | ⟨stB, hA, hB, hC⟩
        · left
          refine ⟨?_, hB⟩
          show validate tsOk (n + 1) s i pt (setME me st) = _
          simp only [validate]
          rw [if_neg hnull]
          simp only [hform]
          exact hA
        · right
          refine ⟨stB, ?_, hB, hC⟩
          show validate tsOk (n + 1) s i pt (setME me st) = _
          simp only [validate]
          rw [if_neg hnull]
          simp only [hform]
          exact hA
      | properties =>
        simp only [hform] at h
        rcases sim_validatePropertiesStep
            (fun a b => ih a b none) (fun a b => validate_pres tsOk n a b none)
            s i pt st me st1 e hz hlt h with
          ⟨hA, hB⟩ | ⟨stB, hA, hB, hC⟩
        · left
          refine ⟨?_, hB⟩
          show validate tsOk (n + 1) s i pt (setME me st) = _
          simp only [validate]
          rw [if_neg hnull]
          simp only [hform]
          exact hA
        · right
          refine ⟨stB, ?_, hB, hC⟩
          show validate tsOk (n + 1) s i pt (setME me st) = _
          simp only [validate]
          rw [if_neg hnull]
          simp only [hform]
          exact hA
      | values =>
        simp only [hform] at h
        rcases sim_validateValuesStep
            (fun x => ih (s.values.getD Schema.zeroValue) x none)
            (fun x => validate_pres tsOk n (s.values.getD Schema.zeroValue) x none)
            i st me st1 e hz hlt h with
          ⟨hA, hB⟩ | ⟨stB, hA, hB, hC⟩
        · left
          refine ⟨?_, hB⟩
          show validate tsOk (n + 1) s i pt (setME me st) = _
          simp only [validate]
          rw [if_neg hnull]
          simp only [hform]
          exact hA
        · right
          refine ⟨stB, ?_, hB, hC⟩
          show validate tsOk (n + 1) s i pt (setME me st) = _
          simp only [validate]
          rw [if_neg hnull]
          simp only [hform]
          exact hA
      | discriminator =>
        simp only [hform] at h
        rcases sim_validateDiscriminatorStep
            (fun a b c => ih a b c) (fun a b c => validate_pres tsOk n a b c)
            s i st me st1 e hz hlt h with
          ⟨hA, hB⟩ | ⟨stB, hA, hB, hC⟩
        · left
          refine ⟨?_, hB⟩
          show validate tsOk (n + 1) s i pt (setME me st) = _
          simp only [validate]
          rw [if_neg hnull]
          simp only [hform]
          exact hA
        · right
          refine ⟨stB, ?_, hB, hC⟩
          show validate tsOk (n + 1) s i pt (setME me st) = _
          simp only [validate]
          rw [if_neg hnull]
          simp only [hform]
          exact hA


/-! ### Support for the claim theorems: example data and helper lemmas -/

/-- The schemas occurring directly inside a schema (its definitions,
elements, properties, optionalProperties, values and mapping entries). -/
def Schema.childSchemas (s : Schema) : List Schema :=
  (s.definitions.getD []).map Prod.snd ++
  s.elements.toList ++
  (s.properties.getD []).map Prod.snd ++
  (s.optionalProperties.getD []).map Prod.snd ++
  s.values.toList ++
  (s.mapping.getD []).map Prod.snd

/-- The form function exactly as the specification words it: the first
matching tag in precedence order, Properties when either properties or
optionalProperties is present, Discriminator when mapping is present,
otherwise Empty; stated over the same keyword-presence tests. -/
def formSpec (s : Schema) : Form :=
  if s.ref.isSome then .ref
  else if s.type ≠ "" then .type
  else if s.enum.isSome then .enum
  else if s.elements.isSome then .elements
  else if s.properties.isSome ∨ s.optionalProperties.isSome then .properties
  else if s.values.isSome then .values
  else if s.mapping.isSome then .discriminator
  else .empty

/-- A schema whose only set keyword is additionalProperties: its signature
matches no row of validForms. -/
def badChild : Schema :=
  .mk none none false none "" none none none none true none "" none

/-- An elements-form schema whose element schema is badChild: its own
signature is admissible, the nested one is not. -/
def elemParent : Schema :=
  .mk none none false none "" none (some badChild) none none false none "" none

/-- A bare ref-form schema pointing at the definition named "a". -/
def refLeaf : Schema :=
  .mk none none false (some "a") "" none none none none false none "" none

/-- A root schema defining "a" and itself referring to it. -/
def refRoot : Schema :=
  .mk (some [("a", refLeaf)]) none false (some "a") "" none none none none false none "" none

/-- A properties-form schema with an empty properties map. -/
def propBranch : Schema :=
  .mk none none false none "" none none (some []) none false none "" none

/-- A discriminator-form schema: discriminator "disc", one mapping branch. -/
def discSchema : Schema :=
  .mk none none false none "" none none none none false none "disc" (some [("a", propBranch)])

/-- The state validate leaves behind when discSchema meets an object with
no "disc" key, starting from the initial state. -/
def stOutC4 : VState :=
  { errors := [{ instancePath := [], schemaPath := ["discriminator"] }]
    instanceTokens := []
    schemaTokens := [[]]
    root := discSchema
    settings := { maxDepth := 0, maxErrors := 0 } }

/-- The error-emitting bracket common to the validator's failure arms:
push tokens, push one error, restore tokens when no sentinel fired.  The
final error list extends the entry list by exactly the snapshot. -/
lemma errBracket_errors {X : VState} {k : VState → VState}
    {st1 : VState} {e : Option VErr}
    (h : andThen (some (pushError X)) (fun y => some (k y, none)) = some (st1, e))
    (hk : ∀ y, (k y).errors = y.errors) :
    st1.errors = X.errors ++ [snapErr X] := by
  rcases hE : pushError X with ⟨X1, e1⟩
  have h2 : (pushError X).1 = X1 := by rw [hE]
  have hX1 : X1.errors = X.errors ++ [snapErr X] := by
    rw [← h2, pushError_fst]
  rw [hE] at h
  cases e1 with
  | none =>
    have h3 : some (k X1, (none : Option VErr)) = some (st1, e) := h
    simp only [Option.some.injEq, Prod.mk.injEq] at h3
    rw [← h3.1, hk, hX1]
  | some er =>
    have h3 : some (X1, some er) = some (st1, e) := h
    simp only [Option.some.injEq, Prod.mk.injEq] at h3
    rw [← h3.1, hX1]

/-- Inverting Go's fail-fast sequencing. -/
lemma seqE_eq_some {e : SchemaErr} {a : Option SchemaErr} {b : Unit → Option SchemaErr}
    (h : seqE a b = some e) : a = some e ∨ (a = none ∧ b () = some e) := by
  cases a with
  | none => exact Or.inr ⟨rfl, h⟩
  | some x =>
    left
    have : some x = some e := h
    rw [this]

lemma checkList_none (root : Schema) :
    ∀ l : List (String × Schema), (∀ kp ∈ l, validateWithRoot false root kp.2 = none) →
      checkList root l = none := by
  intro l
  induction l with
  | nil => intro h; simp [checkList]
  | cons kp rest ih =>
    intro h
    obtain ⟨k, p⟩ := kp
    have h1 := h (k, p) (List.mem_cons_self _ _)
    have h2 := ih (fun kp hk => h kp (List.mem_cons_of_mem _ hk))
    simp [checkList, seqE, h1, h2]

lemma checkProps_no_invalidForm (root : Schema) (opts : Option (List (String × Schema))) :
    ∀ l : List (String × Schema), (∀ kp ∈ l, validateWithRoot false root kp.2 = none) →
      checkProps root opts l ≠ some SchemaErr.invalidForm := by
  intro l
  induction l with
  | nil => intro h; simp [checkProps]
  | cons kp rest ih =>
    intro h
    obtain ⟨k, p⟩ := kp
    have h1 := h (k, p) (List.mem_cons_self _ _)
    have h2 := ih (fun kp hk => h kp (List.mem_cons_of_mem _ hk))
    cases opts with
    | none => simp [checkProps, seqE, h1]; exact h2
    | some lo =>
      by_cases hk : hasKey lo k
      · simp [checkProps, seqE, h1, hk]
      · simp [checkProps, seqE, h1, hk]; exact h2

lemma checkMapping_no_invalidForm (root : Schema) (disc : String) :
    ∀ l : List (String × Schema), (∀ kp ∈ l, validateWithRoot false root kp.2 = none) →
      checkMapping root disc l ≠ some SchemaErr.invalidForm := by
  intro l
  induction l with
  | nil => intro h; simp [checkMapping]
  | cons kp rest ih =>
    intro h
    obtain ⟨k, m⟩ := kp
    have h1 := h (k, m) (List.mem_cons_self _ _)
    have h2 := ih (fun kp hk => h kp (List.mem_cons_of_mem _ hk))
    by_cases hf : m.form ≠ Form.properties
    · simp [checkMapping, seqE, h1, hf]
    · by_cases hp : hasKey (m.properties.getD []) disc
      · simp [checkMapping, seqE, h1, hf, hp]
      · by_cases ho : hasKey (m.optionalProperties.getD []) disc
        · simp [checkMapping, seqE, h1, hf, hp, ho]
        · by_cases hn : m.nullable
          · simp [checkMapping, seqE, h1, hf, hp, ho, hn]
          · simp [checkMapping, seqE, h1, hf, hp, ho, hn]; exact h2

lemma refCheck_no_invalidForm (root : Schema) (r : Option String) :
    refCheck root r ≠ some SchemaErr.invalidForm := by
  cases r with
  | none => simp [refCheck]
  | some name =>
    cases hd : root.definitions with
    | none => simp [refCheck, hd]
    | some l =>
      by_cases hk : hasKey l name <;> simp [refCheck, hd, hk]

lemma typeCheck_no_invalidForm (ty : String) :
    typeCheck ty ≠ some SchemaErr.invalidForm := by
  by_cases h0 : ty = ""
  · simp [typeCheck, h0]
  · by_cases hv : validTypes.contains ty <;> simp [typeCheck, h0, hv]

lemma enumCheck_no_invalidForm (en : Option (List String)) :
    enumCheck en ≠ some SchemaErr.invalidForm := by
  cases en with
  | none => simp [enumCheck]
  | some l =>
    by_cases h0 : l.length = 0
    · simp [enumCheck, h0]
    · by_cases hd : hasDup l <;> simp [enumCheck, h0, hd]


/-- ValidateWithRoot with the termination-tracking matches replaced by
plain ones: the shape the inversion lemmas work over. -/
lemma validateWithRoot_unfold (isRoot : Bool) (root s : Schema) :
    validateWithRoot isRoot root s =
      if validForms.contains (formSignature s) = false then some SchemaErr.invalidForm
      else if s.definitions.isSome && !isRoot then some SchemaErr.nonRootDefinition
      else
        seqE (match s.definitions with
              | some l => checkList root l
              | none => none) (fun _ =>
        seqE (refCheck root s.ref) (fun _ =>
        seqE (typeCheck s.type) (fun _ =>
        seqE (enumCheck s.enum) (fun _ =>
        seqE (match s.elements with
              | some e => validateWithRoot false root e
              | none => none) (fun _ =>
        seqE (match s.properties with
              | some l => checkProps root s.optionalProperties l
              | none => none) (fun _ =>
        seqE (match s.optionalProperties with
              | some l => checkList root l
              | none => none) (fun _ =>
        seqE (match s.values with
              | some v => validateWithRoot false root v
              | none => none) (fun _ =>
        (match s.mapping with
         | some l => checkMapping root s.discriminator l
         | none => none))))))))) := by
  conv_lhs => rw [validateWithRoot]
  cases hd : s.definitions <;> cases hel : s.elements <;> cases hp : s.properties <;>
    cases hop : s.optionalProperties <;> cases hv : s.values <;> cases hm : s.mapping <;>
      simp


/-! ### The claim theorems -/

/-- C7: Schema.Form() is total and returns the first matching tag in the
precedence order Ref, Type, Enum, Elements, Properties (either properties
or optionalProperties), Values, Discriminator (mapping present), else
Empty, exactly as the specification words it; and the fields definitions,
metadata and nullable never affect the result. -/
theorem spec_C7 :
    (∀ s : Schema, Schema.form s = formSpec s) ∧
    (∀ (d d2 : Option (List (String × Schema))) (md md2 : Option (List (String × JsonVal)))
      (nb nb2 : Bool) (r : Option String) (t : String) (e : Option (List String))
      (el : Option Schema) (p op : Option (List (String × Schema))) (a : Bool)
      (v : Option Schema) (di : String) (m : Option (List (String × Schema))),
      Schema.form (Schema.mk d md nb r t e el p op a v di m) =
        Schema.form (Schema.mk d2 md2 nb2 r t e el p op a v di m)) :=
  ⟨fun _ => rfl, fun _ _ _ _ _ _ _ _ _ _ _ _ _ _ _ _ => rfl⟩

/-- C8: for every schema with nullable set and every settings value,
validating the JSON null instance short-circuits to success with no error
indicators and no fatal error, whatever the schema form (a Ref-form schema
follows no ref and performs no depth check). -/
theorem spec_C8 (tsOk : String → Bool) (n : Nat) (s : Schema) (pt : Option String)
    (st : VState) (settings : ValidateSettings) (h : s.nullable = true) :
    validate tsOk (n + 1) s JsonVal.null pt st = some (st, none) ∧
    ValidateWithSettings tsOk (n + 1) settings s JsonVal.null = some (some [], none) := by
  have hgen : ∀ (pt2 : Option String) (st2 : VState),
      validate tsOk (n + 1) s JsonVal.null pt2 st2 = some (st2, none) := by
    intro pt2 st2
    simp only [validate]
    rw [if_pos (show (s.nullable && (JsonVal.null).isNull) = true by
      simp [h, JsonVal.isNull])]
  refine ⟨hgen pt st, ?_⟩
  unfold ValidateWithSettings
  rw [hgen none (initState settings s)]
  rfl

/-- C8 witness: a nullable empty-form schema accepts null with settings
(3, 5). -/
theorem spec_C8_witness :
    validate (fun _ => false) 1 (Schema.mk none none true none "" none none none none false none "" none)
      JsonVal.null none (initState { maxDepth := 3, maxErrors := 5 }
        (Schema.mk none none true none "" none none none none false none "" none)) =
      some (initState { maxDepth := 3, maxErrors := 5 }
        (Schema.mk none none true none "" none none none none false none "" none), none) ∧
    ValidateWithSettings (fun _ => false) 1 { maxDepth := 3, maxErrors := 5 }
      (Schema.mk none none true none "" none none none none false none "" none)
      JsonVal.null = some (some [], none) :=
  spec_C8 (fun _ => false) 0
    (Schema.mk none none true none "" none none none none false none "" none)
    none _ { maxDepth := 3, maxErrors := 5 } (by rfl)

/-- C9: the path-stack balance invariant.  Whenever the internal validate
returns a nil error, the instance-token stack and the schema-frame stack
(hence the frame count and the top frame) are restored to their entry
values, and root and settings are untouched; and each pushed indicator
snapshots exactly the tokens pushed so far (both stacks in Go order). -/
theorem spec_C9 (tsOk : String → Bool) (fuel : Nat) (s : Schema) (i : JsonVal)
    (pt : Option String) (st st1 : VState)
    (h : validate tsOk fuel s i pt st = some (st1, none)) :
    (st1.instanceTokens = st.instanceTokens ∧ st1.schemaTokens = st.schemaTokens ∧
      st1.root = st.root ∧ st1.settings = st.settings) ∧
    (pushError st).1.errors = st.errors ++
      [{ instancePath := st.instanceTokens.reverse,
         schemaPath := (st.schemaTokens.headD []).reverse }] := by
  have hp := validate_pres tsOk fuel s i pt st st1 none h
  obtain ⟨hi, hs⟩ := hp.on_success rfl
  refine ⟨⟨hi, hs, hp.root_eq, hp.settings_eq⟩, ?_⟩
  rw [pushError_fst]
  rfl

/-- C9 witness: the empty-form run on null restores the initial stacks and
the snapshot of the initial state is the root-path indicator. -/
theorem spec_C9_witness :
    (pushError (initState { maxDepth := 0, maxErrors := 0 } Schema.zeroValue)).1.errors =
      [] ++ [{ instancePath := [], schemaPath := [] }] :=
  (spec_C9 (fun _ => true) 1 Schema.zeroValue JsonVal.null none
    (initState { maxDepth := 0, maxErrors := 0 } Schema.zeroValue)
    (initState { maxDepth := 0, maxErrors := 0 } Schema.zeroValue) (by rfl)).2

/-- C10: whenever ValidateWithSettings or Validate reports the fatal
ErrMaxDepthExceeded, the returned indicator slice is the nil slice: errors
collected before the limit was hit are discarded. -/
theorem spec_C10 (tsOk : String → Bool) (fuel : Nat) :
    (∀ (settings : ValidateSettings) (s : Schema) (i : JsonVal)
      (r : Option (List ValidateError)),
      ValidateWithSettings tsOk fuel settings s i = some (r, some VErr.maxDepthExceeded) →
      r = none) ∧
    (∀ (opts : List (ValidateSettings → ValidateSettings)) (s : Schema) (i : JsonVal)
      (r : Option (List ValidateError)),
      Validate tsOk fuel s i opts = some (r, some VErr.maxDepthExceeded) → r = none) := by
  have key : ∀ (settings : ValidateSettings) (s : Schema) (i : JsonVal)
      (r : Option (List ValidateError)),
      ValidateWithSettings tsOk fuel settings s i = some (r, some VErr.maxDepthExceeded) →
      r = none := by
    intro settings s i r h
    unfold ValidateWithSettings at h
    cases hv : validate tsOk fuel s i none (initState settings s) with
    | none => rw [hv] at h; exact absurd h (by simp)
    | some p =>
      obtain ⟨st, e⟩ := p
      rw [hv] at h
      cases e with
      | none =>
        have h2 : some (some st.errors, (none : Option VErr)) =
            some (r, some VErr.maxDepthExceeded) := h
        simp at h2
      | some er =>
        cases er with
        | maxErrorsReached =>
          have h2 : some (some st.errors, (none : Option VErr)) =
              some (r, some VErr.maxDepthExceeded) := h
          simp at h2
        | maxDepthExceeded =>
          have h2 : some ((none : Option (List ValidateError)), some VErr.maxDepthExceeded) =
              some (r, some VErr.maxDepthExceeded) := h
          simp only [Option.some.injEq, Prod.mk.injEq] at h2
          exact h2.1.symm
  exact ⟨key, fun opts s i r h => key _ s i r h⟩

/-- C10 witness: a self-referential root under maxDepth 1 hits the limit
immediately and returns the nil slice. -/
theorem spec_C10_witness : (none : Option (List ValidateError)) = none :=
  (spec_C10 (fun _ => true) 1).1 { maxDepth := 1, maxErrors := 0 } refRoot
    (JsonVal.bool true) none (by rfl)

/-- C1: a ref-form schema (outside the null short-circuit) fails with
MaxDepthExceeded leaving the state untouched exactly when the frame count
at the moment the ref is about to be followed equals maxDepth; and with
maxDepth zero the limit is disabled: validate never returns
MaxDepthExceeded, for every schema, instance, parent tag and maxErrors
setting. -/
theorem spec_C1 (tsOk : String → Bool) :
    (∀ (n : Nat) (s : Schema) (i : JsonVal) (pt : Option String) (st : VState),
      s.form = Form.ref → (s.nullable && i.isNull) = false →
      st.settings.maxDepth ≠ 0 →
      (validate tsOk (n + 1) s i pt st = some (st, some VErr.maxDepthExceeded) ↔
        (st.schemaTokens.length : Int) = st.settings.maxDepth)) ∧
    (∀ (fuel : Nat) (s : Schema) (i : JsonVal) (pt : Option String) (st st1 : VState)
      (e : Option VErr), st.settings.maxDepth = 0 → 0 < st.schemaTokens.length →
      validate tsOk fuel s i pt st = some (st1, e) → e ≠ some VErr.maxDepthExceeded) := by
  constructor
  · intro n s i pt st hform hnull hmd
    constructor
    · intro h
      by_contra hne
      simp only [validate] at h
      rw [if_neg (by simp [hnull])] at h
      simp only [hform] at h
      unfold validateRefStep at h
      rw [if_neg hne] at h
      have h3 : andThen (validate tsOk n (lookupDefinition st.root.definitions (s.ref.getD ""))
          i none (pushSchemaFrame [s.ref.getD "", "definitions"] st))
          (fun y => some (popSchemaFrame y, none)) =
          some (st, some VErr.maxDepthExceeded) := h
      cases hv : validate tsOk n (lookupDefinition st.root.definitions (s.ref.getD "")) i
          none (pushSchemaFrame [s.ref.getD "", "definitions"] st) with
      | none => rw [hv] at h3; exact absurd h3 (by simp [andThen])
      | some p =>
        obtain ⟨stm, em⟩ := p
        rw [hv] at h3
        cases em with
        | none =>
          have h2 : some (popSchemaFrame stm, (none : Option VErr)) =
              some (st, some VErr.maxDepthExceeded) := h3
          simp at h2
        | some er =>
          have h2 : some (stm, some er) = some (st, some VErr.maxDepthExceeded) := h3
          simp only [Option.some.injEq, Prod.mk.injEq] at h2
          have hle := (validate_pres tsOk n _ i none _ _ _ hv).frames_le
          rw [h2.1] at hle
          simp [pushSchemaFrame] at hle
    · intro hd
      simp only [validate]
      rw [if_neg (by simp [hnull])]
      simp only [hform]
      unfold validateRefStep
      rw [if_pos hd]
  · intro fuel s i pt st st1 e hmd hl h
    exact validate_noMde tsOk fuel s i pt st st1 e hl hmd h

/-- C1 witness: refRoot under maxDepth 1 trips the depth check at the
root ref, where the single initial frame equals the limit. -/
theorem spec_C1_witness :
    validate (fun _ => true) 1 refRoot (JsonVal.bool true) none
      (initState { maxDepth := 1, maxErrors := 0 } refRoot) =
    some (initState { maxDepth := 1, maxErrors := 0 } refRoot, some VErr.maxDepthExceeded) :=
  ((spec_C1 (fun _ => true)).1 0 refRoot (JsonVal.bool true) none
    (initState { maxDepth := 1, maxErrors := 0 } refRoot)
    (by rfl) (by rfl) (by decide)).mpr (by decide)


/-- C2: with maxErrors positive, ValidateWithSettings returns at most
maxErrors indicators and never lets the internal max-errors sentinel reach
the caller; and whenever the unbounded (maxErrors = 0) run succeeds, the
bounded run succeeds with exactly the first maxErrors indicators of the
unbounded run (the whole list when it is shorter). -/
theorem spec_C2 (tsOk : String → Bool) (fuel : Nat) (md me : Int) (schema : Schema)
    (inst : JsonVal) (hme : 0 < me) :
    (∀ (r : Option (List ValidateError)) (eOut : Option VErr),
      ValidateWithSettings tsOk fuel { maxDepth := md, maxErrors := me } schema inst =
        some (r, eOut) →
      eOut ≠ some VErr.maxErrorsReached ∧ ∀ l, r = some l → (l.length : Int) ≤ me) ∧
    (∀ errsU : List ValidateError,
      ValidateWithSettings tsOk fuel { maxDepth := md, maxErrors := 0 } schema inst =
        some (some errsU, none) →
      ValidateWithSettings tsOk fuel { maxDepth := md, maxErrors := me } schema inst =
        some (some (errsU.take me.toNat), none)) := by
  constructor
  · intro r eOut h
    unfold ValidateWithSettings at h
    cases hv : validate tsOk fuel schema inst none
        (initState { maxDepth := md, maxErrors := me } schema) with
    | none => rw [hv] at h; exact absurd h (by simp)
    | some p =>
      obtain ⟨st, e⟩ := p
      rw [hv] at h
      have hb := validate_errB tsOk fuel schema inst none
        (initState { maxDepth := md, maxErrors := me } schema) st e
        (by simpa [initState] using hme) hv
      cases e with
      | none =>
        have h2 : some (some st.errors, (none : Option VErr)) = some (r, eOut) := h
        simp only [Option.some.injEq, Prod.mk.injEq] at h2
        constructor
        · rw [← h2.2]; simp
        · intro l hl
          rw [← h2.1] at hl
          have hle : st.errors = l := Option.some.inj hl
          rcases hb with ⟨hlt2, _⟩ | ⟨_, hfalse⟩
          · rw [← hle]
            have := le_of_lt hlt2
            simpa [initState] using this
          · exact absurd hfalse (by simp)
      | some er =>
        by_cases hs : er = VErr.maxErrorsReached
        · subst hs
          have h2 : some (some st.errors, (none : Option VErr)) = some (r, eOut) := h
          simp only [Option.some.injEq, Prod.mk.injEq] at h2
          constructor
          · rw [← h2.2]; simp
          · intro l hl
            rw [← h2.1] at hl
            have hle : st.errors = l := Option.some.inj hl
            rcases hb with ⟨_, hne⟩ | ⟨heq, _⟩
            · exact absurd rfl hne
            · rw [← hle]
              exact le_of_eq (by simpa [initState] using heq)
        · have h2 : (if er = VErr.maxErrorsReached then some (some st.errors, (none : Option VErr))
              else some ((none : Option (List ValidateError)), some er)) = some (r, eOut) := h
          rw [if_neg hs] at h2
          simp only [Option.some.injEq, Prod.mk.injEq] at h2
          constructor
          · rw [← h2.2]
            simp [hs]
          · intro l hl
            rw [← h2.1] at hl
            exact absurd hl (by simp)
  · intro errsU hU
    unfold ValidateWithSettings at hU
    cases hv : validate tsOk fuel schema inst none
        (initState { maxDepth := md, maxErrors := 0 } schema) with
    | none => rw [hv] at hU; exact absurd hU (by simp)
    | some p =>
      obtain ⟨st0, e0⟩ := p
      rw [hv] at hU
      have hsim := validate_sim tsOk fuel schema inst none
        (initState { maxDepth := md, maxErrors := 0 } schema) me st0 e0 (by rfl)
        (by simpa [initState] using hme) hv
      have hset : setME me (initState { maxDepth := md, maxErrors := 0 } schema) =
          initState { maxDepth := md, maxErrors := me } schema := rfl
      cases e0 with
      | none =>
        have h2 : some (some st0.errors, (none : Option VErr)) = some (some errsU, none) := hU
        simp only [Option.some.injEq, Prod.mk.injEq] at h2
        have herr : st0.errors = errsU := h2.1
        rcases hsim with ⟨hA, hB⟩ | ⟨stB, hA, hB, hC⟩
        · rw [hset] at hA
          unfold ValidateWithSettings
          rw [hA]
          have htake : errsU.take me.toNat = errsU := by
            apply List.take_of_length_le
            rw [← herr]
            omega
          rw [htake, ← herr]
          rfl
        · rw [hset] at hA
          unfold ValidateWithSettings
          rw [hA]
          show some (some stB.errors, (none : Option VErr)) =
            some (some (errsU.take me.toNat), none)
          rw [hB, herr]
      | some er =>
        by_cases hs : er = VErr.maxErrorsReached
        · subst hs
          have h2 : some (some st0.errors, (none : Option VErr)) = some (some errsU, none) := hU
          simp only [Option.some.injEq, Prod.mk.injEq] at h2
          have herr : st0.errors = errsU := h2.1
          rcases hsim with ⟨hA, hB⟩ | ⟨stB, hA, hB, hC⟩
          · rw [hset] at hA
            unfold ValidateWithSettings
            rw [hA]
            have htake : errsU.take me.toNat = errsU := by
              apply List.take_of_length_le
              rw [← herr]
              omega
            rw [htake, ← herr]
            rfl
          · rw [hset] at hA
            unfold ValidateWithSettings
            rw [hA]
            show some (some stB.errors, (none : Option VErr)) =
              some (some (errsU.take me.toNat), none)
            rw [hB, herr]
        · have h2 : (if er = VErr.maxErrorsReached then some (some st0.errors, (none : Option VErr))
              else some ((none : Option (List ValidateError)), some er)) =
              some (some errsU, none) := hU
          rw [if_neg hs] at h2
          simp at h2

/-- C2 witness: the empty-form schema on null, bounded at one error,
returns the (empty) prefix of the unbounded run. -/
theorem spec_C2_witness :
    ValidateWithSettings (fun _ => true) 1 { maxDepth := 0, maxErrors := 1 }
      Schema.zeroValue JsonVal.null =
    some (some (([] : List ValidateError).take (1 : Int).toNat), none) :=
  (spec_C2 (fun _ => true) 1 0 1 Schema.zeroValue JsonVal.null (by decide)).2 [] (by rfl)


/-- The int-width branches of the type switch: acceptance is exactly
integer-valued and in range, and any failure appends exactly one
indicator whose schema path ends in "type". -/
lemma typeStep_range {tsOk : String → Bool} {ty : String} {lo hi : Rat}
    (hsw : ∀ (i2 : JsonVal) (st2 : VState),
      typeSwitch tsOk ty i2 st2 = validateInt i2 lo hi st2)
    (inst : JsonVal) (st : VState) (hfr : st.schemaTokens ≠ []) :
    (validateTypeStep tsOk ty inst st = some (st, none) ↔
      ∃ q : Rat, inst = JsonVal.num q ∧ q.den = 1 ∧ lo ≤ q ∧ q ≤ hi) ∧
    ((¬ ∃ q : Rat, inst = JsonVal.num q ∧ q.den = 1 ∧ lo ≤ q ∧ q ≤ hi) →
      ∀ st1 e, validateTypeStep tsOk ty inst st = some (st1, e) →
        st1.errors = st.errors ++
          [{ instancePath := st.instanceTokens.reverse,
             schemaPath := (st.schemaTokens.headD []).reverse ++ ["type"] }]) := by
  obtain ⟨fr, frs, hst⟩ := List.exists_cons_of_ne_nil hfr
  have hstep : ∀ st2, validateTypeStep tsOk ty inst st2 =
      andThen (some (validateInt inst lo hi (pushSchemaToken "type" st2)))
        (fun y => some (popSchemaToken y, none)) := by
    intro st2
    show andThen (some (typeSwitch tsOk ty inst (pushSchemaToken "type" st2)))
      (fun y => some (popSchemaToken y, none)) = _
    rw [hsw]
  have hfail : (¬ ∃ q : Rat, inst = JsonVal.num q ∧ q.den = 1 ∧ lo ≤ q ∧ q ≤ hi) →
      ∀ st1 e, validateTypeStep tsOk ty inst st = some (st1, e) →
        st1.errors = st.errors ++
          [{ instancePath := st.instanceTokens.reverse,
             schemaPath := (st.schemaTokens.headD []).reverse ++ ["type"] }] := by
    intro hne st1 e h
    rw [hstep] at h
    cases inst with
    | num q =>
      by_cases hc : q.den ≠ 1 ∨ q < lo ∨ q > hi
      · rw [show validateInt (JsonVal.num q) lo hi (pushSchemaToken "type" st) =
            pushError (pushSchemaToken "type" st) from by
          simp only [validateInt]; rw [if_pos hc]] at h
        rw [errBracket_errors h (fun y => by simp)]
        simp [snapErr, pushSchemaToken, pushTok, hst]
      · push_neg at hc
        exact absurd ⟨q, rfl, hc.1, hc.2.1, hc.2.2⟩ hne
    | null =>
      rw [show validateInt JsonVal.null lo hi (pushSchemaToken "type" st) =
          pushError (pushSchemaToken "type" st) from rfl] at h
      rw [errBracket_errors h (fun y => by simp)]
      simp [snapErr, pushSchemaToken, pushTok, hst]
    | bool b =>
      rw [show validateInt (JsonVal.bool b) lo hi (pushSchemaToken "type" st) =
          pushError (pushSchemaToken "type" st) from rfl] at h
      rw [errBracket_errors h (fun y => by simp)]
      simp [snapErr, pushSchemaToken, pushTok, hst]
    | str s2 =>
      rw [show validateInt (JsonVal.str s2) lo hi (pushSchemaToken "type" st) =
          pushError (pushSchemaToken "type" st) from rfl] at h
      rw [errBracket_errors h (fun y => by simp)]
      simp [snapErr, pushSchemaToken, pushTok, hst]
    | arr xs =>
      rw [show validateInt (JsonVal.arr xs) lo hi (pushSchemaToken "type" st) =
          pushError (pushSchemaToken "type" st) from rfl] at h
      rw [errBracket_errors h (fun y => by simp)]
      simp [snapErr, pushSchemaToken, pushTok, hst]
    | obj kvs =>
      rw [show validateInt (JsonVal.obj kvs) lo hi (pushSchemaToken "type" st) =
          pushError (pushSchemaToken "type" st) from rfl] at h
      rw [errBracket_errors h (fun y => by simp)]
      simp [snapErr, pushSchemaToken, pushTok, hst]
  refine ⟨⟨?_, ?_⟩, hfail⟩
  · intro h
    by_contra hne
    have h2 := hfail hne st none h
    have h3 : st.errors = st.errors ++
        [{ instancePath := st.instanceTokens.reverse,
           schemaPath := (st.schemaTokens.headD []).reverse ++ ["type"] }] := h2
    simp at h3
  · rintro ⟨q, rfl, hden, hlo, hhi⟩
    rw [hstep]
    rw [show validateInt (JsonVal.num q) lo hi (pushSchemaToken "type" st) =
        (pushSchemaToken "type" st, none) from by
      simp only [validateInt]
      rw [if_neg (by push_neg; exact ⟨hden, hlo, hhi⟩)]]
    show some (popSchemaToken (pushSchemaToken "type" st), none) = some (st, none)
    simp

/-- C6: for the six bounded integer types, a Type-form schema dispatches
to the type switch, which accepts exactly the JSON numbers that are
mathematically integers inside the named inclusive range, and otherwise
appends exactly one indicator whose schema path ends in "type". -/
theorem spec_C6 (tsOk : String → Bool) (ty : String) (lo hi : Rat)
    (hty : (ty, lo, hi) ∈ ([("int8", (-128 : Rat), (127 : Rat)),
      ("uint8", 0, 255), ("int16", -32768, 32767), ("uint16", 0, 65535),
      ("int32", -2147483648, 2147483647), ("uint32", 0, 4294967295)] :
        List (String × Rat × Rat)))
    (inst : JsonVal) (st : VState) (hfr : st.schemaTokens ≠ []) :
    (∀ (n : Nat) (s : Schema) (pt : Option String),
      s.form = Form.type → s.type = ty → (s.nullable && inst.isNull) = false →
      validate tsOk (n + 1) s inst pt st = validateTypeStep tsOk ty inst st) ∧
    (validateTypeStep tsOk ty inst st = some (st, none) ↔
      ∃ q : Rat, inst = JsonVal.num q ∧ q.den = 1 ∧ lo ≤ q ∧ q ≤ hi) ∧
    ((¬ ∃ q : Rat, inst = JsonVal.num q ∧ q.den = 1 ∧ lo ≤ q ∧ q ≤ hi) →
      ∀ st1 e, validateTypeStep tsOk ty inst st = some (st1, e) →
        st1.errors = st.errors ++
          [{ instancePath := st.instanceTokens.reverse,
             schemaPath := (st.schemaTokens.headD []).reverse ++ ["type"] }]) := by
  refine ⟨?_, ?_⟩
  · intro n s pt h1 h2 h3
    simp only [validate]
    rw [if_neg (by simp [h3])]
    simp only [h1]
    rw [h2]
  · simp only [List.mem_cons, List.not_mem_nil, or_false] at hty
    rcases hty with h | h | h | h | h | h <;>
      (simp only [Prod.mk.injEq] at h
       obtain ⟨rfl, rfl, rfl⟩ := h
       refine typeStep_range ?_ inst st hfr
       intro i2 st2
       rfl)

/-- C6 witness: uint8 rejects 300 with a single "type" indicator and
accepts 42. -/
theorem spec_C6_witness :
    validateTypeStep (fun _ => true) "uint8" (JsonVal.num 42)
      (initState { maxDepth := 0, maxErrors := 0 } Schema.zeroValue) =
    some (initState { maxDepth := 0, maxErrors := 0 } Schema.zeroValue, none) :=
  ((spec_C6 (fun _ => true) "uint8" 0 255 (by simp) (JsonVal.num 42)
    (initState { maxDepth := 0, maxErrors := 0 } Schema.zeroValue)
    (by simp [initState])).2.1).mpr ⟨42, rfl, by decide, by decide, by decide⟩

/-- C4: in the Discriminator form the three failure arms emit exactly one
indicator — key absent: schema path extended by "discriminator", instance
path unchanged; tag not a string: schema path by "discriminator", instance
path by the discriminator key; tag unmapped: schema path by "mapping",
instance path by the discriminator key — and a mapped tag recurses into
the branch with the parent tag set to the discriminator key, which the
Properties extra-key sweep skips, while the properties recursion passes a
cleared (none) parent tag to every child. -/
theorem spec_C4 (tsOk : String → Bool) (n : Nat) (s : Schema)
    (kvs : List (String × JsonVal)) (pt : Option String) (st : VState)
    (hform : s.form = Form.discriminator) (hfr : st.schemaTokens ≠ []) :
    (lookupKey kvs s.discriminator = none →
      ∀ st1 e, validate tsOk (n + 1) s (JsonVal.obj kvs) pt st = some (st1, e) →
        st1.errors = st.errors ++
          [{ instancePath := st.instanceTokens.reverse,
             schemaPath := (st.schemaTokens.headD []).reverse ++ ["discriminator"] }]) ∧
    (∀ tag, lookupKey kvs s.discriminator = some tag → (∀ ts, tag ≠ JsonVal.str ts) →
      ∀ st1 e, validate tsOk (n + 1) s (JsonVal.obj kvs) pt st = some (st1, e) →
        st1.errors = st.errors ++
          [{ instancePath := st.instanceTokens.reverse ++ [s.discriminator],
             schemaPath := (st.schemaTokens.headD []).reverse ++ ["discriminator"] }]) ∧
    (∀ ts, lookupKey kvs s.discriminator = some (JsonVal.str ts) →
      lookupKey (s.mapping.getD []) ts = none →
      ∀ st1 e, validate tsOk (n + 1) s (JsonVal.obj kvs) pt st = some (st1, e) →
        st1.errors = st.errors ++
          [{ instancePath := st.instanceTokens.reverse ++ [s.discriminator],
             schemaPath := (st.schemaTokens.headD []).reverse ++ ["mapping"] }]) ∧
    (∀ ts branch, lookupKey kvs s.discriminator = some (JsonVal.str ts) →
      lookupKey (s.mapping.getD []) ts = some branch →
      validate tsOk (n + 1) s (JsonVal.obj kvs) pt st =
        andThen (validate tsOk n branch (JsonVal.obj kvs) (some s.discriminator)
            (pushSchemaToken ts (pushSchemaToken "mapping" st)))
          (fun st2 => some (popSchemaToken (popSchemaToken st2), none))) ∧
    (∀ (props opts : Option (List (String × Schema))) (k : String) (v : JsonVal)
      (rest : List (String × JsonVal)) (st2 : VState),
      extraLoop props opts (some k) ((k, v) :: rest) st2 =
        extraLoop props opts (some k) rest st2) ∧
    (∀ (s2 : Schema) (i : JsonVal) (pt2 : Option String) (st2 : VState),
      s2.form = Form.properties →
      validate tsOk (n + 1) s2 i pt2 st2 =
        if (s2.nullable && i.isNull) = true then some (st2, none)
        else validatePropertiesStep (fun a b st3 => validate tsOk n a b none st3)
          s2 i pt2 st2) := by
  obtain ⟨fr, frs, hst⟩ := List.exists_cons_of_ne_nil hfr
  refine ⟨?_, ?_, ?_, ?_, ?_, ?_⟩
  · intro hlk st1 e h
    simp only [validate] at h
    rw [if_neg (by simp [JsonVal.isNull])] at h
    simp only [hform] at h
    simp only [validateDiscriminatorStep, hlk] at h
    rw [errBracket_errors h (fun y => by simp)]
    simp [snapErr, pushSchemaToken, pushTok, hst]
  · intro tag hlk htag st1 e h
    simp only [validate] at h
    rw [if_neg (by simp [JsonVal.isNull])] at h
    simp only [hform] at h
    cases tag with
    | str ts => exact absurd rfl (htag ts)
    | null =>
      simp only [validateDiscriminatorStep, hlk] at h
      rw [errBracket_errors h (fun y => by simp)]
      simp [snapErr, pushSchemaToken, pushInstanceToken, pushTok, hst]
    | bool b =>
      simp only [validateDiscriminatorStep, hlk] at h
      rw [errBracket_errors h (fun y => by simp)]
      simp [snapErr, pushSchemaToken, pushInstanceToken, pushTok, hst]
    | num q =>
      simp only [validateDiscriminatorStep, hlk] at h
      rw [errBracket_errors h (fun y => by simp)]
      simp [snapErr, pushSchemaToken, pushInstanceToken, pushTok, hst]
    | arr xs =>
      simp only [validateDiscriminatorStep, hlk] at h
      rw [errBracket_errors h (fun y => by simp)]
      simp [snapErr, pushSchemaToken, pushInstanceToken, pushTok, hst]
    | obj kvs2 =>
      simp only [validateDiscriminatorStep, hlk] at h
      rw [errBracket_errors h (fun y => by simp)]
      simp [snapErr, pushSchemaToken, pushInstanceToken, pushTok, hst]
  · intro ts hlk hbr st1 e h
    simp only [validate] at h
    rw [if_neg (by simp [JsonVal.isNull])] at h
    simp only [hform] at h
    simp only [validateDiscriminatorStep, hlk, hbr] at h
    rw [errBracket_errors h (fun y => by simp)]
    simp [snapErr, pushSchemaToken, pushInstanceToken, pushTok, hst]
  · intro ts branch hlk hbr
    simp only [validate]
    rw [if_neg (by simp [JsonVal.isNull])]
    simp only [hform]
    simp only [validateDiscriminatorStep, hlk, hbr]
  · intro props opts k v rest st2
    simp [extraLoop]
  · intro s2 i pt2 st2 hform2
    simp only [validate]
    by_cases hn : (s2.nullable && i.isNull) = true
    · rw [if_pos hn, if_pos hn]
    · rw [if_neg hn, if_neg hn]
      simp only [hform2]

/-- C4 witness: discSchema on an object missing the "disc" key emits the
root-path "discriminator" indicator. -/
theorem spec_C4_witness :
    stOutC4.errors =
      (initState { maxDepth := 0, maxErrors := 0 } discSchema).errors ++
        [{ instancePath := (initState { maxDepth := 0, maxErrors := 0 }
              discSchema).instanceTokens.reverse,
           schemaPath := ((initState { maxDepth := 0, maxErrors := 0 }
              discSchema).schemaTokens.headD []).reverse ++ ["discriminator"] }] :=
  (spec_C4 (fun _ => true) 0 discSchema [] none
    (initState { maxDepth := 0, maxErrors := 0 } discSchema)
    (by rfl) (by simp [initState])).1 (by rfl) stOutC4 none (by rfl)


/-- C5: for a mapping branch whose recursive check passes, the checker
fails with NonPropertiesMapping when the branch is not Properties-form,
with MappingRepeatedDiscriminator when its properties or
optionalProperties contain the discriminator key, with NullableMapping
when it is nullable, and moves on when all three constraints hold; over a
whole mapping whose branches all pass recursively, the step succeeds
exactly when every branch satisfies all three constraints. -/
theorem spec_C5 (root : Schema) (disc : String) :
    (∀ (k : String) (m : Schema) (rest : List (String × Schema)),
      validateWithRoot false root m = none →
      (m.form ≠ Form.properties →
        checkMapping root disc ((k, m) :: rest) = some SchemaErr.nonPropertiesMapping) ∧
      (m.form = Form.properties →
        (hasKey (m.properties.getD []) disc || hasKey (m.optionalProperties.getD []) disc) = true →
        checkMapping root disc ((k, m) :: rest) = some SchemaErr.mappingRepeatedDiscriminator) ∧
      (m.form = Form.properties →
        hasKey (m.properties.getD []) disc = false →
        hasKey (m.optionalProperties.getD []) disc = false →
        m.nullable = true →
        checkMapping root disc ((k, m) :: rest) = some SchemaErr.nullableMapping) ∧
      (m.form = Form.properties →
        hasKey (m.properties.getD []) disc = false →
        hasKey (m.optionalProperties.getD []) disc = false →
        m.nullable = false →
        checkMapping root disc ((k, m) :: rest) = checkMapping root disc rest)) ∧
    (∀ l : List (String × Schema),
      (∀ kp ∈ l, validateWithRoot false root kp.2 = none) →
      (checkMapping root disc l = none ↔
        ∀ kp ∈ l, kp.2.form = Form.properties ∧
          hasKey (kp.2.properties.getD []) disc = false ∧
          hasKey (kp.2.optionalProperties.getD []) disc = false ∧
          kp.2.nullable = false)) := by
  have A : ∀ (k : String) (m : Schema) (rest : List (String × Schema)),
      validateWithRoot false root m = none →
      (m.form ≠ Form.properties →
        checkMapping root disc ((k, m) :: rest) = some SchemaErr.nonPropertiesMapping) ∧
      (m.form = Form.properties →
        (hasKey (m.properties.getD []) disc || hasKey (m.optionalProperties.getD []) disc) = true →
        checkMapping root disc ((k, m) :: rest) = some SchemaErr.mappingRepeatedDiscriminator) ∧
      (m.form = Form.properties →
        hasKey (m.properties.getD []) disc = false →
        hasKey (m.optionalProperties.getD []) disc = false →
        m.nullable = true →
        checkMapping root disc ((k, m) :: rest) = some SchemaErr.nullableMapping) ∧
      (m.form = Form.properties →
        hasKey (m.properties.getD []) disc = false →
        hasKey (m.optionalProperties.getD []) disc = false →
        m.nullable = false →
        checkMapping root disc ((k, m) :: rest) = checkMapping root disc rest) := by
    intro k m rest hrec
    refine ⟨?_, ?_, ?_, ?_⟩
    · intro hf
      simp [checkMapping, seqE, hrec, hf]
    · intro hf hk
      have hf' : ¬ (m.form ≠ Form.properties) := by simp [hf]
      by_cases hp : hasKey (m.properties.getD []) disc
      · simp [checkMapping, seqE, hrec, hf', hp]
      · have ho : hasKey (m.optionalProperties.getD []) disc = true := by
          have hk2 : hasKey (m.properties.getD []) disc = true ∨
              hasKey (m.optionalProperties.getD []) disc = true := by simpa using hk
          rcases hk2 with h | h
          · exact absurd h hp
          · exact h
        simp [checkMapping, seqE, hrec, hf', hp, ho]
    · intro hf hp ho hn
      have hf' : ¬ (m.form ≠ Form.properties) := by simp [hf]
      simp [checkMapping, seqE, hrec, hf', hp, ho, hn]
    · intro hf hp ho hn
      have hf' : ¬ (m.form ≠ Form.properties) := by simp [hf]
      simp [checkMapping, seqE, hrec, hf', hp, ho, hn]
  refine ⟨A, ?_⟩
  intro l
  induction l with
  | nil => intro h; simp [checkMapping]
  | cons kp rest ih =>
    intro hall
    obtain ⟨k, m⟩ := kp
    have hm := hall (k, m) (List.mem_cons_self _ _)
    have hrest := fun kp hk => hall kp (List.mem_cons_of_mem _ hk)
    have ihr := ih hrest
    by_cases h1 : m.form = Form.properties
    · by_cases h2 : hasKey (m.properties.getD []) disc
      · have hv := (A k m rest hm).2.1 h1 (by simp [h2])
        rw [hv]
        constructor
        · intro hcon; exact absurd hcon (by simp)
        · intro hall2
          have hx := (hall2 (k, m) (List.mem_cons_self _ _)).2.1
          exact absurd hx (by simp [h2])
      · have h2' : hasKey (m.properties.getD []) disc = false := by simpa using h2
        by_cases h3 : hasKey (m.optionalProperties.getD []) disc
        · have hv := (A k m rest hm).2.1 h1 (by simp [h3])
          rw [hv]
          constructor
          · intro hcon; exact absurd hcon (by simp)
          · intro hall2
            have hx := (hall2 (k, m) (List.mem_cons_self _ _)).2.2.1
            exact absurd hx (by simp [h3])
        · have h3' : hasKey (m.optionalProperties.getD []) disc = false := by simpa using h3
          by_cases h4 : m.nullable
          · have hv := (A k m rest hm).2.2.1 h1 h2' h3' (by simpa using h4)
            rw [hv]
            constructor
            · intro hcon; exact absurd hcon (by simp)
            · intro hall2
              have hx := (hall2 (k, m) (List.mem_cons_self _ _)).2.2.2
              exact absurd hx (by simp [h4])
          · have h4' : m.nullable = false := by simpa using h4
            have hv := (A k m rest hm).2.2.2 h1 h2' h3' h4'
            rw [hv, ihr]
            constructor
            · intro hall2 kp hkp
              rcases List.mem_cons.mp hkp with heq | hmem
              · subst heq
                exact ⟨h1, h2', h3', h4'⟩
              · exact hall2 kp hmem
            · intro hall2 kp hkp
              exact hall2 kp (List.mem_cons_of_mem _ hkp)
    · have hv := (A k m rest hm).1 h1
      rw [hv]
      constructor
      · intro hcon; exact absurd hcon (by simp)
      · intro hall2
        exact absurd (hall2 (k, m) (List.mem_cons_self _ _)).1 h1

/-- C5 witness: a compliant properties-form branch passes all three
constraints and the loop moves on to the rest. -/
theorem spec_C5_witness :
    checkMapping Schema.zeroValue "t" [("x", propBranch)] =
      checkMapping Schema.zeroValue "t" [] :=
  ((spec_C5 Schema.zeroValue "t").1 "x" propBranch []
    (by simp [validateWithRoot_unfold, propBranch, formSignature, validForms, seqE,
      refCheck, typeCheck, enumCheck, checkProps, checkList, Schema.definitions,
      Schema.ref, Schema.type, Schema.enum, Schema.elements, Schema.properties,
      Schema.optionalProperties, Schema.additionalProperties, Schema.values,
      Schema.discriminator, Schema.mapping, Schema.nullable])).2.2.2
    (by rfl) (by rfl) (by rfl) (by rfl)


lemma child_of_definitions {s : Schema} {l : List (String × Schema)}
    (hd : s.definitions = some l) {kp : String × Schema} (hkp : kp ∈ l) :
    kp.2 ∈ s.childSchemas := by
  unfold Schema.childSchemas
  rw [hd]
  exact List.mem_append_left _ (List.mem_append_left _ (List.mem_append_left _
    (List.mem_append_left _ (List.mem_append_left _ (List.mem_map_of_mem Prod.snd hkp)))))

lemma child_of_elements {s : Schema} {e : Schema} (hel : s.elements = some e) :
    e ∈ s.childSchemas := by
  unfold Schema.childSchemas
  rw [hel]
  exact List.mem_append_left _ (List.mem_append_left _ (List.mem_append_left _
    (List.mem_append_left _ (List.mem_append_right _ (List.mem_singleton_self e)))))

lemma child_of_properties {s : Schema} {l : List (String × Schema)}
    (hp : s.properties = some l) {kp : String × Schema} (hkp : kp ∈ l) :
    kp.2 ∈ s.childSchemas := by
  unfold Schema.childSchemas
  rw [hp]
  exact List.mem_append_left _ (List.mem_append_left _ (List.mem_append_left _
    (List.mem_append_right _ (List.mem_map_of_mem Prod.snd hkp))))

lemma child_of_optionalProperties {s : Schema} {l : List (String × Schema)}
    (hop : s.optionalProperties = some l) {kp : String × Schema} (hkp : kp ∈ l) :
    kp.2 ∈ s.childSchemas := by
  unfold Schema.childSchemas
  rw [hop]
  exact List.mem_append_left _ (List.mem_append_left _
    (List.mem_append_right _ (List.mem_map_of_mem Prod.snd hkp)))

lemma child_of_values {s : Schema} {v : Schema} (hv : s.values = some v) :
    v ∈ s.childSchemas := by
  unfold Schema.childSchemas
  rw [hv]
  exact List.mem_append_left _ (List.mem_append_right _ (List.mem_singleton_self v))

lemma child_of_mapping {s : Schema} {l : List (String × Schema)}
    (hm : s.mapping = some l) {kp : String × Schema} (hkp : kp ∈ l) :
    kp.2 ∈ s.childSchemas := by
  unfold Schema.childSchemas
  rw [hm]
  exact List.mem_append_right _ (List.mem_map_of_mem Prod.snd hkp)

/-- C3 counterexample: elemParent carries the admissible elements-form
keyword signature, yet the checker answers ErrInvalidForm — the error is
raised by the nested element schema, whose only keyword is
additionalProperties.  This refutes the claimed biconditional in the
only-if direction. -/
theorem spec_C3_counterexample :
    validForms.contains (formSignature elemParent) = true ∧
    Schema.check elemParent = some SchemaErr.invalidForm := by
  constructor
  · decide
  · simp [Schema.check, validateWithRoot_unfold, elemParent, badChild, formSignature,
      validForms, seqE, refCheck, typeCheck, enumCheck, Schema.definitions,
      Schema.ref, Schema.type, Schema.enum, Schema.elements, Schema.properties,
      Schema.optionalProperties, Schema.additionalProperties, Schema.values,
      Schema.discriminator, Schema.mapping, Schema.nullable]

/-- C3 (amended): a signature outside the 13 admissible patterns always
yields ErrInvalidForm; the converse — ErrInvalidForm only from an
inadmissible signature — holds provided every directly contained schema
itself passes the checker (otherwise a nested schema can raise
ErrInvalidForm under an admissible top-level signature); in particular
the additionalProperties-only, discriminator-only and mapping-only
signatures are rejected with ErrInvalidForm. -/
theorem spec_C3 (isRoot : Bool) (root s : Schema) :
    (validForms.contains (formSignature s) = false →
      validateWithRoot isRoot root s = some SchemaErr.invalidForm) ∧
    ((∀ c ∈ s.childSchemas, validateWithRoot false root c = none) →
      (validateWithRoot isRoot root s = some SchemaErr.invalidForm ↔
        validForms.contains (formSignature s) = false)) ∧
    (formSignature s = [false, false, false, false, false, false, true, false, false, false] →
      validateWithRoot isRoot root s = some SchemaErr.invalidForm) ∧
    (formSignature s = [false, false, false, false, false, false, false, false, true, false] →
      validateWithRoot isRoot root s = some SchemaErr.invalidForm) ∧
    (formSignature s = [false, false, false, false, false, false, false, false, false, true] →
      validateWithRoot isRoot root s = some SchemaErr.invalidForm) := by
  have part1 : validForms.contains (formSignature s) = false →
      validateWithRoot isRoot root s = some SchemaErr.invalidForm := by
    intro h
    rw [validateWithRoot_unfold, if_pos h]
  refine ⟨part1, ?_, ?_, ?_, ?_⟩
  · intro hch
    refine ⟨fun hInv => ?_, part1⟩
    by_contra hc
    have hc' : validForms.contains (formSignature s) = true := by
      revert hc; cases validForms.contains (formSignature s) <;> simp
    rw [validateWithRoot_unfold] at hInv
    rw [if_neg (by intro hcon; rw [hc'] at hcon; exact Bool.noConfusion hcon)] at hInv
    by_cases hnr : (s.definitions.isSome && !isRoot) = true
    · rw [if_pos hnr] at hInv
      simp at hInv
    · rw [if_neg hnr] at hInv
      rcases seqE_eq_some hInv with h1 | ⟨h1, hInv2⟩
      · cases hd : s.definitions with
        | none => rw [hd] at h1; simp at h1
        | some l =>
          rw [hd] at h1
          simp only [] at h1
          rw [checkList_none root l
            (fun kp hkp => hch kp.2 (child_of_definitions hd hkp))] at h1
          simp at h1
      · rcases seqE_eq_some hInv2 with h2 | ⟨h2, hInv3⟩
        · exact absurd h2 (refCheck_no_invalidForm root s.ref)
        · rcases seqE_eq_some hInv3 with h3 | ⟨h3, hInv4⟩
          · exact absurd h3 (typeCheck_no_invalidForm s.type)
          · rcases seqE_eq_some hInv4 with h4 | ⟨h4, hInv5⟩
            · exact absurd h4 (enumCheck_no_invalidForm s.enum)
            · rcases seqE_eq_some hInv5 with h5 | ⟨h5, hInv6⟩
              · cases hel : s.elements with
                | none => rw [hel] at h5; simp at h5
                | some e =>
                  rw [hel] at h5
                  simp only [] at h5
                  rw [hch e (child_of_elements hel)] at h5
                  simp at h5
              · rcases seqE_eq_some hInv6 with h6 | ⟨h6, hInv7⟩
                · cases hp : s.properties with
                  | none => rw [hp] at h6; simp at h6
                  | some l =>
                    rw [hp] at h6
                    simp only [] at h6
                    exact absurd h6 (checkProps_no_invalidForm root s.optionalProperties l
                      (fun kp hkp => hch kp.2 (child_of_properties hp hkp)))
                · rcases seqE_eq_some hInv7 with h7 | ⟨h7, hInv8⟩
                  · cases hop : s.optionalProperties with
                    | none => rw [hop] at h7; simp at h7
                    | some l =>
                      rw [hop] at h7
                      simp only [] at h7
                      rw [checkList_none root l
                        (fun kp hkp => hch kp.2 (child_of_optionalProperties hop hkp))] at h7
                      simp at h7
                  · rcases seqE_eq_some hInv8 with h8 | ⟨h8, hInv9⟩
                    · cases hv : s.values with
                      | none => rw [hv] at h8; simp at h8
                      | some v =>
                        rw [hv] at h8
                        simp only [] at h8
                        rw [hch v (child_of_values hv)] at h8
                        simp at h8
                    · cases hm : s.mapping with
                      | none => rw [hm] at hInv9; simp at hInv9
                      | some l =>
                        rw [hm] at hInv9
                        simp only [] at hInv9
                        exact absurd hInv9 (checkMapping_no_invalidForm root s.discriminator l
                          (fun kp hkp => hch kp.2 (child_of_mapping hm hkp)))
  · intro hsig
    exact part1 (by rw [hsig]; decide)
  · intro hsig
    exact part1 (by rw [hsig]; decide)
  · intro hsig
    exact part1 (by rw [hsig]; decide)

/-- C3 witness: the additionalProperties-only schema is rejected with
ErrInvalidForm. -/
theorem spec_C3_witness :
    validateWithRoot true Schema.zeroValue badChild = some SchemaErr.invalidForm :=
  (spec_C3 true Schema.zeroValue badChild).2.2.1 (by decide)

end Jtd
